import Mathlib

/-!
Verification development for the `docod` repository (Go).

Shallow embedding conventions used throughout this file:
* Go `float64` values are modelled as exact rationals (`ℚ`); every claim
  settled here is an arithmetic/structural property that does not hinge on
  IEEE-754 rounding.
* Go `int` is modelled as `Int` (no overflow is reachable in the embedded
  code paths), `string` as `List Char` (`Str`) with Go-faithful helpers
  (`goTrimSpace`, `goSplitChar`, ...), and Go maps as association lists
  whose behaviour (zero values, upsert) is made explicit.
* Effectful Go functions (SQLite writes, file writes) are modelled as pure
  state transformers on an explicit state record mirroring the tables or
  the file system interactions of the original function.
-/

/-! ## Go string primitives -/

/-- Go strings are byte strings; we model them as lists of characters and
convert literals with `S`. All embedded code only manipulates whole
characters, so this is faithful for the inputs considered. -/
abbrev Str := List Char

def S (s : String) : Str := s.data

/-- Whitespace predicate of Go `unicode.IsSpace` (the rune set used by
`strings.TrimSpace`). -/
def goIsSpace (c : Char) : Bool :=
  c = ' ' || c = '\t' || c = '\n' || c = Char.ofNat 11 || c = Char.ofNat 12 ||
  c = '\r' || c = Char.ofNat 0x85 || c = Char.ofNat 0xA0 ||
  c = Char.ofNat 0x1680 ||
  (0x2000 ≤ c.toNat && c.toNat ≤ 0x200A) ||
  c = Char.ofNat 0x2028 || c = Char.ofNat 0x2029 ||
  c = Char.ofNat 0x202F || c = Char.ofNat 0x205F || c = Char.ofNat 0x3000

/-- Model of Go `strings.TrimSpace`. -/
def goTrimSpace (s : Str) : Str :=
  ((s.dropWhile goIsSpace).reverse.dropWhile goIsSpace).reverse

/-- Model of Go `strings.Split(s, sep)` for a single-character separator. -/
def goSplitChar (sep : Char) : Str → List Str
  | [] => [[]]
  | c :: rest =>
    match goSplitChar sep rest with
    | [] => [[c]]
    | h :: t => if c = sep then [] :: h :: t else (c :: h) :: t

/-- Model of Go `strings.Join(xs, sep)` for a single-character separator. -/
def goJoinChar (sep : Char) (xs : List Str) : Str :=
  match xs with
  | [] => []
  | [x] => x
  | x :: rest => x ++ sep :: goJoinChar sep rest

/-- Model of Go `strings.HasPrefix`. -/
def goStartsWith (pre s : Str) : Bool := s.take pre.length = pre

/-- Model of Go `strings.Repeat` for a single character. -/
def goRepeatChar (c : Char) (n : Nat) : Str := List.replicate n c

/-- Model of Go `strings.Contains` (substring search). -/
def goContains (s sub : Str) : Bool :=
  decide (List.IsInfix sub s)

/-- First-match association-list lookup (Go map read; keys are unique). -/
def alookup {α : Type} : List (Str × α) → Str → Option α
  | [], _ => none
  | p :: rest, k => if p.1 = k then some p.2 else alookup rest k

/-- Appends `x` unless present; models writing a key into a Go map used as
a set. -/
def insertIfAbsent (l : List Str) (x : Str) : List Str :=
  if x ∈ l then l else l ++ [x]

/-- Write-through update of an association list (updates the existing key
or appends a new entry), modelling Go map assignment. -/
def setAssoc {α : Type} (m : List (Str × α)) (k : Str) (v : α) : List (Str × α) :=
  if m.any (fun p => p.1 = k) then m.map (fun p => if p.1 = k then (k, v) else p)
  else m ++ [(k, v)]

/-! ## Relation confidence calibration (`internal/extractor/extractor.go`) -/

namespace extractor

/-- Field layout of `extractor.Evidence` (only the fields the embedded code
reads). -/
structure Evidence where
  filepath : String
  startLine : Int
  endLine : Int
deriving DecidableEq, Repr

/-- Go `baseConfidence` from `internal/extractor/extractor.go`. -/
def baseConfidence (kind : String) : ℚ :=
  if kind = "belongs_to" then 0.8
  else if kind = "instantiates" then 0.72
  else if kind = "calls" then 0.7
  else if kind = "uses_type" then 0.65
  else if kind = "embeds" then 0.6
  else 0.55

/-- Go `clamp` from `internal/extractor/extractor.go`. -/
def clamp (v mn mx : ℚ) : ℚ :=
  if v < mn then mn
  else if v > mx then mx
  else v

/-- Go `CalibrateRelationConfidence` from `internal/extractor/extractor.go`.
The `switch resolver` and the two evidence checks are translated branch by
branch. -/
def CalibrateRelationConfidence (kind resolver : String) (evidence : Evidence) : ℚ :=
  let base := baseConfidence kind
  let base :=
    if resolver = "types" then base + 0.18
    else if resolver = "ast_heuristic" then base
    else base - 0.03
  let base := if evidence.filepath = "" then base - 0.05 else base
  let base :=
    if evidence.startLine ≤ 0 ∨ evidence.endLine < evidence.startLine then base - 0.05
    else base
  clamp base 0.1 0.99

/-- Formula asserted by the specification for the calibration function:
base table plus additive modifiers, clamped to `[0.10, 0.99]`. -/
def calibrateSpecFormula (kind resolver : String) (evidence : Evidence) : ℚ :=
  let base :=
    if kind = "belongs_to" then (0.80 : ℚ)
    else if kind = "instantiates" then 0.72
    else if kind = "calls" then 0.70
    else if kind = "uses_type" then 0.65
    else if kind = "embeds" then 0.60
    else 0.55
  let v := base
    + (if resolver = "types" then (0.18 : ℚ) else 0)
    - (if resolver ≠ "types" ∧ resolver ≠ "ast_heuristic" then (0.03 : ℚ) else 0)
    - (if evidence.filepath = "" then (0.05 : ℚ) else 0)
    - (if evidence.startLine ≤ 0 ∨ evidence.endLine < evidence.startLine then (0.05 : ℚ) else 0)
  clamp v 0.1 0.99

theorem clamp_bounds (v mn mx : ℚ) (h : mn ≤ mx) :
    mn ≤ clamp v mn mx ∧ clamp v mn mx ≤ mx := by
  unfold clamp
  split_ifs with h1 h2
  · exact ⟨le_refl mn, h⟩
  · exact ⟨h, le_refl mx⟩
  · exact ⟨le_of_not_lt h1, le_of_not_lt h2⟩

end extractor

/-- C4: `CalibrateRelationConfidence` returns the kind-base confidence
(belongs_to 0.80, instantiates 0.72, calls 0.70, uses_type 0.65,
embeds 0.60, otherwise 0.55) plus 0.18 for resolver "types", minus 0.03
for an unknown resolver, minus 0.05 for a missing evidence file and a
further 0.05 for a missing/invalid line range, clamped to `[0.10, 0.99]`;
in particular the result always lies in `[0.10, 0.99]`. -/
theorem C4_calibrate_relation_confidence (kind resolver : String)
    (ev : extractor.Evidence) :
    extractor.CalibrateRelationConfidence kind resolver ev =
      extractor.calibrateSpecFormula kind resolver ev ∧
    (1 : ℚ)/10 ≤ extractor.CalibrateRelationConfidence kind resolver ev ∧
    extractor.CalibrateRelationConfidence kind resolver ev ≤ 99/100 := by
  refine ⟨?_, ?_, ?_⟩
  · unfold extractor.CalibrateRelationConfidence extractor.calibrateSpecFormula
      extractor.baseConfidence
    split_ifs <;> simp_all <;> norm_num
  · have h := extractor.clamp_bounds
      (let base := extractor.baseConfidence kind
       let base :=
         if resolver = "types" then base + 0.18
         else if resolver = "ast_heuristic" then base
         else base - 0.03
       let base := if ev.filepath = "" then base - 0.05 else base
       if ev.startLine ≤ 0 ∨ ev.endLine < ev.startLine then base - 0.05 else base)
      0.1 0.99 (by norm_num)
    have : extractor.CalibrateRelationConfidence kind resolver ev =
        extractor.clamp
          (let base := extractor.baseConfidence kind
           let base :=
             if resolver = "types" then base + 0.18
             else if resolver = "ast_heuristic" then base
             else base - 0.03
           let base := if ev.filepath = "" then base - 0.05 else base
           if ev.startLine ≤ 0 ∨ ev.endLine < ev.startLine then base - 0.05 else base)
          0.1 0.99 := rfl
    rw [this]
    exact le_trans (by norm_num) h.1
  · have h := extractor.clamp_bounds
      (let base := extractor.baseConfidence kind
       let base :=
         if resolver = "types" then base + 0.18
         else if resolver = "ast_heuristic" then base
         else base - 0.03
       let base := if ev.filepath = "" then base - 0.05 else base
       if ev.startLine ≤ 0 ∨ ev.endLine < ev.startLine then base - 0.05 else base)
      0.1 0.99 (by norm_num)
    have : extractor.CalibrateRelationConfidence kind resolver ev =
        extractor.clamp
          (let base := extractor.baseConfidence kind
           let base :=
             if resolver = "types" then base + 0.18
             else if resolver = "ast_heuristic" then base
             else base - 0.03
           let base := if ev.filepath = "" then base - 0.05 else base
           if ev.startLine ≤ 0 ∨ ev.endLine < ev.startLine then base - 0.05 else base)
          0.1 0.99 := rfl
    rw [this]
    exact le_trans h.2 (by norm_num)

/-! ## Knowledge-engine data model (`internal/knowledge/engine.go`) -/

namespace knowledge

/-- Field layout of `knowledge.ChunkSource`. -/
structure ChunkSource where
  symbolID : Str
  filePath : Str
  startLine : Int
  endLine : Int
  relation : Str
  confidence : ℚ
deriving DecidableEq, Repr

/-- Field layout of `knowledge.SearchChunk`. -/
structure SearchChunk where
  id : Str
  filePath : Str
  name : Str
  unitType : Str
  package : Str
  description : Str
  signature : Str
  content : Str
  contentHash : Str
  dependencies : List Str
  usedBy : List Str
  sources : List ChunkSource
deriving DecidableEq, Repr

/-- Field layout of `knowledge.VectorItem`; the `float32` embedding vector is
modelled as a list of rationals. -/
structure VectorItem where
  chunk : SearchChunk
  embedding : List ℚ
deriving DecidableEq, Repr

end knowledge

/-! ## Legacy in-memory vector index (`src/unnamed/part_016`) -/

namespace knowledgePart016

/-- State of the legacy `MemoryIndex` of `src/unnamed/part_016`: the item
slice and the `hashes map[string]bool` (modelled as the list of chunk IDs
mapped to `true`). The `graph` field is irrelevant to `Add` and omitted. -/
structure MemoryIndex where
  items : List knowledge.VectorItem
  hashes : List Str
deriving DecidableEq, Repr

/-- Go `NewMemoryIndex` of `src/unnamed/part_016` (empty items, empty hash
set). -/
def NewMemoryIndex : MemoryIndex := ⟨[], []⟩

/-- Go `MemoryIndex.Add` of `src/unnamed/part_016`: appends each incoming
item unless its chunk ID is already in the `hashes` set. -/
def MemoryIndexAdd (m : MemoryIndex) (items : List knowledge.VectorItem) : MemoryIndex :=
  items.foldl
    (fun st item =>
      if item.chunk.id ∈ st.hashes then st
      else { items := st.items ++ [item], hashes := st.hashes ++ [item.chunk.id] })
    m

/-- Specification-side first-occurrence deduplication: keeps the first item
seen for every chunk ID not already in `seen`. -/
def dedupFirstByIDFrom (seen : List Str) : List knowledge.VectorItem → List knowledge.VectorItem
  | [] => []
  | item :: rest =>
    if item.chunk.id ∈ seen then dedupFirstByIDFrom seen rest
    else item :: dedupFirstByIDFrom (seen ++ [item.chunk.id]) rest

/-- Specification-side behaviour claimed for `Add`: the retained items are
the first occurrence of each chunk ID, in arrival order. -/
def dedupFirstByID (items : List knowledge.VectorItem) : List knowledge.VectorItem :=
  dedupFirstByIDFrom [] items

theorem memoryIndexAdd_spec (items : List knowledge.VectorItem) :
    ∀ m : MemoryIndex,
      (MemoryIndexAdd m items).items = m.items ++ dedupFirstByIDFrom m.hashes items ∧
      (MemoryIndexAdd m items).hashes =
        m.hashes ++ (dedupFirstByIDFrom m.hashes items).map (·.chunk.id) := by
  induction items with
  | nil => intro m; simp [MemoryIndexAdd, dedupFirstByIDFrom]
  | cons item rest ih =>
    intro m
    by_cases hmem : item.chunk.id ∈ m.hashes
    · have step : MemoryIndexAdd m (item :: rest) = MemoryIndexAdd m rest := by
        simp [MemoryIndexAdd, hmem]
      rw [step]
      simpa [dedupFirstByIDFrom, hmem] using ih m
    · have step : MemoryIndexAdd m (item :: rest) =
          MemoryIndexAdd ⟨m.items ++ [item], m.hashes ++ [item.chunk.id]⟩ rest := by
        simp [MemoryIndexAdd, hmem]
      rw [step]
      have h := ih ⟨m.items ++ [item], m.hashes ++ [item.chunk.id]⟩
      refine ⟨?_, ?_⟩
      · rw [h.1]
        simp [dedupFirstByIDFrom, hmem]
      · rw [h.2]
        simp [dedupFirstByIDFrom, hmem]

theorem dedupFirstByIDFrom_append (seen : List Str)
    (xs ys : List knowledge.VectorItem) :
    dedupFirstByIDFrom seen (xs ++ ys) =
      dedupFirstByIDFrom seen xs ++
        dedupFirstByIDFrom (seen ++ (dedupFirstByIDFrom seen xs).map (·.chunk.id)) ys := by
  induction xs generalizing seen with
  | nil => simp [dedupFirstByIDFrom]
  | cons item rest ih =>
    by_cases hmem : item.chunk.id ∈ seen
    · simpa [dedupFirstByIDFrom, hmem] using ih seen
    · simp only [List.cons_append, dedupFirstByIDFrom, hmem, if_false, List.map_cons,
        List.append_eq]
      rw [ih (seen ++ [item.chunk.id])]
      simp

theorem dedupFirstByIDFrom_nodup (items : List knowledge.VectorItem) :
    ∀ seen : List Str,
      ((dedupFirstByIDFrom seen items).map (·.chunk.id)).Nodup ∧
      (∀ id, id ∈ (dedupFirstByIDFrom seen items).map (·.chunk.id) → id ∉ seen) := by
  induction items with
  | nil => intro seen; simp [dedupFirstByIDFrom]
  | cons item rest ih =>
    intro seen
    by_cases hmem : item.chunk.id ∈ seen
    · simpa [dedupFirstByIDFrom, hmem] using ih seen
    · have h := ih (seen ++ [item.chunk.id])
      simp only [dedupFirstByIDFrom, hmem, if_false, List.map_cons, List.nodup_cons]
      refine ⟨⟨?_, h.1⟩, ?_⟩
      · intro hc
        exact (h.2 _ hc) (by simp)
      · intro id hid
        rcases List.mem_cons.mp hid with hid1 | hid1
        · simpa [hid1] using hmem
        · intro hc
          exact (h.2 _ hid1) (by simp [hc])

theorem memoryIndexAdd_foldl (batches : List (List knowledge.VectorItem)) :
    ∀ m : MemoryIndex,
      (batches.foldl MemoryIndexAdd m).items =
        m.items ++ dedupFirstByIDFrom m.hashes batches.flatten ∧
      (batches.foldl MemoryIndexAdd m).hashes =
        m.hashes ++ (dedupFirstByIDFrom m.hashes batches.flatten).map (·.chunk.id) := by
  induction batches with
  | nil => intro m; simp [dedupFirstByIDFrom]
  | cons batch rest ih =>
    intro m
    have h1 := memoryIndexAdd_spec batch m
    have h2 := ih (MemoryIndexAdd m batch)
    simp only [List.foldl_cons, List.flatten_cons]
    rw [dedupFirstByIDFrom_append]
    constructor
    · rw [h2.1, h1.1, h1.2, List.append_assoc]
    · rw [h2.2, h1.2]
      simp [List.map_append, List.append_assoc]

end knowledgePart016

/-- C10: starting from a fresh legacy `MemoryIndex` (`src/unnamed/part_016`),
any sequence of `Add` calls stores exactly the first incoming item for each
chunk ID (later items with an already-present chunk ID are silently
ignored, keeping the original chunk and embedding), so the index never
holds two items with the same chunk ID. -/
theorem C10_memory_index_add_unique (batches : List (List knowledge.VectorItem)) :
    (batches.foldl knowledgePart016.MemoryIndexAdd knowledgePart016.NewMemoryIndex).items =
      knowledgePart016.dedupFirstByID batches.flatten ∧
    ((batches.foldl knowledgePart016.MemoryIndexAdd knowledgePart016.NewMemoryIndex).items.map
      (·.chunk.id)).Nodup := by
  have h := knowledgePart016.memoryIndexAdd_foldl batches knowledgePart016.NewMemoryIndex
  constructor
  · simpa [knowledgePart016.NewMemoryIndex, knowledgePart016.dedupFirstByID] using h.1
  · rw [h.1]
    simpa [knowledgePart016.NewMemoryIndex] using
      (knowledgePart016.dedupFirstByIDFrom_nodup batches.flatten []).1

/-! ## Embedding change filter (`internal/knowledge/engine.go`, C9) -/

namespace knowledge

/-- Result of the `IndexContentHashReader` capability: either the type
assertion fails (`none`), or the index supplies `GetContentHashes`, which
returns a hash map (association list) or an error. -/
abbrev HashReader := Option (List Str → Except Unit (List (Str × Str)))

/-- Go helper inside `filterChunksForEmbedding` that collects the IDs sent
to `GetContentHashes`: chunk IDs whose trimmed form is non-empty (the
original, untrimmed ID is appended). -/
def chunkHashQueryIDs (chunks : List SearchChunk) : List Str :=
  (chunks.map (·.id)).filter (fun id => goTrimSpace id ≠ [])

/-- Go `Engine.filterChunksForEmbedding` from `internal/knowledge/engine.go`,
with the index capability abstracted as `HashReader`. -/
def filterChunksForEmbedding (reader : HashReader) (chunks : List SearchChunk) :
    List SearchChunk :=
  if chunks = [] then []
  else
    match reader with
    | none => chunks
    | some getHashes =>
      let ids := chunkHashQueryIDs chunks
      if ids = [] then chunks
      else
        match getHashes ids with
        | .error _ => chunks
        | .ok existing =>
          if existing = [] then chunks
          else
            chunks.filter (fun c =>
              let id := goTrimSpace c.id
              if id = [] then false
              else
                match existing.lookup id with
                | some oldHash =>
                  ¬(oldHash ≠ [] ∧ c.contentHash ≠ [] ∧ oldHash = c.contentHash)
                | none => true)

/-- Filter predicted by the claim as written: a chunk is dropped exactly
when the hash stored in the index under its ID equals its newly computed
hash. -/
def claimUnchangedHashFilter (existing : List (Str × Str)) (chunks : List SearchChunk) :
    List SearchChunk :=
  chunks.filter (fun c => ¬ existing.lookup c.id = some c.contentHash)

/-- Amended keep-predicate: a chunk survives active filtering exactly when
its trimmed ID is non-empty and it is not the case that the stored hash for
the trimmed ID and the newly computed hash are both non-empty and equal. -/
def amendedKeepsChunk (existing : List (Str × Str)) (c : SearchChunk) : Prop :=
  goTrimSpace c.id ≠ [] ∧
  ¬(∃ oldHash, existing.lookup (goTrimSpace c.id) = some oldHash ∧
      oldHash ≠ [] ∧ c.contentHash ≠ [] ∧ oldHash = c.contentHash)

instance (existing : List (Str × Str)) (c : SearchChunk) :
    Decidable (amendedKeepsChunk existing c) := by
  unfold amendedKeepsChunk
  infer_instance

/-- Amended filter for the active case, phrased from the amended claim. -/
def amendedActiveFilter (existing : List (Str × Str)) (chunks : List SearchChunk) :
    List SearchChunk :=
  chunks.filter (fun c => decide (amendedKeepsChunk existing c))

end knowledge

theorem filterChunks_pred_eq (existing : List (Str × Str)) (c : knowledge.SearchChunk) :
    (let id := goTrimSpace c.id
     if id = [] then false
     else
       match existing.lookup id with
       | some oldHash =>
         decide ¬(oldHash ≠ [] ∧ c.contentHash ≠ [] ∧ oldHash = c.contentHash)
       | none => true) =
    decide (knowledge.amendedKeepsChunk existing c) := by
  by_cases hid : goTrimSpace c.id = []
  · simp [hid, knowledge.amendedKeepsChunk]
  · cases hlk : (existing.lookup (goTrimSpace c.id)) with
    | none => simp [hid, hlk, knowledge.amendedKeepsChunk]
    | some oldHash =>
      simp only [hid, if_false, hlk]
      by_cases hdrop : oldHash ≠ [] ∧ c.contentHash ≠ [] ∧ oldHash = c.contentHash
      · simp [knowledge.amendedKeepsChunk, hlk, hdrop]
      · simp [knowledge.amendedKeepsChunk, hlk, hdrop, hid]

/-- C9 (amended): when the index lacks the stored-content-hash capability,
the hash read fails, the returned hash map is empty, or no chunk has a
non-blank ID, every prepared chunk is kept; when filtering is active, a
chunk is dropped exactly when its trimmed ID is blank or when the stored
hash for its trimmed ID and its newly computed hash are both non-empty and
equal. -/
theorem C9_change_filter_amended (chunks : List knowledge.SearchChunk)
    (f : List Str → Except Unit (List (Str × Str))) (existing : List (Str × Str)) :
    knowledge.filterChunksForEmbedding none chunks = chunks ∧
    (f (knowledge.chunkHashQueryIDs chunks) = .error () →
      knowledge.filterChunksForEmbedding (some f) chunks = chunks) ∧
    (f (knowledge.chunkHashQueryIDs chunks) = .ok [] →
      knowledge.filterChunksForEmbedding (some f) chunks = chunks) ∧
    (knowledge.chunkHashQueryIDs chunks = [] →
      knowledge.filterChunksForEmbedding (some f) chunks = chunks) ∧
    (f (knowledge.chunkHashQueryIDs chunks) = .ok existing → existing ≠ [] →
      knowledge.chunkHashQueryIDs chunks ≠ [] →
      knowledge.filterChunksForEmbedding (some f) chunks =
        knowledge.amendedActiveFilter existing chunks) := by
  by_cases hc : chunks = []
  · subst hc
    refine ⟨rfl, fun _ => rfl, fun _ => rfl, fun _ => rfl, fun _ _ _ => ?_⟩
    simp [knowledge.filterChunksForEmbedding, knowledge.amendedActiveFilter]
  · refine ⟨?_, ?_, ?_, ?_, ?_⟩
    · simp [knowledge.filterChunksForEmbedding, hc]
    · intro herr
      by_cases hids : knowledge.chunkHashQueryIDs chunks = []
      · simp [knowledge.filterChunksForEmbedding, hc, hids]
      · simp [knowledge.filterChunksForEmbedding, hc, hids, herr]
    · intro hok
      by_cases hids : knowledge.chunkHashQueryIDs chunks = []
      · simp [knowledge.filterChunksForEmbedding, hc, hids]
      · simp [knowledge.filterChunksForEmbedding, hc, hids, hok]
    · intro hids
      simp [knowledge.filterChunksForEmbedding, hc, hids]
    · intro hok hne hids
      simp only [knowledge.filterChunksForEmbedding, hc, if_neg hc, hids, if_neg hids, hok,
        hne, if_neg hne, knowledge.amendedActiveFilter]
      exact List.filter_congr fun c _ => filterChunks_pred_eq existing c

/-- Minimal chunk constructor used by concrete instances: only the ID and
content hash are populated. -/
def mkBareChunk (id hash : Str) : knowledge.SearchChunk :=
  { id := id, filePath := [], name := [], unitType := [], package := [],
    description := [], signature := [], content := [], contentHash := hash,
    dependencies := [], usedBy := [], sources := [] }

def c9blank : knowledge.SearchChunk := mkBareChunk (S " ") (S "x")

def c9a : knowledge.SearchChunk := mkBareChunk (S "a") (S "h1")

def c9e : knowledge.SearchChunk := mkBareChunk (S "e") []

def c9existing : List (Str × Str) := [(S "a", S "h1"), (S "e", [])]

def c9reader : List Str → Except Unit (List (Str × Str)) := fun _ => .ok c9existing

def c9readerErr : List Str → Except Unit (List (Str × Str)) := fun _ => .error ()

/-- C9 (counterexample): with stored hashes `a ↦ "h1"`, `e ↦ ""` the filter
keeps the chunk `e` although its stored hash equals its (empty) new hash,
and drops the blank-ID chunk although no stored hash matches it; the
claim-predicted filter output differs from the code output. -/
theorem C9_counterexample :
    knowledge.filterChunksForEmbedding (some c9reader) [c9blank, c9a, c9e] = [c9e] ∧
    knowledge.claimUnchangedHashFilter c9existing [c9blank, c9a, c9e] = [c9blank] ∧
    ([c9e] : List knowledge.SearchChunk) ≠ [c9blank] := by
  refine ⟨?_, ?_, ?_⟩ <;> decide

/-- C9 (witness): the amended theorem applied at a concrete failing reader
and at a concrete active reader. -/
theorem C9_change_filter_amended_witness :
    knowledge.filterChunksForEmbedding (some c9readerErr) [c9blank, c9a, c9e] =
      [c9blank, c9a, c9e] ∧
    knowledge.filterChunksForEmbedding (some c9reader) [c9blank, c9a, c9e] =
      knowledge.amendedActiveFilter c9existing [c9blank, c9a, c9e] :=
  ⟨(C9_change_filter_amended [c9blank, c9a, c9e] c9readerErr c9existing).2.1 rfl,
   (C9_change_filter_amended [c9blank, c9a, c9e] c9reader c9existing).2.2.2.2 rfl
     (by decide) (by decide)⟩

/-! ## Persistent store (`internal/storage/sqlite.go`, C1) -/

namespace graphSrc

/-- Field layout of `extractor.CodeUnit` as consumed by the SQLite store
(the columns of the `nodes` table). The revision of `schema.go` under
`src/` predates the `Package`/`ContentHash` fields that `sqlite.go` reads;
they are included here following the callers and spec section 3. The
`Details` payload is carried as its JSON-marshalled string. -/
structure CodeUnit where
  id : Str
  name : Str
  package : Str
  unitType : Str
  filepath : Str
  startLine : Int
  endLine : Int
  content : Str
  contentHash : Str
  description : Str
  details : Str
deriving DecidableEq, Repr

/-- Go `graph.Node` from `internal/graph/graph.go` (pointer indirection
elided). -/
structure Node where
  unit : CodeUnit
deriving DecidableEq, Repr

/-- Go `graph.Edge` from `internal/graph/graph.go`. -/
structure Edge where
  fromID : Str
  toID : Str
  kind : Str
deriving DecidableEq, Repr

/-- Go `graph.Graph` restricted to the fields `SaveGraph` reads: the node
map (association list with unique keys) and the edge slice. -/
structure Graph where
  nodes : List (Str × Node)
  edges : List Edge
deriving DecidableEq, Repr

/-- Graph with no nodes and no edges (an empty snapshot). -/
def emptyGraph : Graph := ⟨[], []⟩

end graphSrc

namespace storage

/-- Key of an `edges`-table row: the `(from_id, to_id, kind)` primary key. -/
def edgeKey (e : graphSrc.Edge) : Str × Str × Str := (e.fromID, e.toID, e.kind)

/-- State of the SQLite database as far as `SaveGraph` touches it: the
`nodes` table (rows keyed by `id`, the primary key) and the `edges` table
(rows are exactly their `(from_id, to_id, kind)` primary key). -/
structure SQLiteState where
  nodes : List graphSrc.CodeUnit
  edges : List (Str × Str × Str)
deriving DecidableEq, Repr

/-- Effect of the `INSERT ... ON CONFLICT(id) DO UPDATE` statement on the
`nodes` table. -/
def upsertNodeRow (tbl : List graphSrc.CodeUnit) (u : graphSrc.CodeUnit) :
    List graphSrc.CodeUnit :=
  if tbl.any (fun r => r.id = u.id) then tbl.map (fun r => if r.id = u.id then u else r)
  else tbl ++ [u]

/-- Effect of the `INSERT ... ON CONFLICT(from_id, to_id, kind) DO NOTHING`
statement on the `edges` table. -/
def insertEdgeIgnoreDup (tbl : List (Str × Str × Str)) (e : graphSrc.Edge) :
    List (Str × Str × Str) :=
  if edgeKey e ∈ tbl then tbl else tbl ++ [edgeKey e]

/-- Go `SQLiteStore.SaveGraph` from `internal/storage/sqlite.go`: upserts
every node of `g` and inserts every edge of `g` ignoring duplicate keys,
inside one transaction. No row of either table is deleted. -/
def SaveGraph (db : SQLiteState) (g : graphSrc.Graph) : SQLiteState :=
  { nodes := g.nodes.foldl (fun tbl p => upsertNodeRow tbl p.2.unit) db.nodes,
    edges := g.edges.foldl insertEdgeIgnoreDup db.edges }

theorem mem_upsert_self (tbl : List graphSrc.CodeUnit) (u : graphSrc.CodeUnit) :
    u ∈ upsertNodeRow tbl u := by
  unfold upsertNodeRow
  by_cases h : tbl.any (fun r => r.id = u.id)
  · rw [if_pos h]
    rcases List.any_eq_true.mp h with ⟨r, hr, hid⟩
    refine List.mem_map.mpr ⟨r, hr, ?_⟩
    simp only [decide_eq_true_eq] at hid
    simp [hid]
  · rw [if_neg h]
    simp

theorem mem_upsert_of_ne (tbl : List graphSrc.CodeUnit) (u r : graphSrc.CodeUnit)
    (hr : r ∈ tbl) (hne : r.id ≠ u.id) : r ∈ upsertNodeRow tbl u := by
  unfold upsertNodeRow
  by_cases h : tbl.any (fun r => r.id = u.id)
  · rw [if_pos h]
    refine List.mem_map.mpr ⟨r, hr, ?_⟩
    simp [hne]
  · rw [if_neg h]
    exact List.mem_append_left _ hr

theorem upsert_ids_iff (tbl : List graphSrc.CodeUnit) (u : graphSrc.CodeUnit) (id : Str) :
    (∃ r ∈ upsertNodeRow tbl u, r.id = id) ↔ (∃ r ∈ tbl, r.id = id) ∨ u.id = id := by
  unfold upsertNodeRow
  by_cases h : tbl.any (fun r => r.id = u.id)
  · rw [if_pos h]
    rcases List.any_eq_true.mp h with ⟨w, hw, hwid⟩
    simp only [decide_eq_true_eq] at hwid
    constructor
    · rintro ⟨r, hr, hid⟩
      rcases List.mem_map.mp hr with ⟨r0, hr0, heq⟩
      by_cases hcase : r0.id = u.id
      · right
        rw [← hid, ← heq]
        simp [hcase]
      · left
        refine ⟨r0, hr0, ?_⟩
        rw [← hid, ← heq]
        simp [hcase]
    · rintro (⟨r, hr, hid⟩ | hid)
      · by_cases hcase : r.id = u.id
        · refine ⟨u, ?_, by rw [← hid, hcase]⟩
          exact List.mem_map.mpr ⟨w, hw, by simp [hwid]⟩
        · refine ⟨r, ?_, hid⟩
          exact List.mem_map.mpr ⟨r, hr, by simp [hcase]⟩
      · exact ⟨u, List.mem_map.mpr ⟨w, hw, by simp [hwid]⟩, hid⟩
  · rw [if_neg h]
    constructor
    · rintro ⟨r, hr, hid⟩
      rcases List.mem_append.mp hr with hr | hr
      · exact Or.inl ⟨r, hr, hid⟩
      · simp only [List.mem_singleton] at hr
        subst hr
        exact Or.inr hid
    · rintro (⟨r, hr, hid⟩ | hid)
      · exact ⟨r, List.mem_append_left _ hr, hid⟩
      · exact ⟨u, List.mem_append_right _ (by simp), hid⟩

theorem foldl_upsert_preserve (gns : List (Str × graphSrc.Node)) :
    ∀ (tbl : List graphSrc.CodeUnit) (r : graphSrc.CodeUnit), r ∈ tbl →
      (∀ p ∈ gns, p.2.unit.id ≠ r.id) →
      r ∈ gns.foldl (fun tbl p => upsertNodeRow tbl p.2.unit) tbl := by
  induction gns with
  | nil => intro tbl r hr _; simpa using hr
  | cons p rest ih =>
    intro tbl r hr hne
    simp only [List.foldl_cons]
    refine ih _ r ?_ (fun q hq => hne q (List.mem_cons_of_mem _ hq))
    exact mem_upsert_of_ne _ _ _ hr fun hc => hne p (List.mem_cons_self _ _) (by rw [hc])

theorem foldl_upsert_mem (gns : List (Str × graphSrc.Node))
    (hnd : (gns.map (fun p => p.2.unit.id)).Nodup) :
    ∀ (tbl : List graphSrc.CodeUnit) (p : Str × graphSrc.Node), p ∈ gns →
      p.2.unit ∈ gns.foldl (fun tbl q => upsertNodeRow tbl q.2.unit) tbl := by
  induction gns with
  | nil => intro tbl p hp; simp at hp
  | cons q rest ih =>
    intro tbl p hp
    simp only [List.map_cons, List.nodup_cons] at hnd
    rcases List.mem_cons.mp hp with hp | hp
    · subst hp
      simp only [List.foldl_cons]
      refine foldl_upsert_preserve rest _ _ (mem_upsert_self _ _) ?_
      intro r hr hc
      exact hnd.1 (List.mem_map.mpr ⟨r, hr, hc⟩)
    · simp only [List.foldl_cons]
      exact ih hnd.2 _ p hp

theorem foldl_upsert_ids_iff (gns : List (Str × graphSrc.Node)) :
    ∀ (tbl : List graphSrc.CodeUnit) (id : Str),
      (∃ r ∈ gns.foldl (fun tbl p => upsertNodeRow tbl p.2.unit) tbl, r.id = id) ↔
        (∃ r ∈ tbl, r.id = id) ∨ (∃ p ∈ gns, p.2.unit.id = id) := by
  induction gns with
  | nil =>
    intro tbl id
    simp only [List.foldl_nil]
    constructor
    · exact Or.inl
    · rintro (h | ⟨p, hp, _⟩)
      · exact h
      · simp at hp
  | cons q rest ih =>
    intro tbl id
    simp only [List.foldl_cons]
    rw [ih]
    rw [upsert_ids_iff]
    constructor
    · rintro (( h | h) | h)
      · exact Or.inl h
      · exact Or.inr ⟨q, List.mem_cons_self _ _, h⟩
      · rcases h with ⟨p, hp, hid⟩
        exact Or.inr ⟨p, List.mem_cons_of_mem _ hp, hid⟩
    · rintro (h | ⟨p, hp, hid⟩)
      · exact Or.inl (Or.inl h)
      · rcases List.mem_cons.mp hp with hp | hp
        · subst hp
          exact Or.inl (Or.inr hid)
        · exact Or.inr ⟨p, hp, hid⟩

theorem insertEdge_mem_iff (tbl : List (Str × Str × Str)) (e : graphSrc.Edge)
    (k : Str × Str × Str) :
    k ∈ insertEdgeIgnoreDup tbl e ↔ k ∈ tbl ∨ k = edgeKey e := by
  unfold insertEdgeIgnoreDup
  by_cases h : edgeKey e ∈ tbl
  · rw [if_pos h]
    constructor
    · exact Or.inl
    · rintro (hk | hk)
      · exact hk
      · rw [hk]; exact h
  · rw [if_neg h]
    simp

theorem insertEdge_nodup (tbl : List (Str × Str × Str)) (e : graphSrc.Edge)
    (h : tbl.Nodup) : (insertEdgeIgnoreDup tbl e).Nodup := by
  unfold insertEdgeIgnoreDup
  by_cases hmem : edgeKey e ∈ tbl
  · rwa [if_pos hmem]
  · rw [if_neg hmem]
    simpa [List.nodup_append] using ⟨h, hmem⟩

theorem foldl_insertEdge_mem_iff (ges : List graphSrc.Edge) :
    ∀ (tbl : List (Str × Str × Str)) (k : Str × Str × Str),
      k ∈ ges.foldl insertEdgeIgnoreDup tbl ↔ k ∈ tbl ∨ ∃ e ∈ ges, edgeKey e = k := by
  induction ges with
  | nil => intro tbl k; simp
  | cons e rest ih =>
    intro tbl k
    simp only [List.foldl_cons]
    rw [ih, insertEdge_mem_iff]
    constructor
    · rintro ((h | h) | h)
      · exact Or.inl h
      · exact Or.inr ⟨e, List.mem_cons_self _ _, h.symm⟩
      · rcases h with ⟨e1, he1, hk⟩
        exact Or.inr ⟨e1, List.mem_cons_of_mem _ he1, hk⟩
    · rintro (h | ⟨e1, he1, hk⟩)
      · exact Or.inl (Or.inl h)
      · rcases List.mem_cons.mp he1 with he1 | he1
        · subst he1
          exact Or.inl (Or.inr hk.symm)
        · exact Or.inr ⟨e1, he1, hk⟩

theorem foldl_insertEdge_nodup (ges : List graphSrc.Edge) :
    ∀ tbl : List (Str × Str × Str), tbl.Nodup →
      (ges.foldl insertEdgeIgnoreDup tbl).Nodup := by
  induction ges with
  | nil => intro tbl h; simpa using h
  | cons e rest ih =>
    intro tbl h
    simp only [List.foldl_cons]
    exact ih _ (insertEdge_nodup tbl e h)

end storage

/-- C1 (amended): `SaveGraph` upserts every symbol of `g` into the nodes
table by ID and inserts every edge of `g` by `(from,to,kind)` ignoring
duplicates; rows absent from `g` are retained rather than deleted, so the
final node IDs are the union of the old IDs and `g`'s IDs, and saving an
empty graph leaves both tables unchanged (not empty). -/
theorem C1_save_graph_amended (db : storage.SQLiteState) (g : graphSrc.Graph)
    (hnd : (g.nodes.map (fun p => p.2.unit.id)).Nodup) :
    storage.SaveGraph db graphSrc.emptyGraph = db ∧
    (∀ id, (∃ r ∈ (storage.SaveGraph db g).nodes, r.id = id) ↔
      (∃ r ∈ db.nodes, r.id = id) ∨ (∃ p ∈ g.nodes, p.2.unit.id = id)) ∧
    (∀ p ∈ g.nodes, p.2.unit ∈ (storage.SaveGraph db g).nodes) ∧
    (∀ r ∈ db.nodes, (∀ p ∈ g.nodes, p.2.unit.id ≠ r.id) →
      r ∈ (storage.SaveGraph db g).nodes) ∧
    (∀ k, k ∈ (storage.SaveGraph db g).edges ↔
      k ∈ db.edges ∨ ∃ e ∈ g.edges, storage.edgeKey e = k) ∧
    (db.edges.Nodup → (storage.SaveGraph db g).edges.Nodup) := by
  refine ⟨rfl, ?_, ?_, ?_, ?_, ?_⟩
  · intro id
    exact storage.foldl_upsert_ids_iff g.nodes db.nodes id
  · intro p hp
    exact storage.foldl_upsert_mem g.nodes hnd db.nodes p hp
  · intro r hr hne
    exact storage.foldl_upsert_preserve g.nodes db.nodes r hr
      (fun p hp => hne p hp)
  · intro k
    exact storage.foldl_insertEdge_mem_iff g.edges db.edges k
  · intro h
    exact storage.foldl_insertEdge_nodup g.edges db.edges h

/-- Concrete pre-existing node row used in the C1 instances. -/
def c1row : graphSrc.CodeUnit :=
  { id := S "go/app:function:Old:aaaa", name := S "Old", package := S "app",
    unitType := S "function", filepath := S "old.go", startLine := 1, endLine := 2,
    content := S "func Old() {}" , contentHash := S "h-old", description := [],
    details := [] }

/-- Concrete database state holding one node row and one edge row. -/
def c1db : storage.SQLiteState :=
  { nodes := [c1row], edges := [(S "A", S "B", S "calls")] }

/-- C1 (counterexample): saving an empty graph over a non-empty store
leaves the store unchanged; the nodes and edges tables stay non-empty,
contradicting the exact-sync claim that an empty snapshot empties the
tables. -/
theorem C1_counterexample :
    storage.SaveGraph c1db graphSrc.emptyGraph = c1db ∧
    (storage.SaveGraph c1db graphSrc.emptyGraph).nodes ≠ [] ∧
    (storage.SaveGraph c1db graphSrc.emptyGraph).edges ≠ [] := by
  refine ⟨rfl, ?_, ?_⟩ <;> decide

/-- Updated revision of the pre-existing symbol used by the C1 witness. -/
def c1unitNew : graphSrc.CodeUnit :=
  { c1row with content := S "func Old() { return }", contentHash := S "h-new" }

/-- One-node one-edge graph used by the C1 witness. -/
def c1graph : graphSrc.Graph :=
  { nodes := [(c1unitNew.id, ⟨c1unitNew⟩)],
    edges := [⟨S "A", S "C", S "calls"⟩] }

/-- C1 (witness): the amended theorem applied at a concrete store and
graph: the empty snapshot is a no-op, the updated symbol row is stored,
and the new edge key is inserted. -/
theorem C1_save_graph_amended_witness :
    storage.SaveGraph c1db graphSrc.emptyGraph = c1db ∧
    c1unitNew ∈ (storage.SaveGraph c1db c1graph).nodes ∧
    (S "A", S "C", S "calls") ∈ (storage.SaveGraph c1db c1graph).edges := by
  have h := C1_save_graph_amended c1db c1graph (by decide)
  refine ⟨h.1, ?_, ?_⟩
  · exact h.2.2.1 (c1unitNew.id, ⟨c1unitNew⟩) (by simp [c1graph])
  · exact (h.2.2.2.2.1 _).mpr
      (Or.inr ⟨⟨S "A", S "C", S "calls"⟩, by simp [c1graph], rfl⟩)

/-! ## Impact retrieval (`internal/retrieval/subgraph.go`, C2 and C3) -/

/-- Byte-wise (codepoint-wise) lexicographic order of Go `sort.Strings`. -/
def strLe : Str → Str → Bool
  | [], _ => true
  | _ :: _, [] => false
  | a :: as, b :: bs =>
    if a.toNat < b.toNat then true
    else if b.toNat < a.toNat then false
    else strLe as bs

/-- Order relation form of `strLe` (for `List.insertionSort`). -/
def strLeP (a b : Str) : Prop := strLe a b = true

instance : DecidableRel strLeP := fun a b => by
  unfold strLeP
  infer_instance

/-- Model of Go `sort.Strings`. Go uses an unstable pattern-defeating
quicksort; for the total order on strings every correct sort returns the
same list, so a structurally recursive insertion sort is used. -/
def sortStrs (l : List Str) : List Str := l.insertionSort strLeP

namespace retrieval

/-- Symbol payload of a graph node as read by the retrieval code
(`node.Unit.Filepath`, `StartLine`, `EndLine`). The full `graph.Symbol`
record of this revision lives outside `src/`; the remaining fields are
irrelevant to the subgraph extraction and omitted. -/
structure Symbol where
  filepath : Str
  startLine : Int
  endLine : Int
deriving DecidableEq, Repr

/-- Resolved edge record. The `graph.Edge` declaration of this revision is
not under `src/`; its fields follow spec section 3
({fromID, toID, kind, resolver tag, confidence, evidence}) restricted to
what the retrieval code reads, with `kind` as its underlying string. -/
structure Edge where
  fromID : Str
  toID : Str
  kind : Str
  resolver : Str
  confidence : ℚ
deriving DecidableEq, Repr

/-- Go `retrieval.Config`. `AllowedKinds map[RelationKind]bool` is an
association list so that explicit `false` entries behave like Go map
lookups. -/
structure Config where
  maxHops : Int
  minConfidence : ℚ
  allowedKinds : List (Str × Bool)
deriving DecidableEq, Repr

/-- Go `git.ChangedFile`. -/
structure ChangedFile where
  path : Str
  changedLines : List Int
deriving DecidableEq, Repr

/-- Graph as read by `ExtractFromChanges`: the node map (id to symbol) and
the edge slice. `nil` nodes/units are elided. -/
structure Graph where
  nodes : List (Str × Symbol)
  edges : List Edge
deriving DecidableEq, Repr

/-- Go `retrieval.Subgraph`. `NodeScores map[string]float64` is an
association list with unique keys. -/
structure Subgraph where
  maxHops : Int
  seedIDs : List Str
  updatedFiles : List Str
  nodeIDs : List Str
  nodeScores : List (Str × ℚ)
  edges : List Edge
deriving DecidableEq, Repr

/-- Go `edgeAllowed` from `internal/retrieval/subgraph.go`. -/
def edgeAllowed (e : Edge) (cfg : Config) : Bool :=
  if cfg.minConfidence > 0 ∧ e.confidence < cfg.minConfidence then false
  else if cfg.allowedKinds = [] then true
  else ((alookup cfg.allowedKinds e.kind).getD false)

/-- Go `normalizedEdgeConfidence` from `internal/retrieval/subgraph.go`. -/
def normalizedEdgeConfidence (c : ℚ) : ℚ :=
  if c ≤ 0 then 0.5
  else if c > 1 then 1
  else c

/-- Go `lineRangeOverlaps` from `internal/retrieval/subgraph.go`. -/
def lineRangeOverlaps (start stop : Int) (changed : List Int) : Bool :=
  if changed = [] then true
  else changed.any (fun line => start ≤ line ∧ line ≤ stop)

/-- Go `edgeSignature` from `internal/retrieval/subgraph.go`. -/
def edgeSignature (e : Edge) : Str :=
  e.fromID ++ S "->" ++ e.toID ++ S ":" ++ e.kind

/-- Go `findSeedNodeIDs` from `internal/retrieval/subgraph.go`, returning
the key set of the `out` map (deduplicated, order irrelevant because the
caller sorts). -/
def findSeedNodeIDs (g : Graph) (changes : List ChangedFile) : List Str :=
  changes.foldl
    (fun acc ch =>
      g.nodes.foldl
        (fun acc p =>
          if p.2.filepath = ch.path ∧
              lineRangeOverlaps p.2.startLine p.2.endLine ch.changedLines then
            insertIfAbsent acc p.1
          else acc)
        acc)
    []

/-- Go `changedFilePaths` from `internal/retrieval/subgraph.go`. -/
def changedFilePaths (changes : List ChangedFile) : List Str :=
  sortStrs
    (changes.foldl
      (fun acc ch => if ch.path = [] ∨ ch.path ∈ acc then acc else acc ++ [ch.path])
      [])

/-- Undirected adjacency of a node: the `adj` map entry for `id`, built
from the filter-passing edges in slice order (`From` endpoint first, then
`To`, as in the Go loop). -/
def adjOf (g : Graph) (cfg : Config) (id : Str) : List (Str × Edge) :=
  g.edges.foldl
    (fun acc e =>
      if edgeAllowed e cfg then
        acc ++ (if e.fromID = id then [(e.toID, e)] else []) ++
          (if e.toID = id then [(e.fromID, e)] else [])
      else acc)
    []

/-- Lookup with the Go zero value for `map[string]float64`. -/
def scoreOf (m : List (Str × ℚ)) (k : Str) : ℚ := (alookup m k).getD 0

/-- BFS loop state of `ExtractFromChanges`: visited depths, node scores,
queue, seen edge signatures and collected edges. -/
structure BfsState where
  visitedDepth : List (Str × Int)
  nodeScores : List (Str × ℚ)
  queue : List (Str × Int)
  edgeSeen : List Str
  edges : List Edge
deriving DecidableEq, Repr

/-- First part of the neighbor body: record the crossed edge the first
time its signature is seen. -/
def recordEdge (st : BfsState) (e : Edge) : BfsState :=
  if edgeSignature e ∈ st.edgeSeen then st
  else { st with edgeSeen := st.edgeSeen ++ [edgeSignature e],
                 edges := st.edges ++ [e] }

/-- Second part of the neighbor body: best-path score relaxation. -/
def relaxScore (cur : Str) (st : BfsState) (next : Str × Edge) : BfsState :=
  let candidateScore :=
    scoreOf st.nodeScores cur * normalizedEdgeConfidence next.2.confidence
  if candidateScore > scoreOf st.nodeScores next.1 then
    { st with nodeScores := setAssoc st.nodeScores next.1 candidateScore }
  else st

/-- Third part of the neighbor body: depth bookkeeping and enqueueing. -/
def enqueueNext (depth : Int) (st : BfsState) (next : Str × Edge) : BfsState :=
  let nextDepth := depth + 1
  match alookup st.visitedDepth next.1 with
  | some prevDepth =>
    if nextDepth < prevDepth then
      { st with visitedDepth := setAssoc st.visitedDepth next.1 nextDepth,
                queue := st.queue ++ [(next.1, nextDepth)] }
    else st
  | none =>
    { st with visitedDepth := setAssoc st.visitedDepth next.1 nextDepth,
              queue := st.queue ++ [(next.1, nextDepth)] }

/-- Body of the `for _, next := range adj[cur.id]` loop for one neighbor. -/
def visitNeighbor (cur : Str) (depth : Int) (st : BfsState) (next : Str × Edge) :
    BfsState :=
  enqueueNext depth (relaxScore cur (recordEdge st next.2) next) next

/-- One dequeue iteration of the BFS `for len(queue) > 0` loop followed by
the remaining iterations, bounded by `fuel`. The fuel passed by
`ExtractFromChanges` dominates the true iteration count: every enqueue
after the seeds strictly decreases the enqueued node's stored depth, which
stays in `[0, maxHops]`, so each of the at most `#seeds + 2·#edges`
distinct ids is dequeued at most `maxHops + 2` times. -/
def bfsRun (adjF : Str → List (Str × Edge)) (maxHops : Int) :
    Nat → BfsState → BfsState
  | 0, st => st
  | fuel + 1, st =>
    match st.queue with
    | [] => st
    | (cur, depth) :: rest =>
      let st := { st with queue := rest }
      let st :=
        if depth ≥ maxHops then st
        else (adjF cur).foldl (visitNeighbor cur depth) st
      bfsRun adjF maxHops fuel st

/-- Comparator of the final `sort.Slice` on edges: (from, to, kind). -/
def edgeLe (a b : Edge) : Bool :=
  if a.fromID = b.fromID then
    if a.toID = b.toID then strLe a.kind b.kind
    else strLe a.toID b.toID
  else strLe a.fromID b.fromID

/-- Order relation form of `edgeLe` (for `List.insertionSort`). -/
def edgeLeP (a b : Edge) : Prop := edgeLe a b = true

instance : DecidableRel edgeLeP := fun a b => by
  unfold edgeLeP
  infer_instance

/-- Negative-`MaxHops` clamp at the top of `ExtractFromChanges`. -/
def clampCfg (cfg : Config) : Config :=
  if cfg.maxHops < 0 then { cfg with maxHops := 0 } else cfg

/-- Go `ExtractFromChanges` from `internal/retrieval/subgraph.go` (the
`g == nil` branch is elided: the model has no nil graphs). -/
def ExtractFromChanges (g : Graph) (changes : List ChangedFile) (cfg : Config) :
    Subgraph :=
  let cfg := clampCfg cfg
  let seedIDs := sortStrs (findSeedNodeIDs g changes)
  let updatedFiles := changedFilePaths changes
  if seedIDs = [] then
    { maxHops := cfg.maxHops, seedIDs := seedIDs, updatedFiles := updatedFiles,
      nodeIDs := [], nodeScores := [], edges := [] }
  else
    let init : BfsState :=
      { visitedDepth := seedIDs.map (fun id => (id, 0)),
        nodeScores := seedIDs.map (fun id => (id, 1)),
        queue := seedIDs.map (fun id => (id, 0)),
        edgeSeen := [], edges := [] }
    let fuel := (seedIDs.length + 2 * g.edges.length + 1) * (cfg.maxHops.toNat + 2)
    let fin := bfsRun (adjOf g cfg) cfg.maxHops fuel init
    { maxHops := cfg.maxHops, seedIDs := seedIDs, updatedFiles := updatedFiles,
      nodeIDs := sortStrs (fin.visitedDepth.map (·.1)),
      nodeScores := fin.nodeScores,
      edges := fin.edges.insertionSort edgeLeP }

/-- Checker for an undirected filter-passing walk through `g` from `a` to
`b` crossing the listed edges in order. -/
def walkOk (g : Graph) (cfg : Config) : Str → List Edge → Str → Bool
  | a, [], b => decide (a = b)
  | a, e :: rest, b =>
    decide (e ∈ g.edges) && edgeAllowed e cfg &&
      ((decide (e.fromID = a) && walkOk g cfg e.toID rest b) ||
       (decide (e.toID = a) && walkOk g cfg e.fromID rest b))

/-- Product of normalized edge confidences along a walk (seed score 1). -/
def walkScore (w : List Edge) : ℚ :=
  w.foldl (fun acc e => acc * normalizedEdgeConfidence e.confidence) 1

end retrieval

namespace retrieval

theorem normConf_pos (c : ℚ) : 0 < normalizedEdgeConfidence c := by
  unfold normalizedEdgeConfidence
  split_ifs with h1 h2 <;> [norm_num; norm_num; linarith [lt_of_not_le h1]]

theorem normConf_le_one (c : ℚ) : normalizedEdgeConfidence c ≤ 1 := by
  unfold normalizedEdgeConfidence
  split_ifs with h1 h2 <;> [norm_num; norm_num; linarith [le_of_not_lt h2]]

theorem alookup_mem {α : Type} (m : List (Str × α)) (k : Str) (v : α)
    (h : alookup m k = some v) : (k, v) ∈ m := by
  induction m with
  | nil => simp [alookup] at h
  | cons p rest ih =>
    rw [alookup] at h
    by_cases hk : p.1 = k
    · rw [if_pos hk] at h
      cases h
      rw [← hk]
      exact List.mem_cons_self _ _
    · rw [if_neg hk] at h
      exact List.mem_cons_of_mem _ (ih h)

theorem alookup_map_const {α : Type} (l : List Str) (v : α) (k : Str) (hk : k ∈ l) :
    alookup (l.map (fun s => (s, v))) k = some v := by
  induction l with
  | nil => simp at hk
  | cons s rest ih =>
    rw [List.map_cons, alookup]
    by_cases hks : s = k
    · rw [if_pos hks]
    · rw [if_neg hks]
      rcases List.mem_cons.mp hk with h | h
      · exact absurd h.symm hks
      · exact ih h

theorem alookup_map_upsert_self {α : Type} (m : List (Str × α)) (k : Str) (v : α)
    (hex : ∃ w ∈ m, w.1 = k) :
    alookup (m.map (fun p => if p.1 = k then (k, v) else p)) k = some v := by
  induction m with
  | nil =>
    rcases hex with ⟨w, hw, _⟩
    simp at hw
  | cons p rest ih =>
    rw [List.map_cons]
    by_cases hpk : p.1 = k
    · rw [if_pos hpk, alookup, if_pos rfl]
    · rw [if_neg hpk, alookup, if_neg hpk]
      apply ih
      rcases hex with ⟨w, hw, hwk⟩
      rcases List.mem_cons.mp hw with hw | hw
      · exact absurd (hw ▸ hwk) hpk
      · exact ⟨w, hw, hwk⟩

theorem alookup_append_self {α : Type} (m : List (Str × α)) (k : Str) (v : α)
    (hnone : ∀ w ∈ m, w.1 ≠ k) : alookup (m ++ [(k, v)]) k = some v := by
  induction m with
  | nil => rw [List.nil_append, alookup, if_pos rfl]
  | cons p rest ih =>
    rw [List.cons_append, alookup, if_neg (hnone p (List.mem_cons_self _ _))]
    exact ih fun w hw => hnone w (List.mem_cons_of_mem _ hw)

theorem alookup_map_upsert_ne {α : Type} (m : List (Str × α)) (k kp : Str) (v : α)
    (h : kp ≠ k) :
    alookup (m.map (fun p => if p.1 = k then (k, v) else p)) kp = alookup m kp := by
  induction m with
  | nil => rfl
  | cons p rest ih =>
    rw [List.map_cons]
    by_cases hpk : p.1 = k
    · rw [if_pos hpk, alookup, alookup,
        if_neg (show ¬((k, v).1 = kp) from fun hc => h hc.symm),
        if_neg (show ¬(p.1 = kp) from fun hc => h (hpk ▸ hc).symm)]
      exact ih
    · rw [if_neg hpk, alookup, alookup]
      by_cases hk : p.1 = kp
      · rw [if_pos hk, if_pos hk]
      · rw [if_neg hk, if_neg hk]
        exact ih

theorem alookup_append_ne {α : Type} (m : List (Str × α)) (k kp : Str) (v : α)
    (h : kp ≠ k) : alookup (m ++ [(k, v)]) kp = alookup m kp := by
  induction m with
  | nil =>
    simp only [List.nil_append, alookup]
    rw [if_neg (show ¬((k, v).1 = kp) from fun hc => h hc.symm)]
  | cons p rest ih =>
    rw [List.cons_append, alookup, alookup]
    by_cases hk : p.1 = kp
    · rw [if_pos hk, if_pos hk]
    · rw [if_neg hk, if_neg hk]
      exact ih

theorem setAssoc_alookup_self {α : Type} (m : List (Str × α)) (k : Str) (v : α) :
    alookup (setAssoc m k v) k = some v := by
  unfold setAssoc
  by_cases h : m.any (fun p => p.1 = k)
  · rw [if_pos h]
    rcases List.any_eq_true.mp h with ⟨w, hw, hwk⟩
    simp only [decide_eq_true_eq] at hwk
    exact alookup_map_upsert_self m k v ⟨w, hw, hwk⟩
  · rw [if_neg h]
    rw [List.any_eq_true] at h
    push_neg at h
    refine alookup_append_self m k v fun w hw => ?_
    have := h w hw
    simpa using this

theorem setAssoc_alookup_ne {α : Type} (m : List (Str × α)) (k kp : Str) (v : α)
    (h : kp ≠ k) : alookup (setAssoc m k v) kp = alookup m kp := by
  unfold setAssoc
  by_cases hany : m.any (fun p => p.1 = k)
  · rw [if_pos hany]
    exact alookup_map_upsert_ne m k kp v h
  · rw [if_neg hany]
    exact alookup_append_ne m k kp v h

theorem mem_setAssoc {α : Type} (m : List (Str × α)) (k : Str) (v : α)
    (p : Str × α) (hp : p ∈ setAssoc m k v) : p ∈ m ∨ p = (k, v) := by
  unfold setAssoc at hp
  by_cases h : m.any (fun q => q.1 = k)
  · rw [if_pos h] at hp
    rcases List.mem_map.mp hp with ⟨q, hq, heq⟩
    by_cases hqk : q.1 = k
    · right
      rw [← heq]
      simp [hqk]
    · left
      rw [← heq]
      simpa [hqk] using hq
  · rw [if_neg h] at hp
    rcases List.mem_append.mp hp with hp | hp
    · exact Or.inl hp
    · simp only [List.mem_singleton] at hp
      exact Or.inr hp

theorem adjOf_mem (g : Graph) (cfg : Config) (id : Str) (p : Str × Edge)
    (hp : p ∈ adjOf g cfg id) :
    p.2 ∈ g.edges ∧ edgeAllowed p.2 cfg = true ∧
      ((p.2.fromID = id ∧ p.1 = p.2.toID) ∨ (p.2.toID = id ∧ p.1 = p.2.fromID)) := by
  unfold adjOf at hp
  suffices h : ∀ (es : List Edge) (acc : List (Str × Edge)),
      (∀ q ∈ acc, q.2 ∈ g.edges ∧ edgeAllowed q.2 cfg = true ∧
        ((q.2.fromID = id ∧ q.1 = q.2.toID) ∨ (q.2.toID = id ∧ q.1 = q.2.fromID))) →
      (∀ e ∈ es, e ∈ g.edges) →
      p ∈ es.foldl
        (fun acc e =>
          if edgeAllowed e cfg then
            acc ++ (if e.fromID = id then [(e.toID, e)] else []) ++
              (if e.toID = id then [(e.fromID, e)] else [])
          else acc)
        acc →
      p.2 ∈ g.edges ∧ edgeAllowed p.2 cfg = true ∧
        ((p.2.fromID = id ∧ p.1 = p.2.toID) ∨ (p.2.toID = id ∧ p.1 = p.2.fromID)) by
    exact h g.edges [] (by simp) (fun e he => he) hp
  intro es
  induction es with
  | nil => intro acc hacc _ hmem; exact hacc p (by simpa using hmem)
  | cons e rest ih =>
    intro acc hacc hes hmem
    simp only [List.foldl_cons] at hmem
    refine ih _ ?_ (fun e1 he1 => hes e1 (List.mem_cons_of_mem _ he1)) hmem
    intro q hq
    by_cases hall : edgeAllowed e cfg
    · rw [if_pos hall] at hq
      rcases List.mem_append.mp hq with hq | hq
      · rcases List.mem_append.mp hq with hq | hq
        · exact hacc q hq
        · by_cases hfrom : e.fromID = id
          · rw [if_pos hfrom] at hq
            simp only [List.mem_singleton] at hq
            subst hq
            exact ⟨hes e (List.mem_cons_self _ _), hall, Or.inl ⟨hfrom, rfl⟩⟩
          · rw [if_neg hfrom] at hq
            simp at hq
      · by_cases hto : e.toID = id
        · rw [if_pos hto] at hq
          simp only [List.mem_singleton] at hq
          subst hq
          exact ⟨hes e (List.mem_cons_self _ _), hall, Or.inr ⟨hto, rfl⟩⟩
        · rw [if_neg hto] at hq
          simp at hq
    · rw [if_neg hall] at hq
      exact hacc q hq

theorem walkOk_append (g : Graph) (cfg : Config) (w : List Edge) :
    ∀ (a mid b : Str) (e : Edge), walkOk g cfg a w mid = true → e ∈ g.edges →
      edgeAllowed e cfg = true →
      ((e.fromID = mid ∧ b = e.toID) ∨ (e.toID = mid ∧ b = e.fromID)) →
      walkOk g cfg a (w ++ [e]) b = true := by
  induction w with
  | nil =>
    intro a mid b e hw he hall hend
    simp only [walkOk, decide_eq_true_eq] at hw
    subst hw
    simp only [List.nil_append, walkOk]
    rcases hend with ⟨hfrom, hb⟩ | ⟨hto, hb⟩
    · subst hb
      simp [he, hall, hfrom, walkOk]
    · subst hb
      simp [he, hall, hto, walkOk]
  | cons e0 rest ih =>
    intro a mid b e hw he hall hend
    simp only [walkOk, Bool.and_eq_true, Bool.or_eq_true] at hw
    obtain ⟨⟨he0, hall0⟩, hcase⟩ := hw
    simp only [List.cons_append, walkOk, Bool.and_eq_true, Bool.or_eq_true]
    refine ⟨⟨he0, hall0⟩, ?_⟩
    rcases hcase with ⟨hfa, hrest⟩ | ⟨hta, hrest⟩
    · exact Or.inl ⟨hfa, ih _ _ _ _ hrest he hall hend⟩
    · exact Or.inr ⟨hta, ih _ _ _ _ hrest he hall hend⟩

theorem walkScore_append (w : List Edge) (e : Edge) :
    walkScore (w ++ [e]) = walkScore w * normalizedEdgeConfidence e.confidence := by
  simp [walkScore, List.foldl_append]

end retrieval

namespace retrieval

/-- Existence of a filter-passing walk from some seed of bounded length. -/
def ReachWithin (g : Graph) (cfg : Config) (seeds : List Str) (k : Nat) (id : Str) :
    Prop :=
  ∃ seed ∈ seeds, ∃ w : List Edge, walkOk g cfg seed w id = true ∧ w.length ≤ k

/-- Existence of a filter-passing walk from some seed whose normalized
confidence product equals `s`. -/
def HasWalkScore (g : Graph) (cfg : Config) (seeds : List Str) (id : Str) (s : ℚ) :
    Prop :=
  ∃ seed ∈ seeds, ∃ w : List Edge, walkOk g cfg seed w id = true ∧ walkScore w = s

/-- Loop invariant of the BFS of `ExtractFromChanges`. -/
structure BfsInv (g : Graph) (cfg : Config) (seeds : List Str) (maxHops : Int)
    (st : BfsState) : Prop where
  scores_ok : ∀ p ∈ st.nodeScores, 0 < p.2 ∧ p.2 ≤ 1 ∧ HasWalkScore g cfg seeds p.1 p.2
  seeds_one : ∀ id ∈ seeds, alookup st.nodeScores id = some 1
  queue_ok : ∀ q ∈ st.queue,
    0 ≤ q.2 ∧ q.2 ≤ maxHops ∧ ReachWithin g cfg seeds q.2.toNat q.1
  visited_ok : ∀ p ∈ st.visitedDepth, ReachWithin g cfg seeds maxHops.toNat p.1

theorem scoreOf_nonneg (m : List (Str × ℚ)) (hm : ∀ p ∈ m, 0 < p.2) (k : Str) :
    0 ≤ scoreOf m k := by
  unfold scoreOf
  cases h : alookup m k with
  | none => simp
  | some v =>
    have := hm (k, v) (alookup_mem m k v h)
    simpa using le_of_lt this

theorem scoreOf_le_one (m : List (Str × ℚ)) (hm : ∀ p ∈ m, p.2 ≤ 1) (k : Str) :
    scoreOf m k ≤ 1 := by
  unfold scoreOf
  cases h : alookup m k with
  | none => simp
  | some v =>
    have := hm (k, v) (alookup_mem m k v h)
    simpa using this

theorem recordEdge_nodeScores (st : BfsState) (e : Edge) :
    (recordEdge st e).nodeScores = st.nodeScores := by
  unfold recordEdge
  split <;> rfl

theorem recordEdge_queue (st : BfsState) (e : Edge) :
    (recordEdge st e).queue = st.queue := by
  unfold recordEdge
  split <;> rfl

theorem recordEdge_visitedDepth (st : BfsState) (e : Edge) :
    (recordEdge st e).visitedDepth = st.visitedDepth := by
  unfold recordEdge
  split <;> rfl

theorem relaxScore_queue (cur : Str) (st : BfsState) (nx : Str × Edge) :
    (relaxScore cur st nx).queue = st.queue := by
  unfold relaxScore
  by_cases h : scoreOf st.nodeScores cur * normalizedEdgeConfidence nx.2.confidence >
      scoreOf st.nodeScores nx.1 <;> simp [h]

theorem relaxScore_visitedDepth (cur : Str) (st : BfsState) (nx : Str × Edge) :
    (relaxScore cur st nx).visitedDepth = st.visitedDepth := by
  unfold relaxScore
  by_cases h : scoreOf st.nodeScores cur * normalizedEdgeConfidence nx.2.confidence >
      scoreOf st.nodeScores nx.1 <;> simp [h]

theorem enqueueNext_nodeScores (depth : Int) (st : BfsState) (nx : Str × Edge) :
    (enqueueNext depth st nx).nodeScores = st.nodeScores := by
  unfold enqueueNext
  cases alookup st.visitedDepth nx.1 <;> simp <;> split <;> rfl

theorem relaxScore_inv (g : Graph) (cfg : Config) (seeds : List Str)
    (st : BfsState) (cur : Str) (nx : Str × Edge)
    (hs : ∀ p ∈ st.nodeScores, 0 < p.2 ∧ p.2 ≤ 1 ∧ HasWalkScore g cfg seeds p.1 p.2)
    (h1 : ∀ id ∈ seeds, alookup st.nodeScores id = some 1)
    (hnx : nx.2 ∈ g.edges ∧ edgeAllowed nx.2 cfg = true ∧
      ((nx.2.fromID = cur ∧ nx.1 = nx.2.toID) ∨ (nx.2.toID = cur ∧ nx.1 = nx.2.fromID))) :
    (∀ p ∈ (relaxScore cur st nx).nodeScores,
      0 < p.2 ∧ p.2 ≤ 1 ∧ HasWalkScore g cfg seeds p.1 p.2) ∧
    (∀ id ∈ seeds, alookup (relaxScore cur st nx).nodeScores id = some 1) := by
  unfold relaxScore
  by_cases hgt : scoreOf st.nodeScores cur * normalizedEdgeConfidence nx.2.confidence >
      scoreOf st.nodeScores nx.1
  · simp only [hgt, if_pos]
    have hpos : ∀ p ∈ st.nodeScores, 0 < p.2 := fun p hp => (hs p hp).1
    have hle : ∀ p ∈ st.nodeScores, p.2 ≤ 1 := fun p hp => (hs p hp).2.1
    have hcand_pos : 0 < scoreOf st.nodeScores cur * normalizedEdgeConfidence nx.2.confidence :=
      lt_of_le_of_lt (scoreOf_nonneg st.nodeScores hpos nx.1) hgt
    have hcur_pos : 0 < scoreOf st.nodeScores cur := by
      by_contra hc
      push_neg at hc
      have : scoreOf st.nodeScores cur * normalizedEdgeConfidence nx.2.confidence ≤ 0 :=
        mul_nonpos_of_nonpos_of_nonneg hc (le_of_lt (normConf_pos _))
      linarith
    have hcand_le : scoreOf st.nodeScores cur * normalizedEdgeConfidence nx.2.confidence ≤ 1 :=
      mul_le_one₀ (scoreOf_le_one st.nodeScores hle cur)
        (le_of_lt (normConf_pos _)) (normConf_le_one _)
    have hcur_some : ∃ s, alookup st.nodeScores cur = some s ∧
        s = scoreOf st.nodeScores cur := by
      cases h : alookup st.nodeScores cur with
      | none =>
        exfalso
        have : scoreOf st.nodeScores cur = 0 := by unfold scoreOf; rw [h]; rfl
        rw [this] at hcur_pos
        exact lt_irrefl 0 hcur_pos
      | some s => exact ⟨s, rfl, by unfold scoreOf; rw [h]; rfl⟩
    rcases hcur_some with ⟨s, hslook, hsval⟩
    have hcur_walk : HasWalkScore g cfg seeds cur s :=
      (hs (cur, s) (alookup_mem _ _ _ hslook)).2.2
    constructor
    · intro p hp
      rcases mem_setAssoc _ _ _ p hp with hp | hp
      · exact hs p hp
      · subst hp
        refine ⟨hcand_pos, hcand_le, ?_⟩
        rcases hcur_walk with ⟨seed, hseed, w, hwok, hwscore⟩
        refine ⟨seed, hseed, w ++ [nx.2], ?_, ?_⟩
        · refine walkOk_append g cfg w seed cur nx.1 nx.2 hwok hnx.1 hnx.2.1 ?_
          rcases hnx.2.2 with ⟨hf, ht⟩ | ⟨hf, ht⟩
          · exact Or.inl ⟨hf, ht⟩
          · exact Or.inr ⟨hf, ht⟩
        · rw [walkScore_append, hwscore, hsval]
    · intro id hid
      by_cases hidnx : id = nx.1
      · exfalso
        have hlook := h1 id hid
        have : scoreOf st.nodeScores nx.1 = 1 := by
          unfold scoreOf
          rw [← hidnx, hlook]
          rfl
        rw [this] at hgt
        linarith
      · rw [setAssoc_alookup_ne _ _ _ _ hidnx]
        exact h1 id hid
  · simp only [hgt, if_neg, if_false]
    exact ⟨hs, h1⟩

theorem enqueueNext_inv (g : Graph) (cfg : Config) (seeds : List Str) (maxHops : Int)
    (st : BfsState) (cur : Str) (depth : Int) (nx : Str × Edge)
    (hq : ∀ q ∈ st.queue, 0 ≤ q.2 ∧ q.2 ≤ maxHops ∧ ReachWithin g cfg seeds q.2.toNat q.1)
    (hv : ∀ p ∈ st.visitedDepth, ReachWithin g cfg seeds maxHops.toNat p.1)
    (hd0 : 0 ≤ depth) (hdlt : depth < maxHops)
    (hreach : ReachWithin g cfg seeds depth.toNat cur)
    (hnx : nx.2 ∈ g.edges ∧ edgeAllowed nx.2 cfg = true ∧
      ((nx.2.fromID = cur ∧ nx.1 = nx.2.toID) ∨ (nx.2.toID = cur ∧ nx.1 = nx.2.fromID))) :
    (∀ q ∈ (enqueueNext depth st nx).queue,
      0 ≤ q.2 ∧ q.2 ≤ maxHops ∧ ReachWithin g cfg seeds q.2.toNat q.1) ∧
    (∀ p ∈ (enqueueNext depth st nx).visitedDepth,
      ReachWithin g cfg seeds maxHops.toNat p.1) := by
  have hreach_next : ReachWithin g cfg seeds (depth + 1).toNat nx.1 := by
    rcases hreach with ⟨seed, hseed, w, hwok, hwlen⟩
    refine ⟨seed, hseed, w ++ [nx.2], ?_, ?_⟩
    · refine walkOk_append g cfg w seed cur nx.1 nx.2 hwok hnx.1 hnx.2.1 ?_
      rcases hnx.2.2 with ⟨hf, ht⟩ | ⟨hf, ht⟩
      · exact Or.inl ⟨hf, ht⟩
      · exact Or.inr ⟨hf, ht⟩
    · rw [List.length_append]
      simp only [List.length_singleton]
      omega
  have hreach_max : ReachWithin g cfg seeds maxHops.toNat nx.1 := by
    rcases hreach_next with ⟨seed, hseed, w, hwok, hwlen⟩
    exact ⟨seed, hseed, w, hwok, by omega⟩
  have hqnew : ∀ q ∈ st.queue ++ [(nx.1, depth + 1)],
      0 ≤ q.2 ∧ q.2 ≤ maxHops ∧ ReachWithin g cfg seeds q.2.toNat q.1 := by
    intro q hqmem
    rcases List.mem_append.mp hqmem with h | h
    · exact hq q h
    · simp only [List.mem_singleton] at h
      subst h
      exact ⟨by omega, by omega, hreach_next⟩
  have hvnew : ∀ p ∈ setAssoc st.visitedDepth nx.1 (depth + 1),
      ReachWithin g cfg seeds maxHops.toNat p.1 := by
    intro p hp
    rcases mem_setAssoc _ _ _ p hp with hp | hp
    · exact hv p hp
    · subst hp
      exact hreach_max
  unfold enqueueNext
  cases alookup st.visitedDepth nx.1 with
  | some prevDepth =>
    simp only
    by_cases hlt : depth + 1 < prevDepth
    · rw [if_pos hlt]
      exact ⟨hqnew, hvnew⟩
    · rw [if_neg hlt]
      exact ⟨hq, hv⟩
  | none =>
    simp only
    exact ⟨hqnew, hvnew⟩

theorem visitNeighbor_inv (g : Graph) (cfg : Config) (seeds : List Str) (maxHops : Int)
    (st : BfsState) (cur : Str) (depth : Int) (nx : Str × Edge)
    (hinv : BfsInv g cfg seeds maxHops st)
    (hd0 : 0 ≤ depth) (hdlt : depth < maxHops)
    (hreach : ReachWithin g cfg seeds depth.toNat cur)
    (hnx : nx.2 ∈ g.edges ∧ edgeAllowed nx.2 cfg = true ∧
      ((nx.2.fromID = cur ∧ nx.1 = nx.2.toID) ∨ (nx.2.toID = cur ∧ nx.1 = nx.2.fromID))) :
    BfsInv g cfg seeds maxHops (visitNeighbor cur depth st nx) := by
  unfold visitNeighbor
  have h0s := hinv.scores_ok
  have h01 := hinv.seeds_one
  rw [← recordEdge_nodeScores st nx.2] at h0s h01
  have hrel := relaxScore_inv g cfg seeds (recordEdge st nx.2) cur nx h0s h01 hnx
  have hq : ∀ q ∈ (relaxScore cur (recordEdge st nx.2) nx).queue,
      0 ≤ q.2 ∧ q.2 ≤ maxHops ∧ ReachWithin g cfg seeds q.2.toNat q.1 := by
    rw [relaxScore_queue, recordEdge_queue]
    exact hinv.queue_ok
  have hv : ∀ p ∈ (relaxScore cur (recordEdge st nx.2) nx).visitedDepth,
      ReachWithin g cfg seeds maxHops.toNat p.1 := by
    rw [relaxScore_visitedDepth, recordEdge_visitedDepth]
    exact hinv.visited_ok
  have henq := enqueueNext_inv g cfg seeds maxHops
    (relaxScore cur (recordEdge st nx.2) nx) cur depth nx hq hv hd0 hdlt hreach hnx
  refine ⟨?_, ?_, henq.1, henq.2⟩
  · rw [enqueueNext_nodeScores]
    exact hrel.1
  · rw [enqueueNext_nodeScores]
    exact hrel.2

end retrieval

namespace retrieval

theorem foldl_visitNeighbor_inv (g : Graph) (cfg : Config) (seeds : List Str)
    (maxHops : Int) (cur : Str) (depth : Int) (l : List (Str × Edge)) :
    ∀ st : BfsState, BfsInv g cfg seeds maxHops st →
      (0 ≤ depth) → (depth < maxHops) →
      ReachWithin g cfg seeds depth.toNat cur →
      (∀ nx ∈ l, nx.2 ∈ g.edges ∧ edgeAllowed nx.2 cfg = true ∧
        ((nx.2.fromID = cur ∧ nx.1 = nx.2.toID) ∨ (nx.2.toID = cur ∧ nx.1 = nx.2.fromID))) →
      BfsInv g cfg seeds maxHops (l.foldl (visitNeighbor cur depth) st) := by
  induction l with
  | nil => intro st hinv _ _ _ _; simpa using hinv
  | cons nx rest ih =>
    intro st hinv hd0 hdlt hreach hl
    simp only [List.foldl_cons]
    exact ih _ (visitNeighbor_inv g cfg seeds maxHops st cur depth nx hinv hd0 hdlt hreach
        (hl nx (List.mem_cons_self _ _)))
      hd0 hdlt hreach (fun q hq => hl q (List.mem_cons_of_mem _ hq))

theorem bfsRun_inv (g : Graph) (cfg : Config) (seeds : List Str) (maxHops : Int)
    (fuel : Nat) :
    ∀ st : BfsState, BfsInv g cfg seeds maxHops st →
      BfsInv g cfg seeds maxHops (bfsRun (adjOf g cfg) maxHops fuel st) := by
  induction fuel with
  | zero => intro st hinv; simpa [bfsRun] using hinv
  | succ n ih =>
    intro st hinv
    cases hqe : st.queue with
    | nil =>
      have hred : bfsRun (adjOf g cfg) maxHops (n + 1) st = st := by
        rw [bfsRun, hqe]
      rw [hred]
      exact hinv
    | cons q rest =>
      obtain ⟨cur, depth⟩ := q
      have hcurq := hinv.queue_ok (cur, depth) (by rw [hqe]; exact List.mem_cons_self _ _)
      have hinv1 : BfsInv g cfg seeds maxHops { st with queue := rest } :=
        ⟨hinv.scores_ok, hinv.seeds_one,
         fun q hq => hinv.queue_ok q (by rw [hqe]; exact List.mem_cons_of_mem _ hq),
         hinv.visited_ok⟩
      by_cases hge : depth ≥ maxHops
      · have hred : bfsRun (adjOf g cfg) maxHops (n + 1) st =
            bfsRun (adjOf g cfg) maxHops n { st with queue := rest } := by
          rw [bfsRun, hqe]
          simp only [if_pos hge]
        rw [hred]
        exact ih _ hinv1
      · have hred : bfsRun (adjOf g cfg) maxHops (n + 1) st =
            bfsRun (adjOf g cfg) maxHops n
              ((adjOf g cfg cur).foldl (visitNeighbor cur depth)
                { st with queue := rest }) := by
          rw [bfsRun, hqe]
          simp only [if_neg hge]
        rw [hred]
        refine ih _ ?_
        exact foldl_visitNeighbor_inv g cfg seeds maxHops cur depth (adjOf g cfg cur)
          _ hinv1 hcurq.1 (lt_of_not_ge hge) hcurq.2.2
          (fun nx hnx => adjOf_mem g cfg cur nx hnx)

theorem strLe_total (a b : Str) : (strLe a b || strLe b a) = true := by
  induction a generalizing b with
  | nil => cases b <;> simp [strLe]
  | cons c as ih =>
    cases b with
    | nil => simp [strLe]
    | cons d bs =>
      by_cases h1 : c.toNat < d.toNat
      · simp [strLe, h1, Nat.lt_asymm h1]
      · by_cases h2 : d.toNat < c.toNat
        · simp [strLe, h1, h2]
        · simp [strLe, h1, h2, ih bs]

theorem strLe_trans (a b c : Str) (hab : strLe a b = true) (hbc : strLe b c = true) :
    strLe a c = true := by
  induction a generalizing b c with
  | nil => cases c <;> simp [strLe]
  | cons x as ih =>
    cases b with
    | nil => simp [strLe] at hab
    | cons y bs =>
      cases c with
      | nil => simp [strLe] at hbc
      | cons z cs =>
        rw [strLe] at hab hbc ⊢
        by_cases hxy : x.toNat < y.toNat
        · by_cases hyz : y.toNat < z.toNat
          · rw [if_pos (Nat.lt_trans hxy hyz)]
          · rw [if_neg hyz] at hbc
            by_cases hzy : z.toNat < y.toNat
            · rw [if_pos hzy] at hbc
              cases hbc
            · have hyz2 : y.toNat = z.toNat := by omega
              rw [if_pos (by omega : x.toNat < z.toNat)]
        · rw [if_neg hxy] at hab
          by_cases hyx : y.toNat < x.toNat
          · rw [if_pos hyx] at hab
            cases hab
          · rw [if_neg hyx] at hab
            have hxy2 : x.toNat = y.toNat := by omega
            by_cases hyz : y.toNat < z.toNat
            · rw [if_pos (by omega : x.toNat < z.toNat)]
            · rw [if_neg hyz] at hbc
              by_cases hzy : z.toNat < y.toNat
              · rw [if_pos hzy] at hbc
                cases hbc
              · rw [if_neg hzy] at hbc
                rw [if_neg (by omega : ¬ x.toNat < z.toNat),
                  if_neg (by omega : ¬ z.toNat < x.toNat)]
                exact ih bs cs hab hbc

instance : IsTotal Str strLeP :=
  ⟨fun a b => by
    unfold strLeP
    rcases Bool.or_eq_true_iff.mp (strLe_total a b) with h | h
    · exact Or.inl h
    · exact Or.inr h⟩

instance : IsTrans Str strLeP :=
  ⟨fun a b c hab hbc => strLe_trans a b c hab hbc⟩

theorem sortStrs_mem (l : List Str) (x : Str) : x ∈ sortStrs l ↔ x ∈ l :=
  (List.perm_insertionSort strLeP l).mem_iff

theorem sortStrs_idem (l : List Str) : sortStrs (sortStrs l) = sortStrs l :=
  List.Sorted.insertionSort_eq (List.sorted_insertionSort strLeP l)

end retrieval

namespace retrieval

theorem clampCfg_maxHops (cfg : Config) : (clampCfg cfg).maxHops = max cfg.maxHops 0 := by
  unfold clampCfg
  by_cases h : cfg.maxHops < 0
  · rw [if_pos h]
    show (0 : Int) = max cfg.maxHops 0
    omega
  · rw [if_neg h]
    omega

theorem clampCfg_maxHops_nonneg (cfg : Config) : 0 ≤ (clampCfg cfg).maxHops := by
  rw [clampCfg_maxHops]
  exact le_max_right _ _

theorem edgeAllowed_clamp (e : Edge) (cfg : Config) :
    edgeAllowed e (clampCfg cfg) = edgeAllowed e cfg := by
  unfold clampCfg
  split <;> rfl

theorem walkOk_clamp (g : Graph) (cfg : Config) (w : List Edge) :
    ∀ a b : Str, walkOk g (clampCfg cfg) a w b = walkOk g cfg a w b := by
  induction w with
  | nil => intro a b; rfl
  | cons e rest ih =>
    intro a b
    simp only [walkOk, edgeAllowed_clamp, ih]

theorem hasWalkScore_clamp (g : Graph) (cfg : Config) (seeds : List Str) (id : Str)
    (s : ℚ) (h : HasWalkScore g (clampCfg cfg) seeds id s) :
    HasWalkScore g cfg seeds id s := by
  rcases h with ⟨seed, hseed, w, hok, hs⟩
  exact ⟨seed, hseed, w, by rw [← walkOk_clamp]; exact hok, hs⟩

theorem reachWithin_clamp (g : Graph) (cfg : Config) (seeds : List Str) (k : Nat)
    (id : Str) (h : ReachWithin g (clampCfg cfg) seeds k id) :
    ReachWithin g cfg seeds k id := by
  rcases h with ⟨seed, hseed, w, hok, hlen⟩
  exact ⟨seed, hseed, w, by rw [← walkOk_clamp]; exact hok, hlen⟩

/-- Initial BFS state over the sorted seed list. -/
def initState (seedIDs : List Str) : BfsState :=
  { visitedDepth := seedIDs.map (fun id => (id, 0)),
    nodeScores := seedIDs.map (fun id => (id, 1)),
    queue := seedIDs.map (fun id => (id, 0)),
    edgeSeen := [], edges := [] }

theorem init_inv (g : Graph) (cfg : Config) (seedIDs : List Str) (maxHops : Int)
    (hmax : 0 ≤ maxHops) : BfsInv g cfg seedIDs maxHops (initState seedIDs) := by
  refine ⟨?_, ?_, ?_, ?_⟩
  · intro p hp
    rcases List.mem_map.mp hp with ⟨id, hid, heq⟩
    rw [← heq]
    refine ⟨by norm_num, by norm_num, id, hid, [], ?_, rfl⟩
    simp [walkOk]
  · intro id hid
    exact alookup_map_const seedIDs 1 id hid
  · intro q hq
    rcases List.mem_map.mp hq with ⟨id, hid, heq⟩
    rw [← heq]
    refine ⟨le_refl 0, hmax, id, hid, [], ?_, by simp⟩
    simp [walkOk]
  · intro p hp
    rcases List.mem_map.mp hp with ⟨id, hid, heq⟩
    rw [← heq]
    refine ⟨id, hid, [], ?_, by simp⟩
    simp [walkOk]

theorem bfsRun_no_expand (adjF : Str → List (Str × Edge)) (maxHops : Int) (fuel : Nat) :
    ∀ st : BfsState, (∀ q ∈ st.queue, q.2 ≥ maxHops) →
      (bfsRun adjF maxHops fuel st).visitedDepth = st.visitedDepth := by
  induction fuel with
  | zero => intro st _; rfl
  | succ n ih =>
    intro st hq
    cases hqe : st.queue with
    | nil =>
      have : bfsRun adjF maxHops (n + 1) st = st := by rw [bfsRun, hqe]
      rw [this]
    | cons q rest =>
      obtain ⟨cur, depth⟩ := q
      have hge : depth ≥ maxHops := hq (cur, depth) (by rw [hqe]; exact List.mem_cons_self _ _)
      have hred : bfsRun adjF maxHops (n + 1) st =
          bfsRun adjF maxHops n { st with queue := rest } := by
        rw [bfsRun, hqe]
        simp only [if_pos hge]
      rw [hred]
      exact ih _ fun q hqm => hq q (by rw [hqe]; exact List.mem_cons_of_mem _ hqm)

theorem extract_empty (g : Graph) (changes : List ChangedFile) (cfg : Config)
    (h : sortStrs (findSeedNodeIDs g changes) = []) :
    ExtractFromChanges g changes cfg =
      { maxHops := (clampCfg cfg).maxHops,
        seedIDs := sortStrs (findSeedNodeIDs g changes),
        updatedFiles := changedFilePaths changes,
        nodeIDs := [], nodeScores := [], edges := [] } := by
  simp only [ExtractFromChanges]
  rw [if_pos h]

theorem extract_nonempty (g : Graph) (changes : List ChangedFile) (cfg : Config)
    (h : ¬ sortStrs (findSeedNodeIDs g changes) = []) :
    ExtractFromChanges g changes cfg =
      { maxHops := (clampCfg cfg).maxHops,
        seedIDs := sortStrs (findSeedNodeIDs g changes),
        updatedFiles := changedFilePaths changes,
        nodeIDs := sortStrs
          ((bfsRun (adjOf g (clampCfg cfg)) (clampCfg cfg).maxHops
            (((sortStrs (findSeedNodeIDs g changes)).length + 2 * g.edges.length + 1) *
              ((clampCfg cfg).maxHops.toNat + 2))
            (initState (sortStrs (findSeedNodeIDs g changes)))).visitedDepth.map (·.1)),
        nodeScores := (bfsRun (adjOf g (clampCfg cfg)) (clampCfg cfg).maxHops
          (((sortStrs (findSeedNodeIDs g changes)).length + 2 * g.edges.length + 1) *
            ((clampCfg cfg).maxHops.toNat + 2))
          (initState (sortStrs (findSeedNodeIDs g changes)))).nodeScores,
        edges := ((bfsRun (adjOf g (clampCfg cfg)) (clampCfg cfg).maxHops
          (((sortStrs (findSeedNodeIDs g changes)).length + 2 * g.edges.length + 1) *
            ((clampCfg cfg).maxHops.toNat + 2))
          (initState (sortStrs (findSeedNodeIDs g changes)))).edges).insertionSort edgeLeP } := by
  simp only [ExtractFromChanges, initState]
  rw [if_neg h]

end retrieval

/-- C3: every node ID in the subgraph returned by `ExtractFromChanges` is
reachable from some seed by a walk of at most `max maxHops 0` edges that
all pass the minConfidence/allowedKinds filter; a negative `maxHops` is
clamped to 0 and yields a seed-only node set. -/
theorem C3_subgraph_reachability (g : retrieval.Graph)
    (changes : List retrieval.ChangedFile) (cfg : retrieval.Config) :
    (∀ id ∈ (retrieval.ExtractFromChanges g changes cfg).nodeIDs,
      retrieval.ReachWithin g cfg (retrieval.ExtractFromChanges g changes cfg).seedIDs
        (max cfg.maxHops 0).toNat id) ∧
    (cfg.maxHops < 0 →
      (retrieval.ExtractFromChanges g changes cfg).nodeIDs =
        (retrieval.ExtractFromChanges g changes cfg).seedIDs ∧
      (retrieval.ExtractFromChanges g changes cfg).maxHops = 0) := by
  by_cases hseed : sortStrs (retrieval.findSeedNodeIDs g changes) = []
  · rw [retrieval.extract_empty g changes cfg hseed]
    constructor
    · intro id hid
      simp at hid
    · intro hneg
      refine ⟨by rw [hseed], ?_⟩
      show (retrieval.clampCfg cfg).maxHops = 0
      rw [retrieval.clampCfg_maxHops]
      omega
  · rw [retrieval.extract_nonempty g changes cfg hseed]
    have hinv := retrieval.bfsRun_inv g (retrieval.clampCfg cfg)
      (sortStrs (retrieval.findSeedNodeIDs g changes)) (retrieval.clampCfg cfg).maxHops
      (((sortStrs (retrieval.findSeedNodeIDs g changes)).length + 2 * g.edges.length + 1) *
        ((retrieval.clampCfg cfg).maxHops.toNat + 2))
      (retrieval.initState (sortStrs (retrieval.findSeedNodeIDs g changes)))
      (retrieval.init_inv g (retrieval.clampCfg cfg) _ _
        (retrieval.clampCfg_maxHops_nonneg cfg))
    constructor
    · intro id hid
      simp only at hid
      rw [retrieval.sortStrs_mem] at hid
      rcases List.mem_map.mp hid with ⟨p, hp, hpid⟩
      have h := hinv.visited_ok p hp
      rw [hpid] at h
      have h2 := retrieval.reachWithin_clamp g cfg _ _ _ h
      rwa [retrieval.clampCfg_maxHops] at h2
    · intro hneg
      have hmax0 : (retrieval.clampCfg cfg).maxHops = 0 := by
        rw [retrieval.clampCfg_maxHops]
        omega
      have hnoexp := retrieval.bfsRun_no_expand
        (retrieval.adjOf g (retrieval.clampCfg cfg)) (retrieval.clampCfg cfg).maxHops
        (((sortStrs (retrieval.findSeedNodeIDs g changes)).length + 2 * g.edges.length + 1) *
          ((retrieval.clampCfg cfg).maxHops.toNat + 2))
        (retrieval.initState (sortStrs (retrieval.findSeedNodeIDs g changes)))
        (by
          intro q hq
          rcases List.mem_map.mp hq with ⟨idq, _, heq⟩
          rw [← heq]
          show (0 : Int) ≥ (retrieval.clampCfg cfg).maxHops
          omega)
      constructor
      · simp only
        rw [hnoexp]
        simp only [retrieval.initState, List.map_map]
        have : ((fun p : Str × Int => p.1) ∘ fun id => (id, (0 : Int))) = id := rfl
        rw [this, List.map_id]
        exact retrieval.sortStrs_idem _
      · exact hmax0

/-- C2 (amended): in the subgraph returned by `ExtractFromChanges`, every
seed keeps score exactly 1.0, and every scored node's score is positive,
at most 1, and equal to the product of normalized edge confidences along
some filter-passing walk from a seed; it is not in general the maximum
such product over all paths. -/
theorem C2_subgraph_scores_amended (g : retrieval.Graph)
    (changes : List retrieval.ChangedFile) (cfg : retrieval.Config) :
    (∀ p ∈ (retrieval.ExtractFromChanges g changes cfg).nodeScores,
      0 < p.2 ∧ p.2 ≤ 1 ∧
        retrieval.HasWalkScore g cfg
          (retrieval.ExtractFromChanges g changes cfg).seedIDs p.1 p.2) ∧
    (∀ id ∈ (retrieval.ExtractFromChanges g changes cfg).seedIDs,
      alookup (retrieval.ExtractFromChanges g changes cfg).nodeScores id =
        some 1) := by
  by_cases hseed : sortStrs (retrieval.findSeedNodeIDs g changes) = []
  · rw [retrieval.extract_empty g changes cfg hseed]
    constructor
    · intro p hp
      simp at hp
    · intro id hid
      simp only at hid
      rw [hseed] at hid
      simp at hid
  · rw [retrieval.extract_nonempty g changes cfg hseed]
    have hinv := retrieval.bfsRun_inv g (retrieval.clampCfg cfg)
      (sortStrs (retrieval.findSeedNodeIDs g changes)) (retrieval.clampCfg cfg).maxHops
      (((sortStrs (retrieval.findSeedNodeIDs g changes)).length + 2 * g.edges.length + 1) *
        ((retrieval.clampCfg cfg).maxHops.toNat + 2))
      (retrieval.initState (sortStrs (retrieval.findSeedNodeIDs g changes)))
      (retrieval.init_inv g (retrieval.clampCfg cfg) _ _
        (retrieval.clampCfg_maxHops_nonneg cfg))
    constructor
    · intro p hp
      have h := hinv.scores_ok p hp
      exact ⟨h.1, h.2.1, retrieval.hasWalkScore_clamp g cfg _ _ _ h.2.2⟩
    · intro id hid
      exact hinv.seeds_one id hid

/-- Four-node graph used by the C2 and C3 concrete instances: a seed `S`
with a weak direct edge to `A`, a strong detour through `B`, and `C`
hanging off `A`. -/
def c2graph : retrieval.Graph :=
  { nodes := [(S "S", ⟨S "s.go", 1, 10⟩), (S "A", ⟨S "a.go", 1, 10⟩),
              (S "B", ⟨S "b.go", 1, 10⟩), (S "C", ⟨S "c.go", 1, 10⟩)],
    edges := [⟨S "S", S "A", S "calls", S "heuristic", 0.5⟩,
              ⟨S "S", S "B", S "calls", S "heuristic", 0.9⟩,
              ⟨S "B", S "A", S "calls", S "heuristic", 0.9⟩,
              ⟨S "A", S "C", S "calls", S "heuristic", 0.9⟩] }

/-- Retrieval configuration of the C2/C3 instances: three hops, no filter. -/
def c2cfg : retrieval.Config := ⟨3, 0, []⟩

/-- Change set of the C2/C3 instances: one line inside `S`. -/
def c2changes : List retrieval.ChangedFile := [⟨S "s.go", [5]⟩]

/-- The high-confidence walk S→B→A→C of the C2 counterexample. -/
def c2walk : List retrieval.Edge :=
  [⟨S "S", S "B", S "calls", S "heuristic", 0.9⟩,
   ⟨S "B", S "A", S "calls", S "heuristic", 0.9⟩,
   ⟨S "A", S "C", S "calls", S "heuristic", 0.9⟩]

unseal Rat.mul Rat.ofScientific Rat.add Rat.sub Rat.inv in
/-- C2 (counterexample): with maxHops = 3 the BFS assigns node `C` the
score 0.45 (via the weak direct edge), yet the filter-passing path
S→B→A→C of length 3 has confidence product 0.729 > 0.45, so the score is
not the maximum product over filter-passing paths from a seed. -/
theorem C2_counterexample :
    alookup
        (retrieval.ExtractFromChanges c2graph c2changes c2cfg).nodeScores (S "C") =
      some ((9 : ℚ)/20) ∧
    (S "S") ∈ (retrieval.ExtractFromChanges c2graph c2changes c2cfg).seedIDs ∧
    retrieval.walkOk c2graph c2cfg (S "S") c2walk (S "C") = true ∧
    c2walk.length ≤ 3 ∧
    retrieval.walkScore c2walk = (729 : ℚ)/1000 ∧
    (9 : ℚ)/20 < (729 : ℚ)/1000 := by
  refine ⟨?_, ?_, ?_, ?_, ?_, ?_⟩ <;> decide

unseal Rat.mul Rat.ofScientific Rat.add Rat.sub Rat.inv in
/-- C2 (witness): the amended theorem applied to the concrete graph at the
scored node `C` and at the seed `S`. -/
theorem C2_subgraph_scores_amended_witness :
    (0 < (9 : ℚ)/20 ∧ (9 : ℚ)/20 ≤ 1 ∧
      retrieval.HasWalkScore c2graph c2cfg
        (retrieval.ExtractFromChanges c2graph c2changes c2cfg).seedIDs
        (S "C") ((9 : ℚ)/20)) ∧
    alookup
        (retrieval.ExtractFromChanges c2graph c2changes c2cfg).nodeScores (S "S") =
      some 1 :=
  ⟨(C2_subgraph_scores_amended c2graph c2changes c2cfg).1 (S "C", (9 : ℚ)/20) (by decide),
   (C2_subgraph_scores_amended c2graph c2changes c2cfg).2 (S "S") (by decide)⟩

/-- Negative-hop configuration for the C3 witness. -/
def c3cfgNeg : retrieval.Config := ⟨-1, 0, []⟩

unseal Rat.mul Rat.ofScientific Rat.add Rat.sub Rat.inv in
/-- C3 (witness): the reachability theorem applied to the concrete graph
at node `C`, and the clamping conjunct applied at a negative maxHops. -/
theorem C3_subgraph_reachability_witness :
    retrieval.ReachWithin c2graph c2cfg
      (retrieval.ExtractFromChanges c2graph c2changes c2cfg).seedIDs
      (max (3 : Int) 0).toNat (S "C") ∧
    ((retrieval.ExtractFromChanges c2graph c2changes c3cfgNeg).nodeIDs =
      (retrieval.ExtractFromChanges c2graph c2changes c3cfgNeg).seedIDs ∧
     (retrieval.ExtractFromChanges c2graph c2changes c3cfgNeg).maxHops = 0) :=
  ⟨(C3_subgraph_reachability c2graph c2changes c2cfg).1 (S "C") (by decide),
   (C3_subgraph_reachability c2graph c2changes c3cfgNeg).2 (by decide)⟩

/-! ## Chunk engine (`internal/knowledge/engine.go`, C8) -/

/-- Model of Go `strings.Join` with an arbitrary separator. -/
def goJoinStr (sep : Str) : List Str → Str
  | [] => []
  | [x] => x
  | x :: rest => x ++ sep ++ goJoinStr sep rest

/-- Decimal rendering of a natural number (Go `fmt.Sprintf("%d", n)`). -/
def natToStr (n : Nat) : Str := (toString n).data

/-- Model of Go `filepath.Base` for slash-separated relative paths. -/
def goFilepathBase (p : Str) : Str :=
  ((goSplitChar '/' p).getLast?).getD p

namespace knowledge

/-- Symbol metadata of the `graph.Symbol` revision used by the engine. -/
structure SymbolMeta where
  signature : Str
  receiver : Str
deriving DecidableEq, Repr

/-- Node payload of the graph consumed by the chunk engine (the fields of
`graph.Symbol` the engine reads; that record revision lives in
`src/unnamed/part_020`). -/
structure Symbol where
  id : Str
  name : Str
  package : Str
  unitType : Str
  filepath : Str
  startLine : Int
  endLine : Int
  content : Str
  contentHash : Str
  description : Str
  metadata : SymbolMeta
deriving DecidableEq, Repr

/-- Graph as consumed by the engine: node map and directed edge slice. -/
structure GraphK where
  nodes : List (Str × Symbol)
  edges : List graphSrc.Edge
deriving DecidableEq, Repr

/-- Go `graph.Graph.GetDependencies` (linear scan of the edge slice). -/
def GetDependencies (g : GraphK) (id : Str) : List Symbol :=
  g.edges.foldl
    (fun acc e =>
      if e.fromID = id then
        match alookup g.nodes e.toID with
        | some n => acc ++ [n]
        | none => acc
      else acc)
    []

/-- Go `graph.Graph.GetDependents` (linear scan of the edge slice). -/
def GetDependents (g : GraphK) (id : Str) : List Symbol :=
  g.edges.foldl
    (fun acc e =>
      if e.toID = id then
        match alookup g.nodes e.fromID with
        | some n => acc ++ [n]
        | none => acc
      else acc)
    []

/-- Go `isExported` from `internal/knowledge/engine.go`. -/
def isExported (name : Str) : Bool :=
  match name with
  | [] => false
  | c :: _ => decide ('A' ≤ c) && decide (c ≤ 'Z')

/-- One dequeue step sequence of `reachesExportedSymbol`, with fuel. -/
def reachesLoop (g : GraphK) (maxDepth : Int) :
    Nat → List (Str × Int) → List Str → Bool
  | 0, _, _ => false
  | _ + 1, [], _ => false
  | fuel + 1, (cur, depth) :: rest, visited =>
    if decide (depth > 0) &&
        (match alookup g.nodes cur with
         | some n => isExported n.name
         | none => false) then true
    else if depth ≥ maxDepth then reachesLoop g maxDepth fuel rest visited
    else
      let step := fun (acc : List (Str × Int) × List Str) (dep : Symbol) =>
        if dep.id ∈ acc.2 then acc
        else (acc.1 ++ [(dep.id, depth + 1)], acc.2 ++ [dep.id])
      let acc := (GetDependencies g cur).foldl step (rest, visited)
      let acc := (GetDependents g cur).foldl step acc
      reachesLoop g maxDepth fuel acc.1 acc.2

/-- Go `Engine.reachesExportedSymbol`: BFS over both edge directions up to
`maxDepth`. The fuel dominates the loop count since every enqueued ID is
distinct (`visited`). -/
def reachesExportedSymbol (g : GraphK) (startID : Str) (maxDepth : Int) : Bool :=
  if maxDepth ≤ 0 then false
  else reachesLoop g maxDepth (g.nodes.length + 2) [(startID, 0)] [startID]

/-- Go `Engine.isDocRelevantNode` (nil checks elided). -/
def isDocRelevantNode (g : GraphK) (id : Str) (node : Symbol) : Bool :=
  isExported node.name || reachesExportedSymbol g id 2

/-- Go `Engine.getConciseSignature`. -/
def getConciseSignature (u : Symbol) : Str :=
  if goTrimSpace u.metadata.signature ≠ [] then goTrimSpace u.metadata.signature
  else
    match (goSplitChar '\n' u.content).find? (fun line =>
      goTrimSpace line ≠ [] ∧ ¬ goStartsWith (S "//") (goTrimSpace line) ∧
        ¬ goStartsWith (S "/*") (goTrimSpace line)) with
    | some line => goTrimSpace line
    | none => u.name

/-- Go `truncateChunkContent` from `internal/knowledge/engine.go`. -/
def truncateChunkContent (content : Str) (mx : Int) : Str :=
  if mx ≤ 0 ∨ (content.length : Int) ≤ mx then content
  else content.take mx.toNat ++ S "\n... (truncated)"

/-- Go `Engine.CreateChunk`. -/
def CreateChunk (g : GraphK) (id : Str) (node : Symbol) : SearchChunk :=
  { id := id, filePath := node.filepath, name := node.name,
    unitType := node.unitType, package := node.package,
    description := node.description, signature := getConciseSignature node,
    content := node.content, contentHash := node.contentHash,
    dependencies := (GetDependencies g id).map (·.name),
    usedBy := (GetDependents g id).map (·.name),
    sources := [{ symbolID := node.id, filePath := node.filepath,
                  startLine := node.startLine, endLine := node.endLine,
                  relation := S "primary", confidence := 0.9 }] }

/-- Go `lineCount` from `internal/knowledge/engine.go`. -/
def lineCount (s : Str) : Int :=
  if goTrimSpace s = [] then 0 else ((goSplitChar '\n' s).length : Int)

/-- Go `shouldSegmentChunk` from `internal/knowledge/engine.go`. -/
def shouldSegmentChunk (c : SearchChunk) : Bool :=
  (c.unitType = S "function" ∨ c.unitType = S "method") ∧ lineCount c.content > 45

/-- Go `segmentSources` from `internal/knowledge/engine.go`. -/
def segmentSources (src : List ChunkSource) (segStart segEnd : Int) : List ChunkSource :=
  if src = [] then []
  else
    src.map (fun s =>
      let start := s.startLine + segStart
      let stop := s.startLine + segEnd - 1
      let start := if start ≤ 0 then s.startLine else start
      let stop := if stop < start then start else stop
      { s with startLine := start, endLine := stop, relation := S "context" })

/-- Go `Engine.createSymbolChunksForNode` (segment constants 40/8/3; the
segment loop visits `start = idx·step` for `idx < 3`). -/
def createSymbolChunksForNode (g : GraphK) (node : Symbol) : List SearchChunk :=
  let base := CreateChunk g node.id node
  let base := { base with content := truncateChunkContent base.content 1200 }
  if ¬ shouldSegmentChunk base then [base]
  else
    let segmentLines : Nat := 40
    let segmentOverlap : Nat := 8
    let step := segmentLines - segmentOverlap
    let lines := goSplitChar '\n' base.content
    (List.range 3).foldl
      (fun acc idx =>
        let start := idx * step
        if start < lines.length then
          let stop := min (start + segmentLines) lines.length
          let block := goTrimSpace (goJoinChar '\n' ((lines.drop start).take (stop - start)))
          if block = [] then acc
          else
            acc ++ [{ base with
              id := base.id ++ S "::seg:" ++ natToStr (idx + 1),
              unitType := S "symbol_segment",
              description := goTrimSpace base.description ++ S " [segment " ++
                natToStr (idx + 1) ++ S "]",
              content := block,
              contentHash := base.contentHash ++ S "::seg:" ++ natToStr (idx + 1),
              sources := segmentSources base.sources (start : Int) (stop : Int) }]
        else acc)
      [base]

/-- Go `chunkPriority` from `internal/knowledge/engine.go`. -/
def chunkPriority (c : SearchChunk) : Int :=
  let score : Int := if c.unitType = S "file_module" then 5 else 40
  let score := if isExported c.name then score + 20 else score
  let score :=
    if c.unitType = S "function" ∨ c.unitType = S "method" ∨
        c.unitType = S "struct" ∨ c.unitType = S "interface" then score + 12
    else if c.unitType = S "constant" ∨ c.unitType = S "variable" then score + 4
    else score
  let score := score + min (c.dependencies.length : Int) 8
  score + min (c.usedBy.length : Int) 8

/-- Comparator of `sortChunksByPriority` (priority descending, then ID,
then content hash). -/
def chunkLe (a b : SearchChunk) : Bool :=
  if chunkPriority a = chunkPriority b then
    if a.id = b.id then strLe a.contentHash b.contentHash
    else strLe a.id b.id
  else decide (chunkPriority b < chunkPriority a)

/-- Order relation form of `chunkLe`. -/
def chunkLeP (a b : SearchChunk) : Prop := chunkLe a b = true

instance : DecidableRel chunkLeP := fun a b => by
  unfold chunkLeP
  infer_instance

/-- Go `sortChunksByPriority` (`sort.Slice` is unstable; ties beyond the
full comparator key are resolved deterministically here). -/
def sortChunksByPriority (chunks : List SearchChunk) : List SearchChunk :=
  chunks.insertionSort chunkLeP

/-- Go `containsChunkID` from `internal/knowledge/engine.go`. -/
def containsChunkID (chunks : List SearchChunk) (id : Str) : Bool :=
  chunks.any (fun c => c.id = id)

/-- Go `minInt` from `internal/knowledge/engine.go`. -/
def minInt (a b : Int) : Int := if a < b then a else b

/-- Backfill step of `limitChunksByBudget` (the body of its two backfill
loops). -/
def backfillStep (mx : Int) (o : List SearchChunk) (c : SearchChunk) :
    List SearchChunk :=
  if (o.length : Int) ≥ mx then o
  else if containsChunkID o c.id then o
  else o ++ [c]

/-- Go `limitChunksByBudget` from `internal/knowledge/engine.go`. -/
def limitChunksByBudget (chunks : List SearchChunk) (mx : Int) : List SearchChunk :=
  if mx ≤ 0 ∨ (chunks.length : Int) ≤ mx then chunks
  else
    let symbols := chunks.filter (fun c => ¬(c.unitType = S "file_module"))
    let files := chunks.filter (fun c => c.unitType = S "file_module")
    let symbols := sortChunksByPriority symbols
    let files := sortChunksByPriority files
    let targetFiles : Int := if mx ≥ 8 then mx / 4 else if mx ≥ 4 then 1 else 0
    let targetSymbols := mx - targetFiles
    let out := symbols.take (minInt (symbols.length : Int) targetSymbols).toNat ++
      files.take (minInt (files.length : Int) targetFiles).toNat
    let out :=
      if (out.length : Int) < mx ∧ (symbols.length : Int) > (out.length : Int) then
        symbols.foldl (backfillStep mx) out
      else out
    if (out.length : Int) < mx then files.foldl (backfillStep mx) out
    else out

end knowledge

namespace knowledge

/-- Go `SearchChunk.ToEmbeddableText`. -/
def ToEmbeddableText (c : SearchChunk) : Str :=
  S "Symbol: " ++ c.name ++ S " (" ++ c.unitType ++ S ") in package " ++ c.package ++
    S "\n" ++
  (if ¬(c.description = []) then S "Context: " ++ c.description ++ S "\n" else []) ++
  S "Definition: " ++ c.signature ++ S "\n" ++
  (if ¬(c.dependencies = []) then
    S "Depends on: " ++ goJoinStr (S ", ") c.dependencies ++ S "\n" else []) ++
  (if ¬(c.usedBy = []) then
    S "Used by: " ++ goJoinStr (S ", ") c.usedBy ++ S "\n" else [])

/-- Relevant nodes of one file, in node-map order (Go iterates the node
map in unspecified order; the final chunk list is sorted by priority). -/
def nodesForFile (g : GraphK) (f : Str) : List Symbol :=
  (g.nodes.filter (fun p => p.2.filepath = f ∧ isDocRelevantNode g p.1 p.2)).map (·.2)

/-- Description line of one member inside a file-module chunk. -/
def fileMemberDescLine (n : Symbol) : Str :=
  S "- **" ++ n.name ++ S "** (" ++ n.unitType ++ S "): " ++ n.description ++ S "\n"

/-- Aggregated code body of one member inside a file-module chunk (only
structs, interfaces, functions and methods contribute). -/
def fileMemberContent (n : Symbol) : Str :=
  if n.unitType = S "struct" ∨ n.unitType = S "interface" ∨
      n.unitType = S "function" ∨ n.unitType = S "method" then
    S "// " ++ n.unitType ++ S " " ++ n.name ++ S "\n" ++ n.content ++ S "\n\n"
  else []

/-- Aggregated signature of one member (structs and interfaces only). -/
def fileMemberSig (n : Symbol) : Str :=
  if n.unitType = S "struct" ∨ n.unitType = S "interface" then
    getConciseSignature n ++ S "\n\n"
  else []

/-- File-module chunk of `PrepareChunksForFiles` for one file with its
relevant nodes (insertion-ordered dedup stands in for Go map iteration in
the dependency name sets). -/
def fileModuleChunk (g : GraphK) (path : Str) (nodes : List Symbol) : SearchChunk :=
  let pkgName := (nodes.head?.map (·.package)).getD []
  let fileName := goFilepathBase path
  let combinedHash := (nodes.map (·.contentHash)).flatten
  let sources := nodes.map (fun n =>
    ({ symbolID := n.id, filePath := n.filepath, startLine := n.startLine,
       endLine := n.endLine, relation := S "primary", confidence := 0.9 } : ChunkSource))
  let desc := S "Module `" ++ fileName ++ S "` in package `" ++ pkgName ++
    S "` containing:\n" ++ (nodes.map fileMemberDescLine).flatten
  let sig := (nodes.map fileMemberSig).flatten
  let rawContent := (nodes.map fileMemberContent).flatten
  let content :=
    if rawContent.length > 3000 then rawContent.take 3000 ++ S "\n... (truncated)"
    else rawContent
  let deps := nodes.foldl
    (fun acc n => (GetDependencies g n.id).foldl
      (fun acc d => insertIfAbsent acc d.name) acc) []
  let usedBy := nodes.foldl
    (fun acc n => (GetDependents g n.id).foldl
      (fun acc d => insertIfAbsent acc d.name) acc) []
  { id := path, filePath := path, name := fileName, unitType := S "file_module",
    package := pkgName, description := desc, signature := sig, content := content,
    contentHash := combinedHash, dependencies := deps, usedBy := usedBy,
    sources := sources }

/-- Go `Engine.PrepareChunksForFiles`: symbol-first chunks for the
relevant nodes of the given files, one file-module chunk per file with at
least one relevant node, sorted by priority. -/
def PrepareChunksForFiles (g : GraphK) (filepaths : List Str) : List SearchChunk :=
  let uniqueFiles := filepaths.foldl insertIfAbsent []
  let symbolChunks := (uniqueFiles.map (fun f =>
    ((nodesForFile g f).map (fun n => createSymbolChunksForNode g n)).flatten)).flatten
  let fileChunks := (uniqueFiles.filterMap (fun f =>
    let nodes := nodesForFile g f
    if nodes = [] then none else some (fileModuleChunk g f nodes)))
  sortChunksByPriority (symbolChunks ++ fileChunks)

end knowledge

/-! ## In-memory vector index (`internal/knowledge/implementations.go`) -/

namespace knowledgeImpl

/-- State of the current `MemoryIndex` (`implementations.go`): item slice,
position map `indexByID`, and `contentHashes`. The graph reference only
feeds search and is omitted. -/
structure MemoryIndex where
  items : List knowledge.VectorItem
  indexByID : List (Str × Nat)
  contentHashes : List (Str × Str)
deriving DecidableEq, Repr

/-- Go `NewMemoryIndex` of `implementations.go`. -/
def NewMemoryIndex : MemoryIndex := ⟨[], [], []⟩

/-- Go `MemoryIndex.Add` of `implementations.go`: skips blank IDs,
replaces in place on a known ID, appends otherwise, and records the
content hash. -/
def Add (m : MemoryIndex) (items : List knowledge.VectorItem) : MemoryIndex :=
  items.foldl
    (fun m item =>
      let id := goTrimSpace item.chunk.id
      if id = [] then m
      else
        let m :=
          match alookup m.indexByID id with
          | some idx => { m with items := m.items.set idx item }
          | none =>
            { m with indexByID := m.indexByID ++ [(id, m.items.length)],
                     items := m.items ++ [item] }
        { m with contentHashes := setAssoc m.contentHashes id item.chunk.contentHash })
    m

/-- Go `MemoryIndex.Delete` of `implementations.go`: removes items whose
ID or file path is listed, drops their content hashes, and rebuilds the
position map. -/
def Delete (m : MemoryIndex) (ids : List Str) : MemoryIndex :=
  if ids = [] then m
  else
    let idSet := ids.foldl
      (fun acc id => let id := goTrimSpace id; if id = [] then acc
        else insertIfAbsent acc id) []
    let keep := fun (item : knowledge.VectorItem) =>
      ¬(item.chunk.id ∈ idSet) ∧
        (goTrimSpace item.chunk.filePath = [] ∨ ¬(goTrimSpace item.chunk.filePath ∈ idSet))
    let newItems := m.items.filter (fun item => keep item)
    let removedIDs := (m.items.filter (fun item => ¬ keep item)).map (·.chunk.id)
    { items := newItems,
      indexByID := newItems.enum.foldl
        (fun acc p => setAssoc acc p.2.chunk.id p.1) [],
      contentHashes := m.contentHashes.filter (fun p => ¬(p.1 ∈ removedIDs)) }

/-- Go `MemoryIndex.GetContentHashes` of `implementations.go`. -/
def GetContentHashes (m : MemoryIndex) (ids : List Str) : List (Str × Str) :=
  ids.foldl
    (fun out id =>
      let id := goTrimSpace id
      if id = [] then out
      else
        match alookup m.contentHashes id with
        | some h => setAssoc out id h
        | none => out)
    []

end knowledgeImpl

namespace knowledge

/-- Go `Engine.embedChunks` specialised to the in-memory index and an
abstract embedder function (batching is the identity on the list level). -/
def embedChunks (embed : List Str → List (List ℚ)) (m : knowledgeImpl.MemoryIndex)
    (chunks : List SearchChunk) : knowledgeImpl.MemoryIndex :=
  let chunks := filterChunksForEmbedding
    (some (fun ids => Except.ok (knowledgeImpl.GetContentHashes m ids))) chunks
  if chunks = [] then m
  else
    let texts := chunks.map ToEmbeddableText
    let vectors := embed texts
    let items := (chunks.zip vectors).map (fun p => (⟨p.1, p.2⟩ : VectorItem))
    knowledgeImpl.Add m items

/-- Go `Engine.IndexIncrementalWithOptions` specialised to the in-memory
index: delete chunks of deleted files, delete chunks of updated files,
re-prepare, cap by budget, embed and add. -/
def IndexIncrementalWithOptions (g : GraphK) (embed : List Str → List (List ℚ))
    (m : knowledgeImpl.MemoryIndex) (updatedFiles deletedFiles : List Str)
    (maxChunksPerRun : Int) : knowledgeImpl.MemoryIndex :=
  let m := if ¬(deletedFiles = []) then knowledgeImpl.Delete m deletedFiles else m
  if ¬(updatedFiles = []) then
    let m := knowledgeImpl.Delete m updatedFiles
    let chunks := PrepareChunksForFiles g updatedFiles
    let chunks := limitChunksByBudget chunks maxChunksPerRun
    if ¬(chunks = []) then embedChunks embed m chunks else m
  else m

/-- Zero-vector embedder of the engine tests (`mockEmbedder` with a fixed
dimension). -/
def mockEmbed (dim : Nat) (texts : List Str) : List (List ℚ) :=
  texts.map (fun _ => List.replicate dim 0)

end knowledge

namespace knowledge

theorem backfill_cap (mx : Int) (l : List SearchChunk) :
    ∀ o : List SearchChunk, (o.length : Int) ≤ mx →
      ((l.foldl (backfillStep mx) o).length : Int) ≤ mx := by
  induction l with
  | nil => intro o h; simpa using h
  | cons c rest ih =>
    intro o h
    simp only [List.foldl_cons]
    refine ih _ ?_
    unfold backfillStep
    by_cases h1 : (o.length : Int) ≥ mx
    · rw [if_pos h1]; exact h
    · rw [if_neg h1]
      by_cases h2 : containsChunkID o c.id
      · rw [if_pos h2]; exact h
      · rw [if_neg h2]
        simp only [List.length_append, List.length_singleton]
        push_cast
        omega

theorem backfill_noop (mx : Int) (l : List SearchChunk) (o : List SearchChunk)
    (h : (o.length : Int) ≥ mx) : l.foldl (backfillStep mx) o = o := by
  induction l with
  | nil => rfl
  | cons c rest ih =>
    simp only [List.foldl_cons]
    unfold backfillStep
    rw [if_pos h]
    exact ih

theorem sortChunks_length (l : List SearchChunk) :
    (sortChunksByPriority l).length = l.length :=
  (List.perm_insertionSort chunkLeP l).length_eq

theorem sortChunks_mem_iff (l : List SearchChunk) (c : SearchChunk) :
    c ∈ sortChunksByPriority l ↔ c ∈ l :=
  (List.perm_insertionSort chunkLeP l).mem_iff

theorem sortChunks_id_nodup (l : List SearchChunk)
    (h : (l.map (fun c => c.id)).Nodup) :
    ((sortChunksByPriority l).map (fun c => c.id)).Nodup :=
  (((List.perm_insertionSort chunkLeP l).map (fun c => c.id)).nodup_iff).2 h

theorem contains_of_mem (o : List SearchChunk) (c : SearchChunk) (h : c ∈ o) :
    containsChunkID o c.id = true := by
  unfold containsChunkID
  rw [List.any_eq_true]
  exact ⟨c, h, by simp⟩

theorem contains_eq_false (o : List SearchChunk) (x : Str)
    (h : ∀ e ∈ o, ¬(e.id = x)) : containsChunkID o x = false := by
  unfold containsChunkID
  rw [List.any_eq_false]
  intro e he
  simpa using h e he

/-- A backfill loop walks past every chunk whose id is already present. -/
theorem backfill_skip (mx : Int) (l : List SearchChunk) :
    ∀ o, (∀ c ∈ l, containsChunkID o c.id = true) →
      l.foldl (backfillStep mx) o = o := by
  induction l with
  | nil => intro o _; rfl
  | cons c rest ih =>
    intro o h
    simp only [List.foldl_cons]
    have hstep : backfillStep mx o c = o := by
      unfold backfillStep
      by_cases h1 : (o.length : Int) ≥ mx
      · rw [if_pos h1]
      · rw [if_neg h1, if_pos (h c (List.mem_cons_self c rest))]
    rw [hstep]
    exact ih o (fun d hd => h d (List.mem_cons_of_mem c hd))

theorem backfill_split (mx : Int) (l : List SearchChunk) (k : Nat)
    (o : List SearchChunk)
    (h : ∀ c ∈ l.take k, containsChunkID o c.id = true) :
    l.foldl (backfillStep mx) o = (l.drop k).foldl (backfillStep mx) o := by
  conv_lhs => rw [← List.take_append_drop k l]
  rw [List.foldl_append, backfill_skip mx (l.take k) o h]

/-- A backfill loop over chunks with fresh, pairwise-distinct ids appends
them in order until the budget is reached. -/
theorem backfill_fill (mx : Int) (l : List SearchChunk) :
    ∀ o, (∀ c ∈ l, containsChunkID o c.id = false) →
      (l.map (fun c => c.id)).Nodup →
      l.foldl (backfillStep mx) o = o ++ l.take ((mx - (o.length : Int)).toNat) := by
  induction l with
  | nil => intro o _ _; simp
  | cons c rest ih =>
    intro o hno hnd
    simp only [List.foldl_cons]
    by_cases h1 : (o.length : Int) ≥ mx
    · have hstep : backfillStep mx o c = o := by
        unfold backfillStep
        rw [if_pos h1]
      rw [hstep, backfill_noop mx rest o h1,
        show (mx - (o.length : Int)).toNat = 0 from by omega]
      simp
    · have hstep : backfillStep mx o c = o ++ [c] := by
        unfold backfillStep
        rw [if_neg h1, if_neg (by simp [hno c (List.mem_cons_self c rest)])]
      rw [List.map_cons, List.nodup_cons] at hnd
      have hno2 : ∀ d ∈ rest, containsChunkID (o ++ [c]) d.id = false := by
        intro d hd
        apply contains_eq_false
        intro e he heq
        rcases List.mem_append.1 he with he1 | he2
        · have htr : containsChunkID o d.id = true := heq ▸ contains_of_mem o e he1
          have hfa := hno d (List.mem_cons_of_mem c hd)
          rw [htr] at hfa
          simp at hfa
        · rw [List.mem_singleton] at he2
          subst he2
          exact hnd.1 (by rw [heq]; exact List.mem_map.2 ⟨d, hd, rfl⟩)
      rw [hstep, ih (o ++ [c]) hno2 hnd.2,
        show (mx - (o.length : Int)).toNat =
          (mx - (((o ++ [c]).length : Int))).toNat + 1 from by
            simp only [List.length_append, List.length_singleton]
            push_cast
            omega,
        List.take_succ_cons]
      simp

/-- The symbol/file filters partition the chunk list. -/
theorem filter_partition_length (l : List SearchChunk) :
    (l.filter (fun c => ¬(c.unitType = S "file_module"))).length +
      (l.filter (fun c => c.unitType = S "file_module")).length = l.length := by
  induction l with
  | nil => rfl
  | cons c rest ih =>
    by_cases h : c.unitType = S "file_module"
    · rw [List.filter_cons, List.filter_cons, if_neg (by simp [h]),
        if_pos (by simp [h])]
      simp only [List.length_cons]
      omega
    · rw [List.filter_cons, List.filter_cons, if_pos (by simp [h]),
        if_neg (by simp [h])]
      simp only [List.length_cons]
      omega

end knowledge

/-- Symbol `Alpha` in `pkg/a.go` of the S6 scenario
(`TestEngine_IndexIncrementalWithOptions_BudgetLimit`). -/
def c8alpha : knowledge.Symbol :=
  { id := S "id1", name := S "Alpha", package := [], unitType := S "function",
    filepath := S "pkg/a.go", startLine := 0, endLine := 0, content := [],
    contentHash := [], description := [], metadata := ⟨[], []⟩ }

/-- Symbol `Beta` in `pkg/b.go` of the S6 scenario. -/
def c8beta : knowledge.Symbol :=
  { c8alpha with id := S "id2", name := S "Beta", filepath := S "pkg/b.go" }

/-- Two-file graph of the S6 scenario (no relations, hence no edges). -/
def c8graph : knowledge.GraphK := ⟨[(S "id1", c8alpha), (S "id2", c8beta)], []⟩

/-- Incremental indexing of the S6 scenario: both files updated, empty
index, zero-vector embedder of dimension 8, `MaxChunksPerRun = 1`. -/
def c8run : knowledgeImpl.MemoryIndex :=
  knowledge.IndexIncrementalWithOptions c8graph (knowledge.mockEmbed 8)
    knowledgeImpl.NewMemoryIndex [S "pkg/a.go", S "pkg/b.go"] [] 1

/-- Symbol chunk of the backfill witness scenario. -/
def c8bfSym : knowledge.SearchChunk := mkBareChunk (S "s1") []

/-- File-module chunk of the backfill witness scenario. -/
def c8bfFile (id : String) : knowledge.SearchChunk :=
  { mkBareChunk (S id) [] with unitType := S "file_module" }

/-- One symbol chunk and four file chunks: with budget 4 the symbol pool
is short of its share of 3, so the file pool backfills. -/
def c8bfChunks : List knowledge.SearchChunk :=
  [c8bfSym, c8bfFile "f1", c8bfFile "f2", c8bfFile "f3", c8bfFile "f4"]

def w32 (n : Nat) : Nat := n % 4294967296

def rotr32 (n x : Nat) : Nat := w32 ((x >>> n) ||| (x <<< (32 - n)))

def bsig0 (x : Nat) : Nat := rotr32 2 x ^^^ rotr32 13 x ^^^ rotr32 22 x

def bsig1 (x : Nat) : Nat := rotr32 6 x ^^^ rotr32 11 x ^^^ rotr32 25 x

def ssig0 (x : Nat) : Nat := rotr32 7 x ^^^ rotr32 18 x ^^^ (x >>> 3)

def ssig1 (x : Nat) : Nat := rotr32 17 x ^^^ rotr32 19 x ^^^ (x >>> 10)

def chF (x y z : Nat) : Nat := (x &&& y) ^^^ ((x ^^^ 0xFFFFFFFF) &&& z)

def majF (x y z : Nat) : Nat := (x &&& y) ^^^ (x &&& z) ^^^ (y &&& z)

/-- The 64 round constants of FIPS 180-4 section 4.2.2 (first 32 bits of
the fractional parts of the cube roots of the first 64 primes), written
in decimal; the FIPS test vectors below pin them down. -/
def sha256K : List Nat :=
  [1116352408, 1899447441, 3049323471, 3921009573, 961987163, 1508970993,
   2453635748, 2870763221, 3624381080, 310598401, 607225278, 1426881987,
   1925078388, 2162078206, 2614888103, 3248222580, 3835390401, 4022224774,
   264347078, 604807628, 770255983, 1249150122, 1555081692, 1996064986,
   2554220882, 2821834349, 2952996808, 3210313671, 3336571891, 3584528711,
   113926993, 338241895, 666307205, 773529912, 1294757372, 1396182291,
   1695183700, 1986661051, 2177026350, 2456956037, 2730485921, 2820302411,
   3259730800, 3345764771, 3516065817, 3600352804, 4094571909, 275423344,
   430227734, 506948616, 659060556, 883997877, 958139571, 1322822218,
   1537002063, 1747873779, 1955562222, 2024104815, 2227730452, 2361852424,
   2428436474, 2756734187, 3204031479, 3329325298]

/-- The initial hash of FIPS 180-4 section 5.3.3 (first 32 bits of the
fractional parts of the square roots of the first 8 primes). -/
def sha256H0 : List Nat :=
  [1779033703, 3144134277, 1013904242, 2773480762,
   1359893119, 2600822924, 528734635, 1541459225]

def be64 (n : Nat) : List Nat :=
  [n >>> 56 % 256, n >>> 48 % 256, n >>> 40 % 256, n >>> 32 % 256,
   n >>> 24 % 256, n >>> 16 % 256, n >>> 8 % 256, n % 256]

/-- FIPS 180-4 padding: append `0x80`, zeros to 56 mod 64, then the
big-endian 64-bit bit length. -/
def padBytes (msg : List Nat) : List Nat :=
  let z := (119 - msg.length % 64) % 64
  msg ++ [0x80] ++ List.replicate z 0 ++ be64 (8 * msg.length)

def bytesToWords : List Nat → List Nat
  | a :: b :: c :: d :: rest =>
    (((a * 256 + b) * 256 + c) * 256 + d) :: bytesToWords rest
  | _ => []

def extendSchedule (w : List Nat) : Nat → List Nat
  | 0 => w
  | k + 1 =>
    let n := w.length
    let nw := w32 (w.getD (n - 16) 0 + ssig0 (w.getD (n - 15) 0) +
      w.getD (n - 7) 0 + ssig1 (w.getD (n - 2) 0))
    extendSchedule (w ++ [nw]) k

def compressWords (h : List Nat) (ws : List Nat) : List Nat :=
  let final := (sha256K.zip ws).foldl (fun st kw =>
    match st with
    | [a, b, c, d, e, f, g, hh] =>
      let t1 := w32 (hh + bsig1 e + chF e f g + kw.1 + kw.2)
      let t2 := w32 (bsig0 a + majF a b c)
      [w32 (t1 + t2), a, b, c, w32 (d + t1), e, f, g]
    | st => st) h
  (h.zip final).map (fun p => w32 (p.1 + p.2))

/-- Processes the padded message 64 bytes at a time.  The fuel is the byte
length of the remaining message, which strictly exceeds the number of
64-byte blocks, so the fuel never runs out on a padded input. -/
def sha256Loop : Nat → List Nat → List Nat → List Nat
  | _, h, [] => h
  | 0, h, _ => h
  | fuel + 1, h, msg =>
    sha256Loop fuel
      (compressWords h (extendSchedule (bytesToWords (msg.take 64)) 48))
      (msg.drop 64)

def sha256Bytes (msg : List Nat) : List Nat :=
  let padded := padBytes msg
  (sha256Loop padded.length sha256H0 padded).flatMap
    (fun wrd => [wrd >>> 24 % 256, wrd >>> 16 % 256, wrd >>> 8 % 256, wrd % 256])

/-- `encoding/hex` digit. -/
def hexDigitChar (n : Nat) : Char :=
  if n < 10 then Char.ofNat (48 + n) else Char.ofNat (87 + n)

/-- Model of `hex.EncodeToString` over bytes. -/
def hexEncode (bs : List Nat) : Str :=
  bs.flatMap (fun b => [hexDigitChar (b / 16), hexDigitChar (b % 16)])

/-- UTF-8 encoding of one rune; models Go's `[]byte(s)` view of a string
under the rune-list convention for strings. -/
def utf8Char (c : Char) : List Nat :=
  let n := c.toNat
  if n < 0x80 then [n]
  else if n < 0x800 then [0xC0 ||| (n >>> 6), 0x80 ||| (n &&& 0x3F)]
  else if n < 0x10000 then
    [0xE0 ||| (n >>> 12), 0x80 ||| ((n >>> 6) &&& 0x3F), 0x80 ||| (n &&& 0x3F)]
  else
    [0xF0 ||| (n >>> 18), 0x80 ||| ((n >>> 12) &&& 0x3F),
     0x80 ||| ((n >>> 6) &&& 0x3F), 0x80 ||| (n &&& 0x3F)]

def utf8Str (s : Str) : List Nat := s.flatMap utf8Char

/-- `hex.EncodeToString(sha256.Sum256([]byte(s)))`. -/
def sha256HexOf (s : Str) : Str := hexEncode (sha256Bytes (utf8Str s))

set_option maxRecDepth 8000 in
/-- FIPS 180-4 test vector: SHA-256 of the empty string. -/
theorem sha256_vector_empty :
    sha256HexOf [] =
      S "e3b0c44298fc1c149afbf4c8996fb92427ae41e4649b934ca495991b7852b855" := by
  decide

set_option maxRecDepth 8000 in
/-- FIPS 180-4 test vector: SHA-256 of "abc". -/
theorem sha256_vector_abc :
    sha256HexOf (S "abc") =
      S "ba7816bf8f01cfea414140de5dae2223b00361a396177a9cb410ff61f20015ad" := by
  decide

set_option maxRecDepth 8000 in
/-- FIPS 180-4 two-block test vector. -/
theorem sha256_vector_two_block :
    sha256HexOf (S "abcdbcdecdefdefgefghfghighijhijkijkljklmklmnlmnomnopnopq") =
      S "248d6a61d20638b8e5c026930c3e6039a33ce45964ff2167f6ecedd419db06c1" := by
  decide

/-! ## Generator doc model (`internal/generator/full_doc_plan_test.go`)

Shallow embedding of the doc-model revision of the generator package (the
part of `full_doc_plan_test.go` after the first revision separator).
Go strings are rune lists; ASCII case mapping models `strings.ToLower` /
`ToUpper` on the inputs that occur here; `float64` fields are exact `ℚ`.
The `Evidence` and `LastUpdated.PRNumber` fields are never read or written
by any function embedded below and are omitted from the record. -/

/-- ASCII range of Go `strings.ToLower` applied rune-wise. -/
def goLowerChar (c : Char) : Char :=
  if 65 ≤ c.toNat ∧ c.toNat ≤ 90 then Char.ofNat (c.toNat + 32) else c

/-- ASCII range of Go `strings.ToUpper` applied rune-wise. -/
def goUpperChar (c : Char) : Char :=
  if 97 ≤ c.toNat ∧ c.toNat ≤ 122 then Char.ofNat (c.toNat - 32) else c

/-- Model of Go `strings.Trim(s, string(c))` for a single-character cutset. -/
def goTrimCharEnds (c : Char) (s : Str) : Str :=
  ((s.dropWhile (fun x => x = c)).reverse.dropWhile (fun x => x = c)).reverse

namespace generator

/-- `SourceRef` of the doc model. -/
structure SourceRef where
  symbolID : Str
  filePath : Str
  startLine : Int
  endLine : Int
  relation : Str
  commitSHA : Str
  confidence : ℚ
deriving DecidableEq, Repr

/-- `ModelSect` (see note above on the omitted `Evidence` field; `LastUpdated`
is `(CommitSHA, Timestamp)` when present). -/
structure ModelSect where
  id : Str
  title : Str
  level : Int
  order : Int
  parentID : Option Str
  contentMD : Str
  summary : Str
  status : Str
  sources : List SourceRef
  hash : Str
  lastUpdated : Option (Str × Str)
deriving DecidableEq, Repr

structure ModelDoc where
  id : Str
  title : Str
  rootSectionIDs : List Str
deriving DecidableEq, Repr

structure PolicyStyle where
  tone : Str
  audience : Str
  codeBlockLanguage : Str
  focusMode : Str
  avoidCallGraphNarration : Bool
  preferConceptualDiagrams : Bool
  preferTaskOrientedExamples : Bool
deriving DecidableEq, Repr

structure ModelPolicy where
  requiredSectionIDs : List Str
  maxSectionChars : Int
  style : PolicyStyle
deriving DecidableEq, Repr

structure ModelMeta where
  repo : Str
  defaultBranch : Str
  generatedAt : Str
  generatorVersion : Str
deriving DecidableEq, Repr

structure DocModel where
  schemaVersion : Str
  document : ModelDoc
  sections : List ModelSect
  policies : ModelPolicy
  meta : ModelMeta
deriving DecidableEq, Repr

def docModelSchemaVersion : Str := S "v0.1.0"

def canonicalSectionOrder : List Str :=
  [S "overview", S "key-features", S "development"]

/-- `sectionHash`'s pre-image: the string accumulated by its
`strings.Builder` (trimmed title, newline, trimmed body, newline, then
`symbolID|filePath|relation` plus newline for each source in stored order). -/
def sectionHashInput (s : ModelSect) : Str :=
  goTrimSpace s.title ++ '\n' :: (goTrimSpace s.contentMD ++ '\n' ::
    s.sources.flatMap (fun src =>
      src.symbolID ++ '|' :: (src.filePath ++ '|' :: (src.relation ++ ['\n']))))

/-- `sectionHash`: SHA-256 of the builder string, hex encoded, with the
`sha256:` prefix. -/
def sectionHash (s : ModelSect) : Str :=
  S "sha256:" ++ sha256HexOf (sectionHashInput s)

/-- `summarizeContent`'s line scan: first trimmed line that is non-empty and
not a heading, truncated to 120 (`line[:120]`, runes here). -/
def summarizeLines : List Str → Str
  | [] => []
  | l :: rest =>
    let t := goTrimSpace l
    if t = [] ∨ goStartsWith (S "#") t then summarizeLines rest
    else if t.length > 120 then t.take 120 else t

def summarizeContent (content : Str) : Str :=
  let text := goTrimSpace content
  if text = [] then [] else summarizeLines (goSplitChar '\n' text)

def startsWithHeading (content : Str) : Bool :=
  goStartsWith (S "#") (goTrimSpace content)

/-- Rune filter of `normalizeSectionID`: keep `[a-z0-9]`, collapse every
other run into a single dash. -/
def sectionIDChars : List Char → Bool → Str
  | [], _ => []
  | c :: rest, prevDash =>
    if ('a' ≤ c ∧ c ≤ 'z') ∨ ('0' ≤ c ∧ c ≤ '9') then
      c :: sectionIDChars rest false
    else if prevDash then sectionIDChars rest true
    else '-' :: sectionIDChars rest true

def normalizeSectionID (title : Str) : Str :=
  let s := (goTrimSpace title).map goLowerChar
  if s = [] then S "section"
  else
    let out := goTrimCharEnds '-' (sectionIDChars s false)
    if out = [] then S "section" else out

def sectionRankList (id : Str) : List Str → Nat → Int
  | [], _ => (canonicalSectionOrder.length : Int) + 1
  | v :: rest, i => if id = v then (i : Int) else sectionRankList id rest (i + 1)

/-- `sectionRank`: canonical sections order first, everything else after. -/
def sectionRank (id : Str) : Int := sectionRankList id canonicalSectionOrder 0

/-- Title-casing of one dash-separated id part (`ToUpper(parts[i][:1]) +
parts[i][1:]`). -/
def titlePart (p : Str) : Str :=
  match p with
  | [] => []
  | c :: rest => goUpperChar c :: rest

def sectionTitleFromID (id : Str) : Str :=
  if id = S "overview" then S "Overview"
  else if id = S "key-features" then S "Key Features"
  else if id = S "development" then S "Development"
  else goJoinChar ' ' ((goSplitChar '-' id).map titlePart)

def uniqueStrings (l : List Str) : List Str :=
  l.foldl insertIfAbsent []

end generator

namespace generator

/-- `ensurePolicyDefaults`, one if-statement per helper below, applied in
source order. -/
def fixMaxChars (p : ModelPolicy) : ModelPolicy :=
  if p.maxSectionChars = 0 then { p with maxSectionChars := 8000 } else p

def fixTone (st : PolicyStyle) : PolicyStyle :=
  if st.tone = [] then { st with tone := S "technical, objective" } else st

def fixAudience (st : PolicyStyle) : PolicyStyle :=
  if st.audience = [] then { st with audience := S "open-source maintainers" } else st

def fixCodeLang (st : PolicyStyle) : PolicyStyle :=
  if st.codeBlockLanguage = [] then { st with codeBlockLanguage := S "go" } else st

def fixFocus (st : PolicyStyle) : PolicyStyle :=
  if st.focusMode = [] then { st with focusMode := S "semantic" } else st

def fixDiagrams (st : PolicyStyle) : PolicyStyle :=
  if ¬st.preferConceptualDiagrams then { st with preferConceptualDiagrams := true }
  else st

def fixExamples (st : PolicyStyle) : PolicyStyle :=
  if ¬st.preferTaskOrientedExamples then { st with preferTaskOrientedExamples := true }
  else st

/-- `ensurePolicyDefaults`: fills zero-valued policy fields and forces the
official-doc style booleans. -/
def ensurePolicyDefaults (m : DocModel) : DocModel :=
  let p := fixMaxChars m.policies
  let st := fixExamples (fixDiagrams (fixFocus (fixCodeLang (fixAudience
    (fixTone p.style)))))
  let st := { st with avoidCallGraphNarration := true }
  { m with policies := { p with style := st } }

/-- The scaffold section `ensureCanonicalRootSections` appends for a missing
canonical id (`# <Title>\n\nTBD.`, hash filled by `sectionHash`). -/
def mkCanonicalSection (id : Str) (ord : Int) : ModelSect :=
  let title := sectionTitleFromID id
  let sec : ModelSect :=
    { id := id, title := title, level := 1, order := ord, parentID := none,
      contentMD := '#' :: ' ' :: (title ++ S "\n\nTBD."),
      summary := [], status := S "active", sources := [], hash := [],
      lastUpdated := none }
  { sec with hash := sectionHash sec }

/-- One step of `ensureCanonicalRootSections`'s loop: append a scaffold
for `id` unless it was present at entry (`existing`); the `Order` of an
appended section is the section count at the time of the append. -/
def canonStep (existing : List Str) (acc : List ModelSect) (id : Str) :
    List ModelSect :=
  if id ∈ existing then acc
  else acc ++ [mkCanonicalSection id (acc.length : Int)]

def ensureCanonicalRootSections (m : DocModel) : DocModel :=
  { m with
    sections :=
      canonicalSectionOrder.foldl (canonStep (m.sections.map (fun s => s.id)))
        m.sections }

/-- `SectionByID` (first match). -/
def SectionByID (m : DocModel) (id : Str) : Option ModelSect :=
  m.sections.find? (fun s => decide (s.id = id))

/-- Root list computed by `ensureRootSectionIDs`: canonical ids present in
the sections, then every parentless section id not yet seen, in section
order. -/
def computeRoots (secs : List ModelSect) : List Str :=
  let first := canonicalSectionOrder.filter (fun id =>
    (secs.find? (fun s => decide (s.id = id))).isSome)
  (secs.foldl (fun (p : List Str × List Str) s =>
    if s.parentID = none ∧ ¬(s.id ∈ p.2) then (p.1 ++ [s.id], p.2 ++ [s.id]) else p)
    (first, first)).1

def ensureRootSectionIDs (m : DocModel) : DocModel :=
  let m := { m with document := { m.document with rootSectionIDs := computeRoots m.sections } }
  if m.policies.requiredSectionIDs = [] then
    { m with policies := { m.policies with requiredSectionIDs := canonicalSectionOrder } }
  else m

/-- Comparator of `reindexSectionOrder`'s `sort.Slice` as a total preorder
(`a ≤ b` iff `b` is not strictly before `a`). -/
def sectionLeP (a b : ModelSect) : Prop :=
  sectionRank a.id < sectionRank b.id ∨
    (sectionRank a.id = sectionRank b.id ∧ a.order ≤ b.order)

instance : DecidableRel sectionLeP := fun a b => by
  unfold sectionLeP; infer_instance

instance : IsTotal ModelSect sectionLeP :=
  ⟨fun a b => by unfold sectionLeP; omega⟩

instance : IsTrans ModelSect sectionLeP :=
  ⟨fun a b c hab hbc => by unfold sectionLeP at *; omega⟩

/-- The `for i := range m.Sections { m.Sections[i].Order = i }` pass. -/
def setOrdersFrom (n : Nat) : List ModelSect → List ModelSect
  | [] => []
  | s :: rest => { s with order := (n : Int) } :: setOrdersFrom (n + 1) rest

/-- `reindexSectionOrder`.  Go's `sort.Slice` is an unstable sort; it is
modelled by insertion sort on the reflexive closure of the comparator, a
deterministic comparator-consistent sort.  Wherever this development
reasons about re-sorting, the keys `(sectionRank, Order)` are pairwise
distinct, so every comparator-consistent sort produces the same list. -/
def reindexSectionOrder (m : DocModel) : DocModel :=
  { m with sections := setOrdersFrom 0 (m.sections.insertionSort sectionLeP) }

/-- Per-section body of `normalizeSectionHeadings`. -/
def normalizeOneSection (sec : ModelSect) : ModelSect :=
  let sec := if sec.level < 1 ∨ sec.level > 6 then { sec with level := 2 } else sec
  let sec :=
    if sec.title = [] then { sec with title := sectionTitleFromID sec.id } else sec
  let trimmed := goTrimSpace sec.contentMD
  let heading := goRepeatChar '#' sec.level.toNat ++ ' ' :: sec.title
  let sec :=
    if trimmed = [] then { sec with contentMD := heading ++ S "\n\nTBD." }
    else if startsWithHeading trimmed then
      match goSplitChar '\n' trimmed with
      | [] => sec
      | _ :: rest => { sec with contentMD := goJoinChar '\n' (heading :: rest) }
    else { sec with contentMD := heading ++ '\n' :: '\n' :: trimmed }
  let sec := { sec with summary := summarizeContent sec.contentMD }
  { sec with hash := sectionHash sec }

def normalizeSectionHeadings (m : DocModel) : DocModel :=
  { m with sections := m.sections.map normalizeOneSection }

/-- `NormalizeDocModel`: the five repair passes in order. -/
def NormalizeDocModel (m : DocModel) : DocModel :=
  normalizeSectionHeadings (reindexSectionOrder (ensureRootSectionIDs
    (ensureCanonicalRootSections (ensurePolicyDefaults m))))

end generator

namespace generator

/-! ### Markdown splitting (`SplitMarkdown`, `createSection`) -/

structure DocSection where
  id : Str
  title : Str
  level : Int
  content : Str
deriving DecidableEq, Repr

/-- `bufio.ScanLines` strips one trailing carriage return per line. -/
def dropCR (l : Str) : Str := if l.getLast? = some '\r' then l.dropLast else l

/-- Lines produced by a `bufio.Scanner` over the content: split on `\n`,
no final empty token for a trailing newline, `\r` stripped. -/
def goScanLines (s : Str) : List Str :=
  if s = [] then []
  else
    let parts := goSplitChar '\n' s
    let parts := if parts.getLast? = some [] then parts.dropLast else parts
    parts.map dropCR

/-- Leading `'#'` count of a header candidate. -/
def countHashes : Str → Nat
  | c :: rest => if c = '#' then countHashes rest + 1 else 0
  | [] => 0

/-- `createSection`: stable ID is the hex SHA-256 of `filename:title`. -/
def createSection (filename title : Str) (level : Int) (content : Str) : DocSection :=
  { id := sha256HexOf (filename ++ ':' :: title), title := title, level := level,
    content := content }

/-- The scanner loop of `SplitMarkdown`: a line whose trimmed form is
`#`^level followed by a space (1 ≤ level ≤ 6) flushes the current buffer
and starts a new section; every line is appended to the buffer with its
newline restored. -/
def splitMarkdownLoop (filename : Str) :
    List Str → Str → Int → Str → List DocSection → List DocSection
  | [], title, level, buffer, acc =>
    if buffer ≠ [] then acc ++ [createSection filename title level buffer] else acc
  | line :: rest, title, level, buffer, acc =>
    let trimmed := goTrimSpace line
    if goStartsWith (S "#") trimmed then
      let lv := countHashes trimmed
      if 0 < lv ∧ lv < 7 ∧ (trimmed.drop lv).head? = some ' ' then
        let acc :=
          if buffer ≠ [] then acc ++ [createSection filename title level buffer]
          else acc
        splitMarkdownLoop filename rest (goTrimSpace (trimmed.drop lv)) (lv : Int)
          (line ++ ['\n']) acc
      else splitMarkdownLoop filename rest title level (buffer ++ line ++ ['\n']) acc
    else splitMarkdownLoop filename rest title level (buffer ++ line ++ ['\n']) acc

def SplitMarkdown (filename content : Str) : List DocSection :=
  splitMarkdownLoop filename (goScanLines content) (S "Introduction") 0 [] []

/-! ### `BuildModelFromMarkdown`

`time.Now().UTC().Format(time.RFC3339)` is passed in as the `now`
argument. -/

/-- The section-building loop: ids are slugs deduplicated by suffixing
`-N` via the `usedIDs` counter map; returns the sections and the id list
(which Go accumulates identically into `rootIDs` and `requiredIDs`). -/
def buildSections (now : Str) :
    List DocSection → Nat → List (Str × Nat) → List ModelSect × List Str
  | [], _, _ => ([], [])
  | s :: rest, i, used =>
    let baseID := normalizeSectionID s.title
    let n := (alookup used baseID).getD 0
    let id := if n > 0 then baseID ++ '-' :: natToStr (n + 1) else baseID
    let used := setAssoc used baseID (n + 1)
    let sec : ModelSect :=
      { id := id, title := s.title, level := max 1 s.level, order := (i : Int),
        parentID := none, contentMD := goTrimSpace s.content,
        summary := summarizeContent s.content, status := S "active",
        sources := [], hash := [], lastUpdated := none }
    let sec := { sec with hash := sectionHash sec }
    let sec := { sec with lastUpdated := some (S "HEAD", now) }
    let out := buildSections now rest (i + 1) used
    (sec :: out.1, id :: out.2)

/-- The fallback section used when the markdown produced no sections. -/
def fallbackOverviewSection : ModelSect :=
  { id := S "overview", title := S "Overview", level := 1, order := 0,
    parentID := none, contentMD := S "# Overview\n", summary := [],
    status := S "active", sources := [], hash := S "sha256:empty",
    lastUpdated := none }

def defaultPolicyStyle : PolicyStyle :=
  { tone := S "technical, objective", audience := S "open-source maintainers",
    codeBlockLanguage := S "go", focusMode := S "semantic",
    avoidCallGraphNarration := true, preferConceptualDiagrams := true,
    preferTaskOrientedExamples := true }

def BuildModelFromMarkdown (now : Str) (content : Str) : DocModel :=
  let built := buildSections now (SplitMarkdown (S "docs/documentation.md") content) 0 []
  let modelSections := built.1
  let rootIDs := built.2
  let modelSections :=
    if rootIDs = [] then modelSections ++ [fallbackOverviewSection] else modelSections
  let rootIDs := if rootIDs = [] then [S "overview"] else rootIDs
  let doc : ModelDoc :=
    { id := S "docod-main-doc", title := S "Project Documentation",
      rootSectionIDs := rootIDs }
  let pol : ModelPolicy :=
    { requiredSectionIDs := uniqueStrings rootIDs, maxSectionChars := 8000,
      style := defaultPolicyStyle }
  let mt : ModelMeta :=
    { repo := S ".", defaultBranch := S "main", generatedAt := now,
      generatorVersion := S "docod-dev" }
  NormalizeDocModel
    { schemaVersion := docModelSchemaVersion, document := doc,
      sections := modelSections, policies := pol, meta := mt }

/-! ### Validation and saving (`Validate`, `validateDocModelWithSchema`,
`SaveDocModel`) -/

/-- The per-section invariant scan of `Validate` (empty id, duplicate id). -/
def validateSections : List ModelSect → List Str → Option Str
  | [], _ => none
  | s :: rest, seen =>
    if s.id = [] then some (S "section id is required")
    else if s.id ∈ seen then some (S "duplicate section id: " ++ s.id)
    else validateSections rest (seen ++ [s.id])

/-- `(*DocModel).Validate` (the nil-receiver check does not arise for
values). -/
def Validate (m : DocModel) : Option Str :=
  if m.schemaVersion = [] then some (S "schema_version is required")
  else if m.sections = [] then some (S "sections must not be empty")
  else
    match validateSections m.sections [] with
    | some e => some e
    | none =>
      match m.policies.requiredSectionIDs.find? (fun req =>
          decide (¬(req ∈ m.sections.map (fun s => s.id)))) with
      | some req => some (S "required section missing: " ++ req)
      | none => none

/-- Modelled from the spec: the JSON schema file
`docs/doc_model.schema.json` referenced by `resolveDocModelSchemaPath` is
not part of the source tree, so the compiled-schema check is modelled from
spec section 3, which pins a section's `status` to the enum
`{active, deprecated}`.  The inner message text stands in for the
`jsonschema` library's message. -/
def schemaCheckModelled (m : DocModel) : Option Str :=
  match m.sections.find? (fun s =>
      decide (¬(s.status = S "active" ∨ s.status = S "deprecated"))) with
  | some s => some (S "jsonschema: section status invalid: " ++ s.status)
  | none => none

/-- File-system and schema-toolchain outcomes that `SaveDocModel` depends
on, passed explicitly. -/
structure SchemaEnv where
  schemaAvailable : Bool
  schemaCompiles : Bool
  mkdirOk : Bool
  writeOk : Bool
deriving DecidableEq, Repr

/-- `validateDocModelWithSchema`: invariants first, then schema resolution,
compilation, and validation (the marshal/unmarshal round-trip of a value
model cannot fail and is modelled as succeeding). -/
def validateDocModelWithSchema (env : SchemaEnv) (m : DocModel) : Option Str :=
  match Validate m with
  | some e => some e
  | none =>
    if ¬env.schemaAvailable then some (S "doc model schema file not found")
    else if ¬env.schemaCompiles then some (S "failed to compile doc model schema")
    else
      match schemaCheckModelled m with
      | some e => some (S "doc model schema validation failed: " ++ e)
      | none => none

/-- `SaveDocModel` as (error, attempted model-file writes): validation
errors and mkdir failures return before `os.WriteFile` is reached. -/
def SaveDocModelRun (env : SchemaEnv) (path : Str) (m : DocModel) :
    Option Str × List Str :=
  match validateDocModelWithSchema env m with
  | some e => (some e, [])
  | none =>
    if ¬env.mkdirOk then (some (S "mkdir failed"), [])
    else if env.writeOk then (none, [path])
    else (some (S "write failed"), [path])

end generator

/-! ## C5: section content hash -/

namespace generator

/-- The `symbolID|filePath|relation` triple of one source. -/
def sourceTriple (src : SourceRef) : Str :=
  src.symbolID ++ '|' :: (src.filePath ++ '|' :: src.relation)

/-- The hash the claim describes (built from the claim text, for
comparison): digest of trimmed title, trimmed body, and the SORTED list of
`symbolID|filePath|relation` triples. -/
def claimSectionHashSorted (s : ModelSect) : Str :=
  S "sha256:" ++ sha256HexOf (goTrimSpace s.title ++ '\n' ::
    (goTrimSpace s.contentMD ++ '\n' ::
      (sortStrs (s.sources.map sourceTriple)).flatMap (fun t => t ++ ['\n'])))

end generator

theorem flatMap_sourceTriple (l : List generator.SourceRef) :
    l.flatMap (fun src =>
      src.symbolID ++ '|' :: (src.filePath ++ '|' :: (src.relation ++ ['\n']))) =
    (l.map generator.sourceTriple).flatMap (fun t => t ++ ['\n']) := by
  induction l with
  | nil => rfl
  | cons s rest ih =>
    simp only [List.flatMap_cons, List.map_cons, ih, generator.sourceTriple,
      List.append_assoc, List.cons_append, List.nil_append]

/-- C5: a section's stored content hash is the SHA-256 digest (hex, with
the `sha256:` prefix) of the trimmed title, the trimmed body, and the
`symbolID|filePath|relation` lines of its sources in STORED order; when
the triples happen to be sorted already this coincides with the digest of
the sorted triple list that the claim describes. -/
theorem C5_section_hash_amended (s : generator.ModelSect) :
    generator.sectionHash s =
      S "sha256:" ++ sha256HexOf (goTrimSpace s.title ++ '\n' ::
        (goTrimSpace s.contentMD ++ '\n' ::
          (s.sources.map generator.sourceTriple).flatMap (fun t => t ++ ['\n']))) ∧
    (List.Sorted strLeP (s.sources.map generator.sourceTriple) →
      generator.sectionHash s = generator.claimSectionHashSorted s) := by
  have h1 : generator.sectionHash s =
      S "sha256:" ++ sha256HexOf (goTrimSpace s.title ++ '\n' ::
        (goTrimSpace s.contentMD ++ '\n' ::
          (s.sources.map generator.sourceTriple).flatMap (fun t => t ++ ['\n']))) := by
    unfold generator.sectionHash generator.sectionHashInput
    rw [flatMap_sourceTriple]
  refine ⟨h1, fun hs => ?_⟩
  unfold generator.claimSectionHashSorted sortStrs
  rw [List.Sorted.insertionSort_eq hs]
  exact h1

def c5src1 : generator.SourceRef :=
  { symbolID := S "b", filePath := S "f.go", startLine := 1, endLine := 2,
    relation := S "primary", commitSHA := S "HEAD", confidence := 1 }

def c5src2 : generator.SourceRef :=
  { symbolID := S "a", filePath := S "f.go", startLine := 3, endLine := 4,
    relation := S "context", commitSHA := S "HEAD", confidence := 1 }

/-- A section whose two source triples are stored in non-sorted order
(`b|f.go|primary` before `a|f.go|context`). -/
def c5sec : generator.ModelSect :=
  { id := S "s", title := S " T ", level := 1, order := 0, parentID := none,
    contentMD := S " body ", summary := [], status := S "active",
    sources := [c5src1, c5src2], hash := [], lastUpdated := none }

/-- Like `c5sec` but with the sources stored in sorted triple order. -/
def c5sorted : generator.ModelSect :=
  { c5sec with sources := [c5src2, c5src1] }

set_option maxRecDepth 8000 in
/-- C5 (counterexample to the original claim): on a section whose sources
are stored out of triple order, `sectionHash` differs from the digest of
the sorted triple list, so the stored hash is NOT the sorted-sources
digest the claim describes. -/
theorem C5_counterexample :
    generator.sectionHash c5sec ≠ generator.claimSectionHashSorted c5sec := by
  decide

/-- C5 (witness): the sorted-sources conjunct applied at `c5sorted`. -/
theorem C5_section_hash_amended_witness :
    generator.sectionHash c5sorted = generator.claimSectionHashSorted c5sorted :=
  (C5_section_hash_amended c5sorted).2 (by decide)

/-! ## C7: SaveDocModel validation -/

/-- The doc model of scenario S5: built from `"# Overview\n\nhello\n"` (the
generation timestamp is a fixed placeholder; validation never reads it). -/
def c7model : generator.DocModel :=
  generator.BuildModelFromMarkdown (S "2026-01-01T00:00:00Z") (S "# Overview\n\nhello\n")

/-- S5's mutation: the first section's status set to an undefined literal. -/
def c7mutated : generator.DocModel :=
  match c7model.sections with
  | [] => c7model
  | s :: rest => { c7model with sections := { s with status := S "not-a-valid-status" } :: rest }

/-- The environment of a successful run: schema file present and
compiling, directory creation and file write succeeding. -/
def c7env : generator.SchemaEnv :=
  { schemaAvailable := true, schemaCompiles := true, mkdirOk := true, writeOk := true }

/-- A model that violates the `Validate` invariants (empty schema
version). -/
def c7bad : generator.DocModel :=
  let doc : generator.ModelDoc := { id := [], title := [], rootSectionIDs := [] }
  let pol : generator.ModelPolicy :=
    { requiredSectionIDs := [], maxSectionChars := 0,
      style := generator.defaultPolicyStyle }
  let mt : generator.ModelMeta :=
    { repo := [], defaultBranch := [], generatedAt := [], generatorVersion := [] }
  { schemaVersion := [], document := doc, sections := [], policies := pol, meta := mt }

/-- C7 (spec-modelled schema, see `generator.schemaCheckModelled`):
`SaveDocModel` returns the validation error and attempts no model-file
write whenever invariant or schema validation fails; and on the S5 model
(built from `"# Overview\n\nhello\n"`, first section's status set to an
undefined literal) the returned error message contains
`"schema validation"`, with no file written. -/
theorem C7_save_doc_model_validation :
    (∀ (env : generator.SchemaEnv) (path : Str) (m : generator.DocModel) (e : Str),
      generator.validateDocModelWithSchema env m = some e →
        generator.SaveDocModelRun env path m = (some e, [])) ∧
    (∃ e, generator.SaveDocModelRun c7env (S "docs/doc_model.json") c7mutated =
        (some e, []) ∧ goContains e (S "schema validation") = true) ∧
    c7model.sections ≠ [] := by
  refine ⟨fun env path m e h => ?_, ?_, by decide⟩
  · unfold generator.SaveDocModelRun
    rw [h]
  · exact ⟨S "doc model schema validation failed: jsonschema: section status invalid: not-a-valid-status",
      by constructor <;> decide⟩

/-- C7 (witness): the error-no-write conjunct applied at `c7bad`, whose
empty schema version fails the invariant check. -/
theorem C7_save_doc_model_validation_witness :
    generator.SaveDocModelRun c7env (S "p") c7bad =
      (some (S "schema_version is required"), []) :=
  C7_save_doc_model_validation.1 c7env (S "p") c7bad (S "schema_version is required")
    (by decide)

/-! ## C6: NormalizeDocModel idempotence — string lemmas -/

def goTrimLeft (s : Str) : Str := s.dropWhile goIsSpace

def goTrimRight (s : Str) : Str := (s.reverse.dropWhile goIsSpace).reverse

theorem goTrimSpace_decompose (s : Str) :
    goTrimSpace s = goTrimRight (goTrimLeft s) := rfl

theorem goTrimLeft_cons (c : Char) (s : Str) (hc : goIsSpace c = false) :
    goTrimLeft (c :: s) = c :: s := by
  simp [goTrimLeft, List.dropWhile_cons, hc]

theorem goTrimRight_cons (c : Char) (s : Str) (hc : goIsSpace c = false) :
    goTrimRight (c :: s) = c :: goTrimRight s := by
  unfold goTrimRight
  rw [List.reverse_cons, List.dropWhile_append]
  by_cases h : (s.reverse.dropWhile goIsSpace).isEmpty = true
  · rw [if_pos h]
    simp only [List.isEmpty_iff] at h
    simp [List.dropWhile_cons, hc, h]
  · rw [if_neg h]
    simp

theorem goTrimSpace_cons (c : Char) (s : Str) (hc : goIsSpace c = false) :
    goTrimSpace (c :: s) = c :: goTrimRight s := by
  rw [goTrimSpace_decompose, goTrimLeft_cons c s hc, goTrimRight_cons c s hc]

theorem goTrimRight_eq_self (s : Str) (c : Char) (h : s.getLast? = some c)
    (hc : goIsSpace c = false) : goTrimRight s = s := by
  obtain ⟨t, ht⟩ : ∃ t, s.reverse = c :: t :=
    List.head?_eq_some_iff.1 (by rw [List.head?_reverse]; exact h)
  have hs : s = (c :: t).reverse := by rw [← ht, List.reverse_reverse]
  unfold goTrimRight
  rw [ht]
  simp [List.dropWhile_cons, hc, ← hs]

theorem goTrimSpace_eq_self (s : Str) (a c : Char) (hh : s.head? = some a)
    (ha : goIsSpace a = false) (hl : s.getLast? = some c)
    (hc : goIsSpace c = false) : goTrimSpace s = s := by
  obtain ⟨t, rfl⟩ := List.head?_eq_some_iff.1 hh
  rw [goTrimSpace_cons a t ha]
  cases t with
  | nil => rfl
  | cons b u =>
    have hlt : (b :: u).getLast? = some c := by
      rw [← hl, List.getLast?_cons_cons]
    rw [goTrimRight_eq_self (b :: u) c hlt hc]

theorem goTrimRight_getLast (s : Str) (h : goTrimRight s ≠ []) :
    ∃ c, (goTrimRight s).getLast? = some c ∧ goIsSpace c = false := by
  have hd := List.head?_dropWhile_not goIsSpace s.reverse
  unfold goTrimRight at *
  cases heq : (s.reverse.dropWhile goIsSpace).head? with
  | none =>
    rw [List.head?_eq_none_iff] at heq
    rw [heq] at h
    exact absurd rfl h
  | some c =>
    rw [heq] at hd
    exact ⟨c, by rw [List.getLast?_reverse, heq], hd⟩

theorem goTrimSpace_getLast (s : Str) (h : goTrimSpace s ≠ []) :
    ∃ c, (goTrimSpace s).getLast? = some c ∧ goIsSpace c = false := by
  rw [goTrimSpace_decompose] at *
  exact goTrimRight_getLast _ h

theorem mem_goTrimRight (s : Str) (c : Char) (h : c ∈ goTrimRight s) : c ∈ s := by
  unfold goTrimRight at h
  rw [List.mem_reverse] at h
  have := (List.dropWhile_sublist (p := goIsSpace) (l := s.reverse)).subset h
  rwa [List.mem_reverse] at this

theorem splitChar_ne_nil (sep : Char) (s : Str) : goSplitChar sep s ≠ [] := by
  cases s with
  | nil => simp [goSplitChar]
  | cons c rest =>
    cases hsr : goSplitChar sep rest <;> simp [goSplitChar, hsr] <;> split <;> simp

theorem splitChar_of_not_mem (sep : Char) (s : Str) (h : sep ∉ s) :
    goSplitChar sep s = [s] := by
  induction s with
  | nil => rfl
  | cons c rest ih =>
    have hc : ¬c = sep := fun hc => h (hc ▸ List.mem_cons_self c rest)
    have hr : sep ∉ rest := fun hr => h (List.mem_cons_of_mem c hr)
    simp [goSplitChar, ih hr, hc]

theorem splitChar_append (sep : Char) (a b : Str) (h : sep ∉ a) :
    goSplitChar sep (a ++ sep :: b) = a :: goSplitChar sep b := by
  induction a with
  | nil =>
    cases hsb : goSplitChar sep b with
    | nil => exact absurd hsb (splitChar_ne_nil sep b)
    | cons x t => simp [goSplitChar, hsb]
  | cons c a ih =>
    have hc : ¬c = sep := fun hc => h (hc ▸ List.mem_cons_self c a)
    have ha : sep ∉ a := fun ha => h (List.mem_cons_of_mem c ha)
    simp only [List.cons_append, goSplitChar, List.append_eq, ih ha, if_neg hc]

theorem goJoinChar_cons_cons (sep : Char) (x y : Str) (t : List Str) :
    goJoinChar sep (x :: y :: t) = x ++ sep :: goJoinChar sep (y :: t) := rfl

theorem joinChar_splitChar (sep : Char) (s : Str) :
    goJoinChar sep (goSplitChar sep s) = s := by
  induction s with
  | nil => rfl
  | cons c rest ih =>
    cases hsr : goSplitChar sep rest with
    | nil => exact absurd hsr (splitChar_ne_nil sep rest)
    | cons h t =>
      rw [hsr] at ih
      by_cases hc : c = sep
      · simp only [goSplitChar, hsr, if_pos hc]
        rw [goJoinChar_cons_cons, ih, List.nil_append, hc]
      · simp only [goSplitChar, hsr, if_neg hc]
        cases t with
        | nil =>
          show c :: h = c :: rest
          rw [show goJoinChar sep [h] = h from rfl] at ih
          rw [ih]
        | cons y u =>
          rw [goJoinChar_cons_cons] at ih ⊢
          rw [List.cons_append, ih]

theorem splitChar_join (sep : Char) (L : List Str) (hL : L ≠ [])
    (h : ∀ x ∈ L, sep ∉ x) : goSplitChar sep (goJoinChar sep L) = L := by
  induction L with
  | nil => exact absurd rfl hL
  | cons x t ih =>
    cases t with
    | nil =>
      show goSplitChar sep (goJoinChar sep [x]) = [x]
      rw [show goJoinChar sep [x] = x from rfl]
      exact splitChar_of_not_mem sep x (h x (List.mem_cons_self x []))
    | cons y u =>
      rw [goJoinChar_cons_cons,
        splitChar_append sep x (goJoinChar sep (y :: u))
          (h x (List.mem_cons_self x (y :: u))),
        ih (by simp) (fun z hz => h z (List.mem_cons_of_mem x hz))]

theorem mem_of_mem_splitChar (sep : Char) (s : Str) (x : Str) (c : Char)
    (hx : x ∈ goSplitChar sep s) (hc : c ∈ x) : c ∈ s := by
  induction s generalizing x with
  | nil =>
    simp [goSplitChar] at hx
    subst hx
    exact absurd hc (List.not_mem_nil c)
  | cons d rest ih =>
    cases hsr : goSplitChar sep rest with
    | nil => exact absurd hsr (splitChar_ne_nil sep rest)
    | cons h t =>
      simp only [goSplitChar, hsr] at hx
      by_cases hd : d = sep
      · rw [if_pos hd] at hx
        rcases List.mem_cons.1 hx with hx1 | hx2
        · subst hx1; exact absurd hc (List.not_mem_nil c)
        · exact List.mem_cons_of_mem d (ih x (hsr ▸ hx2) hc)
      · rw [if_neg hd] at hx
        rcases List.mem_cons.1 hx with hx1 | hx2
        · subst hx1
          rcases List.mem_cons.1 hc with hc1 | hc2
          · exact hc1 ▸ List.mem_cons_self d rest
          · exact List.mem_cons_of_mem d
              (ih h (hsr ▸ List.mem_cons_self h t) hc2)
        · exact List.mem_cons_of_mem d (ih x (hsr ▸ List.mem_cons_of_mem h hx2) hc)

theorem sep_not_mem_splitChar (sep : Char) (s : Str) (x : Str)
    (hx : x ∈ goSplitChar sep s) : sep ∉ x := by
  induction s generalizing x with
  | nil =>
    simp [goSplitChar] at hx
    subst hx
    exact List.not_mem_nil sep
  | cons d rest ih =>
    cases hsr : goSplitChar sep rest with
    | nil => exact absurd hsr (splitChar_ne_nil sep rest)
    | cons h t =>
      simp only [goSplitChar, hsr] at hx
      by_cases hd : d = sep
      · rw [if_pos hd] at hx
        rcases List.mem_cons.1 hx with hx1 | hx2
        · subst hx1; exact List.not_mem_nil sep
        · exact ih x (hsr ▸ hx2)
      · rw [if_neg hd] at hx
        rcases List.mem_cons.1 hx with hx1 | hx2
        · subst hx1
          intro hmem
          rcases List.mem_cons.1 hmem with h1 | h2
          · exact hd h1.symm
          · exact ih h (hsr ▸ List.mem_cons_self h t) h2
        · exact ih x (hsr ▸ List.mem_cons_of_mem h hx2)

theorem char_ofNat_toNat (k : Nat) (h : k.isValidChar) : (Char.ofNat k).toNat = k := by
  simp [Char.ofNat, h, Char.ofNatAux]
  rfl

theorem goUpperChar_ne_newline (c : Char) (hc : c ≠ '\n') :
    goUpperChar c ≠ '\n' := by
  unfold goUpperChar
  split
  · rename_i h
    intro heq
    have hv : Nat.isValidChar (c.toNat - 32) := Or.inl (by omega)
    have ht := char_ofNat_toNat (c.toNat - 32) hv
    rw [heq] at ht
    have h10 : Char.toNat '\n' = 10 := rfl
    omega
  · exact hc

theorem mem_goJoinChar (sep : Char) (L : List Str) (c : Char)
    (h : c ∈ goJoinChar sep L) : c = sep ∨ ∃ x ∈ L, c ∈ x := by
  induction L with
  | nil => exact absurd h (List.not_mem_nil c)
  | cons x t ih =>
    cases t with
    | nil => exact Or.inr ⟨x, List.mem_cons_self x [], h⟩
    | cons y u =>
      rw [goJoinChar_cons_cons] at h
      rcases List.mem_append.1 h with h1 | h2
      · exact Or.inr ⟨x, List.mem_cons_self x (y :: u), h1⟩
      · rcases List.mem_cons.1 h2 with h3 | h4
        · exact Or.inl h3
        · rcases ih h4 with h5 | ⟨z, hz, hcz⟩
          · exact Or.inl h5
          · exact Or.inr ⟨z, List.mem_cons_of_mem x hz, hcz⟩

namespace generator

theorem titleFromID_no_newline (id : Str) (h : '\n' ∉ id) :
    '\n' ∉ sectionTitleFromID id := by
  unfold sectionTitleFromID
  split
  · decide
  · split
    · decide
    · split
      · decide
      · intro hmem
        rcases mem_goJoinChar ' ' _ '\n' hmem with h1 | ⟨x, hx, hcx⟩
        · exact absurd h1 (by decide)
        · rcases List.mem_map.1 hx with ⟨q, hq, rfl⟩
          cases q with
          | nil => exact absurd hcx (List.not_mem_nil _)
          | cons c rest =>
            rcases List.mem_cons.1 hcx with h2 | h3
            · have hcm : c ∈ id :=
                mem_of_mem_splitChar '-' id (c :: rest) c hq
                  (List.mem_cons_self c rest)
              exact goUpperChar_ne_newline c (fun he => h (he ▸ hcm)) h2.symm
            · have : '\n' ∈ id :=
                mem_of_mem_splitChar '-' id (c :: rest) '\n' hq
                  (List.mem_cons_of_mem c h3)
              exact h this

end generator

namespace generator

/-- The level `normalizeOneSection` settles on. -/
def normLevel (sec : ModelSect) : Int :=
  if sec.level < 1 ∨ sec.level > 6 then 2 else sec.level

/-- The title `normalizeOneSection` settles on. -/
def normTitle (sec : ModelSect) : Str :=
  if sec.title = [] then sectionTitleFromID sec.id else sec.title

/-- The heading line `normalizeOneSection` writes. -/
def headingOf (sec : ModelSect) : Str :=
  goRepeatChar '#' (normLevel sec).toNat ++ ' ' :: normTitle sec

/-- The content `normalizeOneSection` settles on. -/
def normContent (sec : ModelSect) : Str :=
  let trimmed := goTrimSpace sec.contentMD
  if trimmed = [] then headingOf sec ++ S "\n\nTBD."
  else if startsWithHeading trimmed then
    match goSplitChar '\n' trimmed with
    | [] => sec.contentMD
    | _ :: rest => goJoinChar '\n' (headingOf sec :: rest)
  else headingOf sec ++ '\n' :: '\n' :: trimmed

/-- The hash `normalizeOneSection` writes (sources are untouched). -/
def normHash (sec : ModelSect) : Str :=
  sectionHash { sec with title := normTitle sec, contentMD := normContent sec }

theorem sectionHash_congr (a b : ModelSect) (h1 : a.title = b.title)
    (h2 : a.contentMD = b.contentMD) (h3 : a.sources = b.sources) :
    sectionHash a = sectionHash b := by
  unfold sectionHash sectionHashInput
  rw [h1, h2, h3]

theorem normOne_id (sec : ModelSect) : (normalizeOneSection sec).id = sec.id := by
  simp only [normalizeOneSection]
  repeat' split
  all_goals rfl

theorem normOne_order (sec : ModelSect) :
    (normalizeOneSection sec).order = sec.order := by
  simp only [normalizeOneSection]
  repeat' split
  all_goals rfl

theorem normOne_parentID (sec : ModelSect) :
    (normalizeOneSection sec).parentID = sec.parentID := by
  simp only [normalizeOneSection]
  repeat' split
  all_goals rfl

theorem normOne_status (sec : ModelSect) :
    (normalizeOneSection sec).status = sec.status := by
  simp only [normalizeOneSection]
  repeat' split
  all_goals rfl

theorem normOne_sources (sec : ModelSect) :
    (normalizeOneSection sec).sources = sec.sources := by
  simp only [normalizeOneSection]
  repeat' split
  all_goals rfl

theorem normOne_lastUpdated (sec : ModelSect) :
    (normalizeOneSection sec).lastUpdated = sec.lastUpdated := by
  simp only [normalizeOneSection]
  repeat' split
  all_goals rfl

theorem normOne_level (sec : ModelSect) :
    (normalizeOneSection sec).level = normLevel sec := by
  simp only [normalizeOneSection, normLevel]
  repeat' split
  all_goals rfl

theorem normOne_title (sec : ModelSect) :
    (normalizeOneSection sec).title = normTitle sec := by
  simp only [normalizeOneSection, normTitle]
  repeat' split
  all_goals rfl

theorem normOne_content (sec : ModelSect) :
    (normalizeOneSection sec).contentMD = normContent sec := by
  obtain ⟨i, t, lv, od, pid, cm, sm, st, src, hs, lu⟩ := sec
  simp only [normalizeOneSection, normContent, headingOf, normTitle, normLevel]
  repeat' split
  all_goals first
  | rfl
  | simp_all [splitChar_ne_nil]

end generator

namespace generator

theorem normOne_summary (sec : ModelSect) :
    (normalizeOneSection sec).summary =
      summarizeContent ((normalizeOneSection sec).contentMD) := by
  obtain ⟨i, t, lv, od, pid, cm, sm, st, src, hs, lu⟩ := sec
  simp only [normalizeOneSection]
  repeat' split
  all_goals first
  | rfl
  | simp_all [splitChar_ne_nil]

theorem normOne_hash (sec : ModelSect) :
    (normalizeOneSection sec).hash = sectionHash (normalizeOneSection sec) := by
  obtain ⟨i, t, lv, od, pid, cm, sm, st, src, hs, lu⟩ := sec
  simp only [normalizeOneSection]
  repeat' split
  all_goals first
  | exact sectionHash_congr _ _ rfl rfl rfl
  | simp_all [splitChar_ne_nil]

theorem normLevel_bounds (sec : ModelSect) :
    1 ≤ normLevel sec ∧ normLevel sec ≤ 6 := by
  unfold normLevel
  split <;> omega

theorem normLevel_normOne (sec : ModelSect) :
    normLevel (normalizeOneSection sec) = normLevel sec := by
  unfold normLevel
  rw [normOne_level]
  have h := normLevel_bounds sec
  rw [if_neg (by omega)]
  rfl

theorem normTitle_normOne (sec : ModelSect) :
    normTitle (normalizeOneSection sec) = normTitle sec := by
  unfold normTitle
  rw [normOne_title, normOne_id]
  by_cases h : sec.title = []
  · simp only [normTitle, if_pos h]
    split <;> rfl
  · simp only [normTitle, if_neg h]

theorem headingOf_normOne (sec : ModelSect) :
    headingOf (normalizeOneSection sec) = headingOf sec := by
  unfold headingOf
  rw [normLevel_normOne, normTitle_normOne]

theorem headingOf_cons (sec : ModelSect) :
    ∃ x, headingOf sec = '#' :: x := by
  unfold headingOf
  obtain ⟨h1, _⟩ := normLevel_bounds sec
  obtain ⟨k, hk⟩ : ∃ k, (normLevel sec).toNat = k + 1 := by
    have : 1 ≤ (normLevel sec).toNat := by omega
    exact ⟨(normLevel sec).toNat - 1, by omega⟩
  rw [hk]
  exact ⟨goRepeatChar '#' k ++ ' ' :: normTitle sec, rfl⟩

theorem headingOf_no_newline (sec : ModelSect) (hT : '\n' ∉ normTitle sec) :
    '\n' ∉ headingOf sec := by
  unfold headingOf goRepeatChar
  intro hmem
  rcases List.mem_append.1 hmem with h1 | h2
  · have := List.eq_of_mem_replicate h1
    exact absurd this (by decide)
  · rcases List.mem_cons.1 h2 with h3 | h4
    · exact absurd h3 (by decide)
    · exact hT h4

end generator

namespace generator

theorem startsWithHeading_true (s y : Str) (h : goTrimSpace s = '#' :: y) :
    startsWithHeading s = true := by
  unfold startsWithHeading goStartsWith
  rw [h]
  simp [S]

/-- Re-normalizing a bare heading line (`H`, starting with `#`, no
newline) leaves it unchanged. -/
theorem renorm_single (s2 : ModelSect) (H x : Str) (hc : s2.contentMD = H)
    (hH : headingOf s2 = H) (hHx : H = '#' :: x) (hHnl : '\n' ∉ H) :
    normContent s2 = s2.contentMD := by
  have hxnl : '\n' ∉ x := fun hm => hHnl (hHx ▸ List.mem_cons_of_mem '#' hm)
  have htr : goTrimSpace s2.contentMD = '#' :: goTrimRight x := by
    rw [hc, hHx, goTrimSpace_cons '#' x (by decide)]
  have hne : goTrimSpace s2.contentMD ≠ [] := by rw [htr]; simp
  have hsw : startsWithHeading (goTrimSpace s2.contentMD) = true := by
    apply startsWithHeading_true _ (goTrimRight (goTrimRight x))
    rw [htr, goTrimSpace_cons '#' _ (by decide)]
  have hnl2 : '\n' ∉ ('#' :: goTrimRight x : Str) := by
    intro hm
    rcases List.mem_cons.1 hm with h1 | h2
    · exact absurd h1 (by decide)
    · exact hxnl (mem_goTrimRight x '\n' h2)
  have hsplit : goSplitChar '\n' (goTrimSpace s2.contentMD) =
      [('#' :: goTrimRight x : Str)] := by
    rw [htr]
    exact splitChar_of_not_mem '\n' _ hnl2
  simp only [normContent]
  rw [if_neg hne, if_pos hsw, hsplit]
  show goJoinChar '\n' [headingOf s2] = s2.contentMD
  rw [hH, hc]
  rfl

/-- Re-normalizing `H ++ "\n\n" ++ B` (heading, blank line, body ending in
a non-space character) leaves it unchanged. -/
theorem renorm_block (s2 : ModelSect) (H x B : Str) (d : Char)
    (hc : s2.contentMD = H ++ '\n' :: '\n' :: B) (hH : headingOf s2 = H)
    (hHx : H = '#' :: x) (hHnl : '\n' ∉ H) (hB : B ≠ [])
    (hlast : B.getLast? = some d) (hds : goIsSpace d = false) :
    normContent s2 = s2.contentMD := by
  have hlast2 : (H ++ '\n' :: '\n' :: B).getLast? = some d := by
    rw [List.getLast?_append]
    have h2 : ('\n' :: '\n' :: B : Str).getLast? = some d := by
      cases B with
      | nil => exact absurd rfl hB
      | cons b bs =>
        rw [List.getLast?_cons_cons, List.getLast?_cons_cons]
        exact hlast
    rw [h2]
    rfl
  have hhead : (H ++ '\n' :: '\n' :: B).head? = some '#' := by rw [hHx]; rfl
  have htr : goTrimSpace s2.contentMD = s2.contentMD := by
    rw [hc]
    exact goTrimSpace_eq_self _ '#' d hhead (by decide) hlast2 hds
  have hne : goTrimSpace s2.contentMD ≠ [] := by
    rw [htr, hc, hHx]
    simp
  have hsw : startsWithHeading (goTrimSpace s2.contentMD) = true := by
    apply startsWithHeading_true _ (x ++ '\n' :: '\n' :: B)
    rw [htr, htr, hc, hHx]
    rfl
  have hsplit : goSplitChar '\n' (goTrimSpace s2.contentMD) =
      H :: ([] : Str) :: goSplitChar '\n' B := by
    rw [htr, hc]
    rw [show H ++ '\n' :: '\n' :: B = H ++ '\n' :: (('\n' :: B : Str)) from rfl]
    rw [splitChar_append '\n' H ('\n' :: B) hHnl]
    have : goSplitChar '\n' (('\n' :: B : Str)) = ([] : Str) :: goSplitChar '\n' B :=
      splitChar_append '\n' [] B (by simp)
    rw [this]
  simp only [normContent]
  rw [if_neg hne, if_pos hsw, hsplit]
  show goJoinChar '\n' (headingOf s2 :: ([] : Str) :: goSplitChar '\n' B) =
    s2.contentMD
  rw [hH, goJoinChar_cons_cons]
  cases hsb : goSplitChar '\n' B with
  | nil => exact absurd hsb (splitChar_ne_nil '\n' B)
  | cons s0 ss =>
    rw [goJoinChar_cons_cons, ← hsb, joinChar_splitChar, hc]
    rfl

/-- Re-normalizing `H ++ "\n" ++ join(lines)` (heading directly followed
by newline-free lines whose joined body ends in a non-space character)
leaves it unchanged. -/
theorem renorm_join (s2 : ModelSect) (H x y : Str) (u : List Str) (d : Char)
    (hc : s2.contentMD = H ++ '\n' :: goJoinChar '\n' (y :: u))
    (hH : headingOf s2 = H) (hHx : H = '#' :: x) (hHnl : '\n' ∉ H)
    (hpieces : ∀ z ∈ y :: u, '\n' ∉ z)
    (hjne : goJoinChar '\n' (y :: u) ≠ [])
    (hlast : (goJoinChar '\n' (y :: u)).getLast? = some d)
    (hds : goIsSpace d = false) :
    normContent s2 = s2.contentMD := by
  have hlast2 : (H ++ '\n' :: goJoinChar '\n' (y :: u)).getLast? = some d := by
    rw [List.getLast?_append]
    have h2 : (('\n' :: goJoinChar '\n' (y :: u) : Str)).getLast? = some d := by
      cases hjn : goJoinChar '\n' (y :: u) with
      | nil => exact absurd hjn hjne
      | cons b bs =>
        rw [List.getLast?_cons_cons, ← hjn]
        exact hlast
    rw [h2]
    rfl
  have hhead : (H ++ '\n' :: goJoinChar '\n' (y :: u)).head? = some '#' := by
    rw [hHx]; rfl
  have htr : goTrimSpace s2.contentMD = s2.contentMD := by
    rw [hc]
    exact goTrimSpace_eq_self _ '#' d hhead (by decide) hlast2 hds
  have hne : goTrimSpace s2.contentMD ≠ [] := by
    rw [htr, hc, hHx]
    simp
  have hsw : startsWithHeading (goTrimSpace s2.contentMD) = true := by
    apply startsWithHeading_true _ (x ++ '\n' :: goJoinChar '\n' (y :: u))
    rw [htr, htr, hc, hHx]
    rfl
  have hsplit : goSplitChar '\n' (goTrimSpace s2.contentMD) = H :: y :: u := by
    rw [htr, hc, splitChar_append '\n' H (goJoinChar '\n' (y :: u)) hHnl,
      splitChar_join '\n' (y :: u) (by simp) hpieces]
  simp only [normContent]
  rw [if_neg hne, if_pos hsw, hsplit]
  show goJoinChar '\n' (headingOf s2 :: y :: u) = s2.contentMD
  rw [hH, goJoinChar_cons_cons, hc]

end generator

namespace generator

theorem normContent_normOne (sec : ModelSect) (hT : '\n' ∉ normTitle sec) :
    normContent (normalizeOneSection sec) = normContent sec := by
  obtain ⟨x, hHx⟩ := headingOf_cons sec
  have hHnl := headingOf_no_newline sec hT
  have hH2 := headingOf_normOne sec
  have hcontent := normOne_content sec
  by_cases h1 : goTrimSpace sec.contentMD = []
  · have hshape : normContent sec = headingOf sec ++ S "\n\nTBD." := by
      simp only [normContent, if_pos h1]
    rw [← hcontent]
    exact renorm_block _ (headingOf sec) x (S "TBD.") '.'
      (by rw [hcontent, hshape]; rfl) hH2 hHx hHnl (by decide) (by decide) (by decide)
  · by_cases h2 : startsWithHeading (goTrimSpace sec.contentMD) = true
    · cases hsp : goSplitChar '\n' (goTrimSpace sec.contentMD) with
      | nil => exact absurd hsp (splitChar_ne_nil _ _)
      | cons l0 rest =>
        have hshape : normContent sec = goJoinChar '\n' (headingOf sec :: rest) := by
          simp only [normContent]
          rw [if_neg h1, if_pos h2, hsp]
        cases rest with
        | nil =>
          have hshape2 : normContent sec = headingOf sec := by rw [hshape]; rfl
          rw [← hcontent]
          exact renorm_single _ (headingOf sec) x (by rw [hcontent, hshape2]) hH2
            hHx hHnl
        | cons y u =>
          have htr_eq : goJoinChar '\n' (l0 :: y :: u) = goTrimSpace sec.contentMD := by
            rw [← hsp]
            exact joinChar_splitChar '\n' _
          obtain ⟨dd, hdd, hdds⟩ := goTrimSpace_getLast sec.contentMD h1
          have hpieces : ∀ z ∈ y :: u, '\n' ∉ z := fun z hz =>
            sep_not_mem_splitChar '\n' _ z (hsp ▸ List.mem_cons_of_mem l0 hz)
          have hjoin_ne : goJoinChar '\n' (y :: u) ≠ [] := by
            intro hjn
            rw [goJoinChar_cons_cons, hjn] at htr_eq
            rw [← htr_eq] at hdd
            rw [List.getLast?_concat] at hdd
            have : dd = '\n' := by injection hdd.symm
            rw [this] at hdds
            exact absurd hdds (by decide)
          have hlast : (goJoinChar '\n' (y :: u)).getLast? = some dd := by
            rw [goJoinChar_cons_cons] at htr_eq
            rw [← htr_eq] at hdd
            rw [List.getLast?_append] at hdd
            cases hjn : goJoinChar '\n' (y :: u) with
            | nil => exact absurd hjn hjoin_ne
            | cons b bs =>
              rw [hjn, List.getLast?_cons_cons] at hdd
              cases hg : (b :: bs : Str).getLast? with
              | none =>
                rw [List.getLast?_eq_none_iff] at hg
                exact absurd hg (by simp)
              | some e =>
                rw [hg] at hdd
                exact hdd
          have hcshape : (normalizeOneSection sec).contentMD =
              headingOf sec ++ '\n' :: goJoinChar '\n' (y :: u) := by
            rw [hcontent, hshape, goJoinChar_cons_cons]
          rw [← hcontent]
          exact renorm_join _ (headingOf sec) x y u dd hcshape hH2 hHx hHnl
            hpieces hjoin_ne hlast hdds
    · have hshape : normContent sec =
          headingOf sec ++ '\n' :: '\n' :: goTrimSpace sec.contentMD := by
        simp only [normContent]
        rw [if_neg h1, if_neg h2]
      obtain ⟨dd, hdd, hdds⟩ := goTrimSpace_getLast sec.contentMD h1
      rw [← hcontent]
      exact renorm_block _ (headingOf sec) x (goTrimSpace sec.contentMD) dd
        (by rw [hcontent, hshape]) hH2 hHx hHnl h1 hdd hdds

end generator

attribute [ext] generator.ModelSect

namespace generator

/-- One application of the heading pass is a fixpoint of itself on any
section whose settled title has no newline. -/
theorem normOne_idem (sec : ModelSect) (hT : '\n' ∉ normTitle sec) :
    normalizeOneSection (normalizeOneSection sec) = normalizeOneSection sec := by
  have hc : (normalizeOneSection (normalizeOneSection sec)).contentMD =
      (normalizeOneSection sec).contentMD := by
    rw [normOne_content (normalizeOneSection sec), normContent_normOne sec hT,
      normOne_content sec]
  have ht : (normalizeOneSection (normalizeOneSection sec)).title =
      (normalizeOneSection sec).title := by
    rw [normOne_title (normalizeOneSection sec), normTitle_normOne sec,
      normOne_title sec]
  apply ModelSect.ext
  · rw [normOne_id]
  · exact ht
  · rw [normOne_level (normalizeOneSection sec), normLevel_normOne sec,
      normOne_level sec]
  · rw [normOne_order]
  · rw [normOne_parentID]
  · exact hc
  · rw [normOne_summary (normalizeOneSection sec), normOne_summary sec, hc]
  · rw [normOne_status]
  · rw [normOne_sources]
  · rw [normOne_hash (normalizeOneSection sec), normOne_hash sec]
    exact sectionHash_congr _ _ ht hc (by rw [normOne_sources])
  · rw [normOne_lastUpdated]

end generator

attribute [ext] generator.DocModel generator.ModelDoc generator.ModelPolicy
attribute [ext] generator.PolicyStyle generator.ModelMeta

namespace generator

/-- The style/limit conditions that `ensurePolicyDefaults` establishes. -/
def policyConditions (p : ModelPolicy) : Prop :=
  p.maxSectionChars ≠ 0 ∧ p.style.tone ≠ [] ∧ p.style.audience ≠ [] ∧
  p.style.codeBlockLanguage ≠ [] ∧ p.style.focusMode ≠ [] ∧
  p.style.preferConceptualDiagrams = true ∧
  p.style.preferTaskOrientedExamples = true ∧
  p.style.avoidCallGraphNarration = true

end generator

namespace generator

theorem fixAudience_tone (st : PolicyStyle) : (fixAudience st).tone = st.tone := by
  unfold fixAudience
  split <;> rfl

theorem fixCodeLang_tone (st : PolicyStyle) : (fixCodeLang st).tone = st.tone := by
  unfold fixCodeLang
  split <;> rfl

theorem fixCodeLang_audience (st : PolicyStyle) : (fixCodeLang st).audience = st.audience := by
  unfold fixCodeLang
  split <;> rfl

theorem fixFocus_tone (st : PolicyStyle) : (fixFocus st).tone = st.tone := by
  unfold fixFocus
  split <;> rfl

theorem fixFocus_audience (st : PolicyStyle) : (fixFocus st).audience = st.audience := by
  unfold fixFocus
  split <;> rfl

theorem fixFocus_codeBlockLanguage (st : PolicyStyle) : (fixFocus st).codeBlockLanguage = st.codeBlockLanguage := by
  unfold fixFocus
  split <;> rfl

theorem fixDiagrams_tone (st : PolicyStyle) : (fixDiagrams st).tone = st.tone := by
  unfold fixDiagrams
  split <;> rfl

theorem fixDiagrams_audience (st : PolicyStyle) : (fixDiagrams st).audience = st.audience := by
  unfold fixDiagrams
  split <;> rfl

theorem fixDiagrams_codeBlockLanguage (st : PolicyStyle) : (fixDiagrams st).codeBlockLanguage = st.codeBlockLanguage := by
  unfold fixDiagrams
  split <;> rfl

theorem fixDiagrams_focusMode (st : PolicyStyle) : (fixDiagrams st).focusMode = st.focusMode := by
  unfold fixDiagrams
  split <;> rfl

theorem fixExamples_tone (st : PolicyStyle) : (fixExamples st).tone = st.tone := by
  unfold fixExamples
  split <;> rfl

theorem fixExamples_audience (st : PolicyStyle) : (fixExamples st).audience = st.audience := by
  unfold fixExamples
  split <;> rfl

theorem fixExamples_codeBlockLanguage (st : PolicyStyle) : (fixExamples st).codeBlockLanguage = st.codeBlockLanguage := by
  unfold fixExamples
  split <;> rfl

theorem fixExamples_focusMode (st : PolicyStyle) : (fixExamples st).focusMode = st.focusMode := by
  unfold fixExamples
  split <;> rfl

theorem fixExamples_preferConceptualDiagrams (st : PolicyStyle) : (fixExamples st).preferConceptualDiagrams = st.preferConceptualDiagrams := by
  unfold fixExamples
  split <;> rfl

theorem fixMaxChars_ne (p : ModelPolicy) : (fixMaxChars p).maxSectionChars ≠ 0 := by
  unfold fixMaxChars
  split <;> simp_all

theorem fixTone_tone (st : PolicyStyle) : (fixTone st).tone ≠ [] := by
  unfold fixTone
  split <;> simp_all [S]

theorem fixAudience_audience (st : PolicyStyle) : (fixAudience st).audience ≠ [] := by
  unfold fixAudience
  split <;> simp_all [S]

theorem fixCodeLang_codeBlockLanguage (st : PolicyStyle) :
    (fixCodeLang st).codeBlockLanguage ≠ [] := by
  unfold fixCodeLang
  split <;> simp_all [S]

theorem fixFocus_focusMode (st : PolicyStyle) : (fixFocus st).focusMode ≠ [] := by
  unfold fixFocus
  split <;> simp_all [S]

theorem fixDiagrams_preferConceptualDiagrams (st : PolicyStyle) :
    (fixDiagrams st).preferConceptualDiagrams = true := by
  unfold fixDiagrams
  split <;> simp_all

theorem fixExamples_preferTaskOrientedExamples (st : PolicyStyle) :
    (fixExamples st).preferTaskOrientedExamples = true := by
  unfold fixExamples
  split <;> simp_all

end generator

namespace generator

theorem ensurePolicyDefaults_post (m : DocModel) :
    policyConditions (ensurePolicyDefaults m).policies := by
  simp only [policyConditions, ensurePolicyDefaults]
  refine ⟨fixMaxChars_ne _, ?_, ?_, ?_, ?_, ?_, ?_, trivial⟩
  · rw [show ({ fixExamples (fixDiagrams (fixFocus (fixCodeLang (fixAudience
        (fixTone (fixMaxChars m.policies).style))))) with
        avoidCallGraphNarration := true } : PolicyStyle).tone =
      (fixExamples (fixDiagrams (fixFocus (fixCodeLang (fixAudience
        (fixTone (fixMaxChars m.policies).style)))))).tone from rfl,
      fixExamples_tone, fixDiagrams_tone, fixFocus_tone, fixCodeLang_tone,
      fixAudience_tone]
    exact fixTone_tone _
  · rw [show ({ fixExamples (fixDiagrams (fixFocus (fixCodeLang (fixAudience
        (fixTone (fixMaxChars m.policies).style))))) with
        avoidCallGraphNarration := true } : PolicyStyle).audience =
      (fixExamples (fixDiagrams (fixFocus (fixCodeLang (fixAudience
        (fixTone (fixMaxChars m.policies).style)))))).audience from rfl,
      fixExamples_audience, fixDiagrams_audience, fixFocus_audience,
      fixCodeLang_audience]
    exact fixAudience_audience _
  · rw [show ({ fixExamples (fixDiagrams (fixFocus (fixCodeLang (fixAudience
        (fixTone (fixMaxChars m.policies).style))))) with
        avoidCallGraphNarration := true } : PolicyStyle).codeBlockLanguage =
      (fixExamples (fixDiagrams (fixFocus (fixCodeLang (fixAudience
        (fixTone (fixMaxChars m.policies).style)))))).codeBlockLanguage from rfl,
      fixExamples_codeBlockLanguage, fixDiagrams_codeBlockLanguage,
      fixFocus_codeBlockLanguage]
    exact fixCodeLang_codeBlockLanguage _
  · rw [show ({ fixExamples (fixDiagrams (fixFocus (fixCodeLang (fixAudience
        (fixTone (fixMaxChars m.policies).style))))) with
        avoidCallGraphNarration := true } : PolicyStyle).focusMode =
      (fixExamples (fixDiagrams (fixFocus (fixCodeLang (fixAudience
        (fixTone (fixMaxChars m.policies).style)))))).focusMode from rfl,
      fixExamples_focusMode, fixDiagrams_focusMode]
    exact fixFocus_focusMode _
  · rw [show ({ fixExamples (fixDiagrams (fixFocus (fixCodeLang (fixAudience
        (fixTone (fixMaxChars m.policies).style))))) with
        avoidCallGraphNarration := true } : PolicyStyle).preferConceptualDiagrams =
      (fixExamples (fixDiagrams (fixFocus (fixCodeLang (fixAudience
        (fixTone (fixMaxChars m.policies).style)))))).preferConceptualDiagrams
      from rfl, fixExamples_preferConceptualDiagrams]
    exact fixDiagrams_preferConceptualDiagrams _
  · exact fixExamples_preferTaskOrientedExamples _

theorem ensurePolicyDefaults_fix (m : DocModel)
    (h : policyConditions m.policies) : ensurePolicyDefaults m = m := by
  obtain ⟨h1, h2, h3, h4, h5, h6, h7, h8⟩ := h
  have e1 : fixMaxChars m.policies = m.policies := by
    unfold fixMaxChars; rw [if_neg h1]
  have e2 : fixTone m.policies.style = m.policies.style := by
    unfold fixTone; rw [if_neg h2]
  have e3 : fixAudience m.policies.style = m.policies.style := by
    unfold fixAudience; rw [if_neg h3]
  have e4 : fixCodeLang m.policies.style = m.policies.style := by
    unfold fixCodeLang; rw [if_neg h4]
  have e5 : fixFocus m.policies.style = m.policies.style := by
    unfold fixFocus; rw [if_neg h5]
  have e6 : fixDiagrams m.policies.style = m.policies.style := by
    unfold fixDiagrams; rw [if_neg (by simp [h6])]
  have e7 : fixExamples m.policies.style = m.policies.style := by
    unfold fixExamples; rw [if_neg (by simp [h7])]
  simp only [ensurePolicyDefaults, e1, e2, e3, e4, e5, e6, e7]
  have hst : { m.policies.style with avoidCallGraphNarration := true } =
      m.policies.style := by
    rw [← h8]
  rw [hst]

theorem ensurePolicyDefaults_sections (m : DocModel) :
    (ensurePolicyDefaults m).sections = m.sections := rfl

theorem ensurePolicyDefaults_required (m : DocModel) :
    (ensurePolicyDefaults m).policies.requiredSectionIDs =
      m.policies.requiredSectionIDs := by
  simp only [ensurePolicyDefaults, fixMaxChars]
  split_ifs <;> rfl

end generator

namespace generator

theorem mkCanonicalSection_id (id : Str) (o : Int) :
    (mkCanonicalSection id o).id = id := rfl

theorem mkCanonicalSection_title (id : Str) (o : Int) :
    (mkCanonicalSection id o).title = sectionTitleFromID id := rfl

/-- The canonical-section loop only appends, and every appended section is
a scaffold for one of the walked ids. -/
theorem foldl_canonStep_extend (ids : List Str) (ex : List Str) :
    ∀ acc, ∃ suf, ids.foldl (canonStep ex) acc = acc ++ suf ∧
      ∀ b ∈ suf, ∃ cid ∈ ids, ∃ k, b = mkCanonicalSection cid k := by
  induction ids with
  | nil => exact fun acc => ⟨[], by simp, by simp⟩
  | cons id rest ih =>
    intro acc
    by_cases hid : id ∈ ex
    · obtain ⟨suf, h1, h2⟩ := ih acc
      refine ⟨suf, ?_, fun b hb => ?_⟩
      · simpa [canonStep, if_pos hid] using h1
      · obtain ⟨cid, hcid, k, hk⟩ := h2 b hb
        exact ⟨cid, List.mem_cons_of_mem id hcid, k, hk⟩
    · obtain ⟨suf, h1, h2⟩ := ih (acc ++ [mkCanonicalSection id (acc.length : Int)])
      refine ⟨mkCanonicalSection id (acc.length : Int) :: suf, ?_, fun b hb => ?_⟩
      · simp only [List.foldl_cons, canonStep, if_neg hid] at h1 ⊢
        rw [h1]
        simp
      · rcases List.mem_cons.1 hb with hb1 | hb2
        · exact ⟨id, List.mem_cons_self id rest, (acc.length : Int), hb1⟩
        · obtain ⟨cid, hcid, k, hk⟩ := h2 b hb2
          exact ⟨cid, List.mem_cons_of_mem id hcid, k, hk⟩

/-- Every walked id ends up among the section ids, provided ids in
`existing` are already there. -/
theorem foldl_canonStep_mem (ids : List Str) (ex : List Str) :
    ∀ acc, (∀ id ∈ ex, id ∈ acc.map (fun s => s.id)) →
      ∀ id ∈ ids, id ∈ (ids.foldl (canonStep ex) acc).map (fun s => s.id) := by
  induction ids with
  | nil => exact fun acc _ id h => absurd h (List.not_mem_nil id)
  | cons id0 rest ih =>
    intro acc hex id hid
    have hstep : ∀ b ∈ acc, b ∈ canonStep ex acc id0 := by
      intro b hb
      unfold canonStep
      split
      · exact hb
      · exact List.mem_append_left _ hb
    have hex2 : ∀ i ∈ ex, i ∈ (canonStep ex acc id0).map (fun s => s.id) := by
      intro i hi
      obtain ⟨b, hb, hbi⟩ := List.mem_map.1 (hex i hi)
      exact List.mem_map.2 ⟨b, hstep b hb, hbi⟩
    rcases List.mem_cons.1 hid with h1 | h2
    · subst h1
      obtain ⟨suf, hsuf, _⟩ := foldl_canonStep_extend rest ex (canonStep ex acc id)
      rw [List.foldl_cons, hsuf, List.map_append]
      apply List.mem_append_left
      by_cases hin : id ∈ ex
      · obtain ⟨b, hb, hbi⟩ := List.mem_map.1 (hex id hin)
        exact List.mem_map.2 ⟨b, hstep b hb, hbi⟩
      · unfold canonStep
        rw [if_neg hin, List.map_append]
        apply List.mem_append_right
        simp [mkCanonicalSection_id]
    · rw [List.foldl_cons]
      exact ih (canonStep ex acc id0) hex2 id h2

theorem ensureCanonical_mem (m : DocModel) :
    ∀ id ∈ canonicalSectionOrder,
      id ∈ (ensureCanonicalRootSections m).sections.map (fun s => s.id) := by
  intro id hid
  exact foldl_canonStep_mem canonicalSectionOrder
    (m.sections.map (fun s => s.id)) m.sections (fun i hi => hi) id hid

theorem foldl_canonStep_noop (ids : List Str) (ex : List Str) :
    ∀ acc, (∀ id ∈ ids, id ∈ ex) → ids.foldl (canonStep ex) acc = acc := by
  induction ids with
  | nil => exact fun acc _ => rfl
  | cons id rest ih =>
    intro acc h
    rw [List.foldl_cons]
    rw [show canonStep ex acc id = acc from by
      unfold canonStep; rw [if_pos (h id (List.mem_cons_self id rest))]]
    exact ih acc (fun i hi => h i (List.mem_cons_of_mem id hi))

theorem ensureCanonical_fix (m : DocModel)
    (h : ∀ id ∈ canonicalSectionOrder, id ∈ m.sections.map (fun s => s.id)) :
    ensureCanonicalRootSections m = m := by
  unfold ensureCanonicalRootSections
  rw [foldl_canonStep_noop canonicalSectionOrder _ m.sections h]

theorem ensureCanonical_policies (m : DocModel) :
    (ensureCanonicalRootSections m).policies = m.policies := rfl

theorem ensureCanonical_document (m : DocModel) :
    (ensureCanonicalRootSections m).document = m.document := rfl

end generator

namespace generator

theorem ensureRootSectionIDs_eq (m : DocModel)
    (hreq : m.policies.requiredSectionIDs ≠ []) :
    ensureRootSectionIDs m =
      { m with document := { m.document with
          rootSectionIDs := computeRoots m.sections } } := by
  simp only [ensureRootSectionIDs]
  rw [if_neg hreq]

theorem ensureRootSectionIDs_sections (m : DocModel) :
    (ensureRootSectionIDs m).sections = m.sections := by
  simp only [ensureRootSectionIDs]
  split <;> rfl

theorem ensureRootSectionIDs_req_ne (m : DocModel) :
    (ensureRootSectionIDs m).policies.requiredSectionIDs ≠ [] := by
  simp only [ensureRootSectionIDs]
  split
  · simp [canonicalSectionOrder]
  · assumption

theorem ensureRootSectionIDs_style (m : DocModel) :
    (ensureRootSectionIDs m).policies.style = m.policies.style := by
  simp only [ensureRootSectionIDs]
  split <;> rfl

theorem ensureRootSectionIDs_maxChars (m : DocModel) :
    (ensureRootSectionIDs m).policies.maxSectionChars =
      m.policies.maxSectionChars := by
  simp only [ensureRootSectionIDs]
  split <;> rfl

theorem policyConditions_ensureRoots (m : DocModel)
    (h : policyConditions m.policies) :
    policyConditions (ensureRootSectionIDs m).policies := by
  unfold policyConditions at *
  rw [ensureRootSectionIDs_style, ensureRootSectionIDs_maxChars]
  exact h

theorem reindexSectionOrder_policies (m : DocModel) :
    (reindexSectionOrder m).policies = m.policies := rfl

theorem reindexSectionOrder_document (m : DocModel) :
    (reindexSectionOrder m).document = m.document := rfl

theorem normalizeSectionHeadings_policies (m : DocModel) :
    (normalizeSectionHeadings m).policies = m.policies := rfl

theorem normalizeSectionHeadings_document (m : DocModel) :
    (normalizeSectionHeadings m).document = m.document := rfl

theorem normalizeSectionHeadings_sections (m : DocModel) :
    (normalizeSectionHeadings m).sections =
      m.sections.map normalizeOneSection := rfl

theorem reindexSectionOrder_sections (m : DocModel) :
    (reindexSectionOrder m).sections =
      setOrdersFrom 0 (m.sections.insertionSort sectionLeP) := rfl

/-- `setOrdersFrom` writes orders and keeps everything else. -/
theorem setOrdersFrom_mem (l : List ModelSect) :
    ∀ n b, b ∈ setOrdersFrom n l →
      ∃ a ∈ l, b = { a with order := b.order } ∧ (n : Int) ≤ b.order := by
  induction l with
  | nil => intro n b hb; exact absurd hb (List.not_mem_nil b)
  | cons s t ih =>
    intro n b hb
    rcases List.mem_cons.1 hb with h1 | h2
    · refine ⟨s, List.mem_cons_self s t, ?_, ?_⟩
      · rw [h1]
      · rw [h1]
        try simp
    · obtain ⟨a, ha, hba, hord⟩ := ih (n + 1) b h2
      exact ⟨a, List.mem_cons_of_mem s ha, hba, by push_cast at hord ⊢; omega⟩

theorem setOrdersFrom_idem (l : List ModelSect) :
    ∀ n, setOrdersFrom n (setOrdersFrom n l) = setOrdersFrom n l := by
  induction l with
  | nil => intro n; rfl
  | cons s t ih =>
    intro n
    simp only [setOrdersFrom]
    rw [ih (n + 1)]

theorem normOne_set_order (s : ModelSect) (k : Int) :
    normalizeOneSection { s with order := k } =
      { normalizeOneSection s with order := k } := by
  obtain ⟨i, t, lv, od, pid, cm, sm, st, src, hs, lu⟩ := s
  simp only [normalizeOneSection]
  repeat' split
  all_goals first
  | rfl
  | (simp_all [splitChar_ne_nil]; try rfl)

theorem setOrdersFrom_map_normOne (l : List ModelSect) :
    ∀ n, setOrdersFrom n (l.map normalizeOneSection) =
      (setOrdersFrom n l).map normalizeOneSection := by
  induction l with
  | nil => intro n; rfl
  | cons s t ih =>
    intro n
    simp only [setOrdersFrom, List.map_cons]
    rw [ih (n + 1), normOne_set_order s ((n : Nat) : Int)]

end generator

namespace generator

theorem setOrdersFrom_sorted (l : List ModelSect) :
    ∀ n, List.Sorted sectionLeP l → List.Sorted sectionLeP (setOrdersFrom n l) := by
  induction l with
  | nil => intro n h; exact h
  | cons s t ih =>
    intro n hs
    rw [List.sorted_cons] at hs
    simp only [setOrdersFrom]
    rw [List.sorted_cons]
    refine ⟨fun b hb => ?_, ih (n + 1) hs.2⟩
    obtain ⟨a, ha, hba, hord⟩ := setOrdersFrom_mem t (n + 1) b hb
    have hle := hs.1 a ha
    have hid : b.id = a.id := by rw [hba]
    unfold sectionLeP at hle ⊢
    rcases hle with h1 | ⟨h2, h3⟩
    · left
      rw [hid]
      exact h1
    · right
      refine ⟨?_, ?_⟩
      · rw [hid]; exact h2
      · show (n : Int) ≤ b.order
        push_cast at hord
        omega

theorem map_normOne_sorted (l : List ModelSect)
    (h : List.Sorted sectionLeP l) :
    List.Sorted sectionLeP (l.map normalizeOneSection) := by
  refine List.Pairwise.map normalizeOneSection ?_ h
  intro a b hab
  unfold sectionLeP at *
  rw [normOne_id, normOne_id, normOne_order, normOne_order]
  exact hab

theorem setOrdersFrom_map_id (l : List ModelSect) :
    ∀ n, (setOrdersFrom n l).map (fun s => s.id) = l.map (fun s => s.id) := by
  induction l with
  | nil => intro n; rfl
  | cons s t ih =>
    intro n
    simp only [setOrdersFrom, List.map_cons]
    rw [ih (n + 1)]

theorem map_normOne_map_id (l : List ModelSect) :
    (l.map normalizeOneSection).map (fun s => s.id) = l.map (fun s => s.id) := by
  rw [List.map_map]
  exact List.map_congr_left fun a _ => normOne_id a

theorem insertionSort_map_id_mem (l : List ModelSect) (id : Str)
    (h : id ∈ l.map (fun s => s.id)) :
    id ∈ (l.insertionSort sectionLeP).map (fun s => s.id) := by
  obtain ⟨b, hb, hbi⟩ := List.mem_map.1 h
  exact List.mem_map.2 ⟨b, ((List.perm_insertionSort sectionLeP l).mem_iff).2 hb, hbi⟩

end generator

namespace generator

theorem normTitle_no_newline (sec : ModelSect) (h1 : '\n' ∉ sec.title)
    (h2 : '\n' ∉ sec.id) : '\n' ∉ normTitle sec := by
  unfold normTitle
  split
  · exact titleFromID_no_newline sec.id h2
  · exact h1

/-- On a model already satisfying all pass invariants, `NormalizeDocModel`
only recomputes the root-section id list. -/
theorem normalize_fix_shape (M : DocModel)
    (hpol : ensurePolicyDefaults M = M)
    (hcanon : ensureCanonicalRootSections M = M)
    (hreq : M.policies.requiredSectionIDs ≠ [])
    (hresort : setOrdersFrom 0 (M.sections.insertionSort sectionLeP) = M.sections)
    (hheads : M.sections.map normalizeOneSection = M.sections) :
    NormalizeDocModel M =
      { M with document := { M.document with
          rootSectionIDs := computeRoots M.sections } } := by
  unfold NormalizeDocModel
  rw [hpol, hcanon, ensureRootSectionIDs_eq M hreq]
  have h1 : reindexSectionOrder { M with document := { M.document with
      rootSectionIDs := computeRoots M.sections } } =
      { M with document := { M.document with
        rootSectionIDs := computeRoots M.sections } } := by
    refine DocModel.ext rfl rfl ?_ rfl rfl
    show setOrdersFrom 0 (M.sections.insertionSort sectionLeP) = M.sections
    exact hresort
  have h2 : normalizeSectionHeadings { M with document := { M.document with
      rootSectionIDs := computeRoots M.sections } } =
      { M with document := { M.document with
        rootSectionIDs := computeRoots M.sections } } := by
    refine DocModel.ext rfl rfl ?_ rfl rfl
    show M.sections.map normalizeOneSection = M.sections
    exact hheads
  rw [h1, h2]

end generator

namespace generator

/-- One application of `NormalizeDocModel` establishes every pass
invariant, provided the input's section titles and ids are newline-free. -/
theorem normalize_establishes (m : DocModel)
    (h : ∀ sec ∈ m.sections, '\n' ∉ sec.title ∧ '\n' ∉ sec.id) :
    policyConditions (NormalizeDocModel m).policies ∧
    (∀ id ∈ canonicalSectionOrder,
      id ∈ (NormalizeDocModel m).sections.map (fun s => s.id)) ∧
    (NormalizeDocModel m).policies.requiredSectionIDs ≠ [] ∧
    setOrdersFrom 0 ((NormalizeDocModel m).sections.insertionSort sectionLeP) =
      (NormalizeDocModel m).sections ∧
    (NormalizeDocModel m).sections.map normalizeOneSection =
      (NormalizeDocModel m).sections := by
  have hsecN : (NormalizeDocModel m).sections =
      (setOrdersFrom 0 ((ensureRootSectionIDs (ensureCanonicalRootSections
        (ensurePolicyDefaults m))).sections.insertionSort sectionLeP)).map
        normalizeOneSection := rfl
  have hpolN : (NormalizeDocModel m).policies =
      (ensureRootSectionIDs (ensureCanonicalRootSections
        (ensurePolicyDefaults m))).policies := rfl
  have hm3sec : (ensureRootSectionIDs (ensureCanonicalRootSections
      (ensurePolicyDefaults m))).sections =
      (ensureCanonicalRootSections (ensurePolicyDefaults m)).sections :=
    ensureRootSectionIDs_sections _
  have hm3cond : policyConditions (ensureRootSectionIDs
      (ensureCanonicalRootSections (ensurePolicyDefaults m))).policies := by
    apply policyConditions_ensureRoots
    rw [ensureCanonical_policies]
    exact ensurePolicyDefaults_post m
  have hm2titles : ∀ a ∈ (ensureCanonicalRootSections
      (ensurePolicyDefaults m)).sections, '\n' ∉ a.title ∧ '\n' ∉ a.id := by
    obtain ⟨suf, hsuf, hmem⟩ := foldl_canonStep_extend canonicalSectionOrder
      ((ensurePolicyDefaults m).sections.map (fun s => s.id))
      (ensurePolicyDefaults m).sections
    intro a ha
    rw [show (ensureCanonicalRootSections (ensurePolicyDefaults m)).sections =
      canonicalSectionOrder.foldl
        (canonStep ((ensurePolicyDefaults m).sections.map (fun s => s.id)))
        (ensurePolicyDefaults m).sections from rfl, hsuf] at ha
    rcases List.mem_append.1 ha with h1 | h2
    · rw [ensurePolicyDefaults_sections] at h1
      exact h a h1
    · obtain ⟨cid, hcid, k, hk⟩ := hmem a h2
      have hcidnl : ('\n' : Char) ∉ cid := by
        simp only [canonicalSectionOrder, List.mem_cons, List.not_mem_nil,
          or_false] at hcid
        rcases hcid with rfl | rfl | rfl <;> decide
      subst hk
      constructor
      · rw [mkCanonicalSection_title]
        exact titleFromID_no_newline cid hcidnl
      · rw [mkCanonicalSection_id]
        exact hcidnl
  have hAtitles : ∀ a ∈ setOrdersFrom 0 ((ensureRootSectionIDs
      (ensureCanonicalRootSections (ensurePolicyDefaults m))).sections.insertionSort
        sectionLeP), '\n' ∉ normTitle a := by
    intro a ha
    obtain ⟨a0, ha0, haa0, _⟩ := setOrdersFrom_mem _ 0 a ha
    have ha0m : a0 ∈ (ensureCanonicalRootSections
        (ensurePolicyDefaults m)).sections := by
      rw [← hm3sec]
      exact ((List.perm_insertionSort sectionLeP _).mem_iff).1 ha0
    have hti := hm2titles a0 ha0m
    have htit : a.title = a0.title := by rw [haa0]
    have hid : a.id = a0.id := by rw [haa0]
    apply normTitle_no_newline
    · rw [htit]; exact hti.1
    · rw [hid]; exact hti.2
  have hAsorted : List.Sorted sectionLeP (setOrdersFrom 0
      ((ensureRootSectionIDs (ensureCanonicalRootSections
        (ensurePolicyDefaults m))).sections.insertionSort sectionLeP)) :=
    setOrdersFrom_sorted _ 0 (List.sorted_insertionSort sectionLeP _)
  have hNsorted : List.Sorted sectionLeP ((NormalizeDocModel m).sections) := by
    rw [hsecN]
    exact map_normOne_sorted _ hAsorted
  have hheads : (NormalizeDocModel m).sections.map normalizeOneSection =
      (NormalizeDocModel m).sections := by
    rw [hsecN, List.map_map]
    exact List.map_congr_left (fun a ha => normOne_idem a (hAtitles a ha))
  have hresort : setOrdersFrom 0
      ((NormalizeDocModel m).sections.insertionSort sectionLeP) =
      (NormalizeDocModel m).sections := by
    rw [List.Sorted.insertionSort_eq hNsorted, hsecN,
      setOrdersFrom_map_normOne _ 0, setOrdersFrom_idem _ 0]
  have hcanonN : ∀ id ∈ canonicalSectionOrder,
      id ∈ (NormalizeDocModel m).sections.map (fun s => s.id) := by
    intro id hid
    rw [hsecN, map_normOne_map_id, setOrdersFrom_map_id _ 0]
    apply insertionSort_map_id_mem
    rw [hm3sec]
    exact ensureCanonical_mem (ensurePolicyDefaults m) id hid
  exact ⟨by rw [hpolN]; exact hm3cond, hcanonN,
    by rw [hpolN]; exact ensureRootSectionIDs_req_ne _, hresort, hheads⟩

end generator

/-- C6 (amended): renormalizing changes at most the root-section-id list
(everything else is a fixpoint after one pass), and normalization is
idempotent from the second application on, for every model whose section
titles and ids contain no newline. -/
theorem C6_normalize_idempotent_amended (m : generator.DocModel)
    (h : ∀ sec ∈ m.sections, '\n' ∉ sec.title ∧ '\n' ∉ sec.id) :
    generator.NormalizeDocModel (generator.NormalizeDocModel m) =
      { generator.NormalizeDocModel m with
        document := { (generator.NormalizeDocModel m).document with
          rootSectionIDs :=
            generator.computeRoots (generator.NormalizeDocModel m).sections } } ∧
    generator.NormalizeDocModel (generator.NormalizeDocModel
        (generator.NormalizeDocModel m)) =
      generator.NormalizeDocModel (generator.NormalizeDocModel m) := by
  obtain ⟨q1, q2, q3, q4, q5⟩ := generator.normalize_establishes m h
  have hfix1 := generator.normalize_fix_shape (generator.NormalizeDocModel m)
    (generator.ensurePolicyDefaults_fix _ q1)
    (generator.ensureCanonical_fix _ q2) q3 q4 q5
  refine ⟨hfix1, ?_⟩
  rw [hfix1]
  have hfix2 := generator.normalize_fix_shape
    ({ generator.NormalizeDocModel m with
      document := { (generator.NormalizeDocModel m).document with
        rootSectionIDs :=
          generator.computeRoots (generator.NormalizeDocModel m).sections } })
    (generator.ensurePolicyDefaults_fix _ q1)
    (generator.ensureCanonical_fix _ q2) q3 q4 q5
  rw [hfix2]

def c6sec1 : generator.ModelSect :=
  { id := S "zz", title := S "zz", level := 1, order := 5, parentID := none,
    contentMD := S "# zz\n\nbody.", summary := [], status := S "active",
    sources := [], hash := [], lastUpdated := none }

def c6sec2 : generator.ModelSect :=
  { id := S "aa", title := S "aa", level := 1, order := 1, parentID := none,
    contentMD := S "# aa\n\nbody.", summary := [], status := S "active",
    sources := [], hash := [], lastUpdated := none }

def c6doc : generator.ModelDoc := { id := S "d", title := S "T", rootSectionIDs := [] }

def c6pol : generator.ModelPolicy :=
  { requiredSectionIDs := [S "zz"], maxSectionChars := 100,
    style := generator.defaultPolicyStyle }

def c6meta : generator.ModelMeta :=
  { repo := S ".", defaultBranch := S "main", generatedAt := S "t",
    generatorVersion := S "v" }

/-- Two parentless non-canonical sections whose stored `Order` fields
disagree with their stored order. -/
def c6m : generator.DocModel :=
  { schemaVersion := S "v0.1.0", document := c6doc,
    sections := [c6sec1, c6sec2], policies := c6pol, meta := c6meta }

/-- C6 (counterexample to the original claim): on `c6m` the second
normalization permutes `root_section_ids` (the first pass computes the
roots before re-sorting the sections), so `normalize ∘ normalize ≠
normalize` at `c6m`. -/
theorem C6_counterexample :
    (generator.NormalizeDocModel (generator.NormalizeDocModel c6m)).document.rootSectionIDs ≠
      (generator.NormalizeDocModel c6m).document.rootSectionIDs ∧
    generator.NormalizeDocModel (generator.NormalizeDocModel c6m) ≠
      generator.NormalizeDocModel c6m := by
  have h1 : (generator.NormalizeDocModel
      (generator.NormalizeDocModel c6m)).document.rootSectionIDs ≠
      (generator.NormalizeDocModel c6m).document.rootSectionIDs := by decide
  exact ⟨h1, fun he => h1 (by rw [he])⟩

/-- C6 (witness): the amended idempotence applied at `c6m`, whose titles
and ids are newline-free. -/
theorem C6_normalize_idempotent_amended_witness :
    generator.NormalizeDocModel (generator.NormalizeDocModel
        (generator.NormalizeDocModel c6m)) =
      generator.NormalizeDocModel (generator.NormalizeDocModel c6m) :=
  (C6_normalize_idempotent_amended c6m (by decide)).2
